import Mathlib

/-!
Session cache controller of `sessions_ai.cpp`.

A shallow embedding of the session state kept by
`app/src/main/cpp/sessions_ai.cpp` (the four globals `cached_prompt_tokens`,
`current_position`, `stop_generation_position`, `cached_token_chars`) and of the
functions that mutate it: `shift_context`, `decode_tokens_in_batches`,
`processPrompt`, `is_valid_utf8`, `generateNextToken` and `unload`.

The inference engine (llama.cpp) is external.  It is represented by

* an `Engine` record of oracles (tokenizer, decode outcome, sampler, end-of-generation
  test, token-to-bytes); the decode outcome and the sampler may depend on the whole
  history of calls, so every engine behaviour is covered;
* two ghost fields of the session: `trace`, the chronological list of state-changing
  engine calls, and `kv`, the resident cells of sequence 0 of the engine memory.

Positions and sizes are mathematical integers.  The source computes with `int32`
(`llama_pos`, `int`) and `size_t`; both agree with the integers as long as positions and
token counts stay below `2^31`, which is assumed throughout.  The one sum with an operand
the caller chooses freely, `current_position + n_predict`, is computed as the source
computes it: in `int32`, wrapping around in two's complement (`wrap32`).
-/

namespace SessionsAI

/-! ## Data model -/

/-- A `llama_token`. -/
abbrev Token := Int

/-- The constant `DEFAULT_CONTEXT_SIZE`. -/
def DEFAULT_CONTEXT_SIZE : Int := 8192

/-- The constant `BATCH_SIZE`. -/
def BATCH_SIZE : Nat := 512

/-- The constant `OVERFLOW_HEADROOM`. -/
def OVERFLOW_HEADROOM : Int := 4

/-- The value an `int32` variable holds after the mathematical result `x` of an `int32`
operation is stored in it: `x` reduced into `[-2^31, 2^31)` in two's complement. -/
def wrap32 (x : Int) : Int := (x + 2147483648) % 4294967296 - 2147483648

/-- One `common_batch_add(batch, token, pos, {0}, logits)`. -/
structure BatchEntry where
  token : Token
  pos : Int
  logits : Bool
deriving DecidableEq

/-- The state-changing calls into the engine, as they are recorded in `Session.trace`. -/
inductive EngineCall where
  | seqRm (p0 p1 : Int)
  | seqAdd (p0 p1 delta : Int)
  | decode (batch : List BatchEntry) (ok : Bool)
  | sample (tok : Token)
  | accept (tok : Token)
deriving DecidableEq

/-- One resident cell of the engine memory: a token at a position. -/
structure Cell where
  pos : Int
  token : Token
deriving DecidableEq

/-- The external engine: `common_tokenize`, the outcome of `llama_decode` (true when it
returns 0), `common_sampler_sample`, `llama_vocab_is_eog` and `common_token_to_piece`.
Decode outcome and sampled token are functions of the calls made so far. -/
structure Engine where
  tokenize : String → List Token
  decodeOk : List EngineCall → List BatchEntry → Bool
  sample : List EngineCall → Token
  isEog : Token → Bool
  tokenToPiece : Token → List Nat

/-- The globals of `sessions_ai.cpp` together with the engine-side ghost state. -/
structure Session where
  cached_prompt_tokens : List Token
  current_position : Int
  stop_generation_position : Int
  cached_token_chars : List Nat
  kv : List Cell
  trace : List EngineCall
deriving DecidableEq

/-- The session before the first call: the static initialisers of the globals and an
engine that has not been called. -/
def emptySession : Session := ⟨[], 0, 0, [], [], []⟩

/-! ## Engine memory -/

/-- Modelled from the spec: the position range `[p0, p1)` of the engine's
`removeMemoryRange` / `shiftMemoryRange` (llama.cpp `llama_memory_seq_rm`,
`llama_memory_seq_add`, not part of this repository), where a negative end means
"to the end". -/
def inRange (p0 p1 p : Int) : Bool :=
  decide (p0 ≤ p) && (decide (p1 < 0) || decide (p < p1))

/-- Modelled from the spec: `removeMemoryRange(seq = 0, p0, p1)` drops the cells whose
position lies in the range. -/
def memRm (kv : List Cell) (p0 p1 : Int) : List Cell :=
  kv.filter fun c => !inRange p0 p1 c.pos

/-- Modelled from the spec: `shiftMemoryRange(seq = 0, p0, p1, delta)` adds `delta` to
the position of the cells whose position lies in the range. -/
def memAdd (kv : List Cell) (p0 p1 delta : Int) : List Cell :=
  kv.map fun c => if inRange p0 p1 c.pos then { c with pos := c.pos + delta } else c

/-- Modelled from the spec: a decode that the engine accepts makes the tokens of the
batch resident at their positions. -/
def memStore (kv : List Cell) (batch : List BatchEntry) : List Cell :=
  kv ++ batch.map fun b => ⟨b.pos, b.token⟩

/-- The positions that hold a resident cell. -/
def positions (kv : List Cell) : List Int := kv.map Cell.pos

/-! ## `shift_context` -/

/-- The `n_discard` of `shift_context`: `current_position / 2` in C (truncating). -/
def n_discard (s : Session) : Int := Int.tdiv s.current_position 2

/-- The function `shift_context`. -/
def shift_context (s : Session) : Session :=
  { s with
    kv := memAdd (memRm s.kv 0 (n_discard s)) (n_discard s) s.current_position (-(n_discard s))
    trace := s.trace ++
      [EngineCall.seqRm 0 (n_discard s),
       EngineCall.seqAdd (n_discard s) s.current_position (-(n_discard s))]
    current_position := s.current_position - n_discard s }

/-! ## `decode_tokens_in_batches` -/

/-- The inner `for (j ...)` loop of `decode_tokens_in_batches`: the entries added to the
batch for the tokens of one chunk; `idx` is `i + j` and `size` is `tokens.size()`. -/
def fillBatch (start_pos : Int) (size : Nat) : Nat → List Token → List BatchEntry
  | _, [] => []
  | idx, t :: ts =>
      ⟨t, start_pos + idx, decide (idx = size - 1)⟩ :: fillBatch start_pos size (idx + 1) ts

/-- One `llama_decode(context, batch)`: the engine decides, the call is recorded, and an
accepted batch becomes resident. -/
def submit (e : Engine) (batch : List BatchEntry) (s : Session) : Bool × Session :=
  (e.decodeOk s.trace batch,
   { s with
     trace := s.trace ++ [EngineCall.decode batch (e.decodeOk s.trace batch)]
     kv := if e.decodeOk s.trace batch then memStore s.kv batch else s.kv })

/-- The offsets `i = 0, BATCH_SIZE, 2 * BATCH_SIZE, ...` below `n` that the outer loop of
`decode_tokens_in_batches` visits. -/
def chunkOffsets (n : Nat) : List Nat :=
  List.range' 0 ((n + (BATCH_SIZE - 1)) / BATCH_SIZE) BATCH_SIZE

/-- The `cur_batch_size` of the chunk at offset `i`. -/
def cur_batch_size (tokens : List Token) (i : Nat) : Nat := min (tokens.length - i) BATCH_SIZE

/-- The batch of the chunk at offset `i` after `common_batch_clear` and the inner loop:
the tokens `tokens[i .. i + cur_batch_size)` with the positions `start_pos + i + j`. -/
def chunkBatch (tokens : List Token) (start_pos : Int) (i : Nat) : List BatchEntry :=
  fillBatch start_pos tokens.length i ((tokens.drop i).take (cur_batch_size tokens i))

/-- The body of the outer loop of `decode_tokens_in_batches`, run for the offsets of the
list in order; the first rejected chunk ends the loop with status 1. -/
def decodeChunks (e : Engine) (tokens : List Token) (start_pos : Int) :
    List Nat → Session → Int × Session
  | [], s => (0, s)
  | i :: rest, s =>
      let s1 :=
        if start_pos + i + cur_batch_size tokens i ≥ DEFAULT_CONTEXT_SIZE - OVERFLOW_HEADROOM then
          shift_context s
        else s
      let r := submit e (chunkBatch tokens start_pos i) s1
      if r.1 then decodeChunks e tokens start_pos rest r.2 else (1, r.2)

/-- The function `decode_tokens_in_batches`. -/
def decode_tokens_in_batches (e : Engine) (tokens : List Token) (start_pos : Int)
    (s : Session) : Int × Session :=
  decodeChunks e tokens start_pos (chunkOffsets tokens.length) s

/-! ## `processPrompt` -/

/-- The `while` loop of `processPrompt` that advances `common_prefix_len`; `fuel` bounds
the number of iterations. -/
def prefixLoop (cached user : List Token) : Nat → Nat → Nat
  | 0, k => k
  | fuel + 1, k =>
      if k < cached.length ∧ k < user.length ∧ cached[k]? = user[k]? then
        prefixLoop cached user fuel (k + 1)
      else k

/-- The value of `common_prefix_len` after the loop.  Every iteration increases the index,
which stays below `cached.size()`, so `cached.length` iterations are never exceeded. -/
def common_prefix_len (cached user : List Token) : Nat :=
  prefixLoop cached user cached.length 0

/-- The cache invalidation of `processPrompt` (the `if (common_prefix_len <
cached_prompt_tokens.size())` block). -/
def truncateCache (k : Nat) (s : Session) : Session :=
  if k < s.cached_prompt_tokens.length then
    { s with
      kv := memRm s.kv k (-1)
      trace := s.trace ++ [EngineCall.seqRm k (-1)]
      cached_prompt_tokens := s.cached_prompt_tokens.take k
      current_position := k }
  else s

/-- The `new_tokens` of `processPrompt`: the tokens of the prompt after the common prefix. -/
def newTokens (e : Engine) (prompt : String) (s : Session) : List Token :=
  (e.tokenize prompt).drop (common_prefix_len s.cached_prompt_tokens (e.tokenize prompt))

/-- The session of `processPrompt` when it calls `decode_tokens_in_batches`: after the cache
invalidation and the shift taken when position plus new tokens exceed `max_batch_size`. -/
def beforeDecode (e : Engine) (prompt : String) (s : Session) : Session :=
  let s1 := truncateCache (common_prefix_len s.cached_prompt_tokens (e.tokenize prompt)) s
  if s1.current_position + (newTokens e prompt s).length >
      DEFAULT_CONTEXT_SIZE - OVERFLOW_HEADROOM then
    shift_context s1
  else s1

/-- The function `processPrompt`; the result is the returned status and the new session. -/
def processPrompt (e : Engine) (prompt : String) (n_predict : Int) (s : Session) :
    Int × Session :=
  let new_tokens := newTokens e prompt s
  let s2 := beforeDecode e prompt s
  let r := decode_tokens_in_batches e new_tokens s2.current_position s2
  if r.1 = 0 then
    (0, { r.2 with
          cached_prompt_tokens := r.2.cached_prompt_tokens ++ new_tokens
          current_position := r.2.current_position + new_tokens.length
          stop_generation_position :=
            wrap32 (r.2.current_position + new_tokens.length + n_predict) })
  else (1, r.2)

/-! ## `is_valid_utf8` and `generateNextToken` -/

/-- The scan of `is_valid_utf8` over the bytes of a NUL-terminated buffer, the terminator
being the end of the list or the first zero byte.  `need` is the number of iterations the
inner `for` loop still has to run (`num - i`); with `need = 0` the next byte is read by
the `while` condition and classified as a leading byte. -/
def utf8Scan : Nat → List Nat → Bool
  | 0, [] => true
  | _ + 1, [] => false
  | 0, b :: bs =>
      if b = 0 then true
      else if b &&& 0x80 = 0x00 then utf8Scan 0 bs
      else if b &&& 0xE0 = 0xC0 then utf8Scan 1 bs
      else if b &&& 0xF0 = 0xE0 then utf8Scan 2 bs
      else if b &&& 0xF8 = 0xF0 then utf8Scan 3 bs
      else false
  | need + 1, b :: bs => if b &&& 0xC0 = 0x80 then utf8Scan need bs else false

/-- The function `is_valid_utf8`, applied to the buffer of a `std::string`. -/
def is_valid_utf8 (string : List Nat) : Bool := utf8Scan 0 string

/-- The C string that `c_str()` denotes for a reader that stops at the terminator (as
`NewStringUTF` does): the bytes before the first zero byte. -/
def c_str (bytes : List Nat) : List Nat := bytes.takeWhile fun b => b != 0

/-- The bytes of one multi-byte character, in the words of the specification: a leading
byte whose high bits announce two, three or four bytes in total (`110xxxxx`, `1110xxxx`,
`11110xxx`), followed by exactly the announced number of continuation bytes `10xxxxxx`. -/
def isMultiByteChar : List Nat → Bool
  | [] => false
  | b :: rest =>
      rest.all (fun c => c &&& 0xC0 == 0x80) &&
      ((b &&& 0xE0 == 0xC0 && rest.length == 1) ||
       (b &&& 0xF0 == 0xE0 && rest.length == 2) ||
       (b &&& 0xF8 == 0xF0 && rest.length == 3))

/-- A complete unit, in the words of the specification: a leading byte followed by exactly
the number of continuation bytes its high bits announce (`0xxxxxxx`: none, `110xxxxx`: one,
`1110xxxx`: two, `11110xxx`: three), every continuation byte of the form `10xxxxxx`. -/
def isCompleteUnit : List Nat → Bool
  | [] => false
  | b :: rest =>
      rest.all (fun c => c &&& 0xC0 == 0x80) &&
      ((b &&& 0x80 == 0x00 && rest.length == 0) ||
       (b &&& 0xE0 == 0xC0 && rest.length == 1) ||
       (b &&& 0xF0 == 0xE0 && rest.length == 2) ||
       (b &&& 0xF8 == 0xF0 && rest.length == 3))

/-- The scan of `is_valid_utf8` with its memory reads: the result of `utf8Scan` together
with the index of every byte the scan dereferences, in order.  `idx` is the index in the
buffer of the head of the list; the empty list is the terminator that ends the buffer of
the `std::string`, at index `size()`. -/
def utf8ScanReads : Nat → Nat → List Nat → Bool × List Nat
  | 0, idx, [] => (true, [idx])
  | _ + 1, idx, [] => (false, [idx])
  | 0, idx, b :: bs =>
      if b = 0 then (true, [idx])
      else if b &&& 0x80 = 0x00 then
        ((utf8ScanReads 0 (idx + 1) bs).1, idx :: (utf8ScanReads 0 (idx + 1) bs).2)
      else if b &&& 0xE0 = 0xC0 then
        ((utf8ScanReads 1 (idx + 1) bs).1, idx :: (utf8ScanReads 1 (idx + 1) bs).2)
      else if b &&& 0xF0 = 0xE0 then
        ((utf8ScanReads 2 (idx + 1) bs).1, idx :: (utf8ScanReads 2 (idx + 1) bs).2)
      else if b &&& 0xF8 = 0xF0 then
        ((utf8ScanReads 3 (idx + 1) bs).1, idx :: (utf8ScanReads 3 (idx + 1) bs).2)
      else (false, [idx])
  | need + 1, idx, b :: bs =>
      if b &&& 0xC0 = 0x80 then
        ((utf8ScanReads need (idx + 1) bs).1, idx :: (utf8ScanReads need (idx + 1) bs).2)
      else (false, [idx])

/-- The standard UTF-8 encoding of a string, as bytes: the encoding that `String.toUTF8`
stores, character by character. -/
def utf8Bytes (text : String) : List Nat :=
  (text.data.flatMap String.utf8EncodeChar).map UInt8.toNat

/-- The conditional shift at the top of `generateNextToken`. -/
def shiftIfFull (s : Session) : Session :=
  if s.current_position ≥ DEFAULT_CONTEXT_SIZE - OVERFLOW_HEADROOM then shift_context s else s

/-- The tail of `generateNextToken` (from `cached_token_chars += new_token_chars` on): the
piece is appended to the pending bytes; a valid buffer is returned as a C string and
cleared, an invalid one is kept and the empty string is returned.  The result is the
returned text and the new `cached_token_chars`. -/
def emit (pending piece : List Nat) : List Nat × List Nat :=
  if is_valid_utf8 (pending ++ piece) then (c_str (pending ++ piece), [])
  else ([], pending ++ piece)

/-- The `new_token_id` that `generateNextToken` samples when it gets past the stop check. -/
def sampledToken (e : Engine) (s : Session) : Token := e.sample (shiftIfFull s).trace

/-- The session of `generateNextToken` after `common_sampler_sample` and
`common_sampler_accept`. -/
def afterSample (e : Engine) (s : Session) : Session :=
  { shiftIfFull s with
    trace := (shiftIfFull s).trace ++
      [EngineCall.sample (sampledToken e s), EngineCall.accept (sampledToken e s)] }

/-- The single-token `llama_decode` of `generateNextToken`: its outcome and the session
after it. -/
def stepDecode (e : Engine) (s : Session) : Bool × Session :=
  submit e [⟨sampledToken e s, (afterSample e s).current_position, true⟩] (afterSample e s)

/-- The session of `generateNextToken` after `current_position++` and the `push_back`. -/
def advanced (e : Engine) (s : Session) : Session :=
  { (stepDecode e s).2 with
    current_position := (stepDecode e s).2.current_position + 1
    cached_prompt_tokens := (stepDecode e s).2.cached_prompt_tokens ++ [sampledToken e s] }

/-- The function `generateNextToken`; `none` is the returned `nullptr`. -/
def generateNextToken (e : Engine) (s : Session) : Option (List Nat) × Session :=
  if (shiftIfFull s).current_position ≥ (shiftIfFull s).stop_generation_position then
    (none, shiftIfFull s)
  else if (stepDecode e s).1 then
    if e.isEog (sampledToken e s) then (none, advanced e s)
    else
      (some (emit (advanced e s).cached_token_chars (e.tokenToPiece (sampledToken e s))).1,
       { advanced e s with
         cached_token_chars :=
           (emit (advanced e s).cached_token_chars (e.tokenToPiece (sampledToken e s))).2 })
  else (none, (stepDecode e s).2)

/-! ## `load`, `unload` and runs -/

/-- The function `load`, when model and context are created: it touches none of the session
globals.  The new context is the engine parameter of the calls that follow. -/
def load (s : Session) : Int × Session := (0, s)

/-- The function `unload`: clears the token cache and the position; freeing the context
releases the engine memory. -/
def unload (s : Session) : Session :=
  { s with cached_prompt_tokens := [], current_position := 0, kv := [] }

/-- The calls a client can make on a loaded session. -/
inductive Op where
  | processPrompt (prompt : String) (n_predict : Int)
  | generateNextToken
  | unload
deriving DecidableEq

/-- The session after one call. -/
def applyOp (e : Engine) (op : Op) (s : Session) : Session :=
  match op with
  | Op.processPrompt prompt n_predict => (processPrompt e prompt n_predict s).2
  | Op.generateNextToken => (generateNextToken e s).2
  | Op.unload => unload s

/-- The session after a sequence of calls. -/
def runOps (e : Engine) : List Op → Session → Session
  | [], s => s
  | op :: ops, s => runOps e ops (applyOp e op s)

/-- The sessions that a sequence of calls produces from the empty session. -/
def Reachable (e : Engine) (s : Session) : Prop :=
  ∃ ops, runOps e ops emptySession = s

/-- A run of `processPrompt` and `generateNextToken` calls from `s` in which every prompt
has a non-negative budget, every prompt that succeeds ends at a position whose sum with
the budget fits an `int32`, and every prompt that fails is entered with the position at
the end of the token cache. -/
def calmRun (e : Engine) : List Op → Session → Bool
  | [], _ => true
  | Op.processPrompt prompt n_predict :: ops, s =>
      decide (0 ≤ n_predict) &&
      (if (processPrompt e prompt n_predict s).1 = 0 then
        decide ((processPrompt e prompt n_predict s).2.current_position + n_predict ≤
          2147483647)
      else decide (s.current_position = s.cached_prompt_tokens.length)) &&
      calmRun e ops (processPrompt e prompt n_predict s).2
  | Op.generateNextToken :: ops, s => calmRun e ops (generateNextToken e s).2
  | Op.unload :: _, _ => false

/-- A run of `n` consecutive `generateNextToken` calls: the returned values in call order
and the final session. -/
def steps (e : Engine) : Nat → Session → List (Option (List Nat)) × Session
  | 0, s => ([], s)
  | n + 1, s =>
      let r := generateNextToken e s
      let rest := steps e n r.2
      (r.1 :: rest.1, rest.2)

/-- The batch entries that the `llama_decode` calls of a trace carry, in submission order. -/
def submitted : List EngineCall → List BatchEntry
  | [] => []
  | EngineCall.decode batch _ :: tr => batch ++ submitted tr
  | _ :: tr => submitted tr

/-- The `llama_decode` calls of a trace in call order: the batch of each call and whether
the engine accepted it. -/
def decodes : List EngineCall → List (List BatchEntry × Bool)
  | [] => []
  | EngineCall.decode batch ok :: tr => (batch, ok) :: decodes tr
  | _ :: tr => decodes tr

/-- The memory operations (`llama_memory_seq_rm`, `llama_memory_seq_add`) of a trace. -/
def memOps (tr : List EngineCall) : List EngineCall :=
  tr.filter fun c => match c with
    | EngineCall.seqRm _ _ => true
    | EngineCall.seqAdd _ _ _ => true
    | _ => false

/-- The number of `common_sampler_sample` calls in a trace. -/
def sampleCount (tr : List EngineCall) : Nat :=
  tr.countP fun c => match c with
    | EngineCall.sample _ => true
    | _ => false

/-! ## Concrete engines used for evaluation -/

/-- A tokenizer that turns every character into its code point. -/
def codePoints (text : String) : List Token := text.data.map fun c => (c.toNat : Int)

/-- An engine that accepts every decode, always samples token `65` (piece `"A"`), and
whose only end-of-generation token is `2`. -/
def okEngine : Engine where
  tokenize := codePoints
  decodeOk := fun _ _ => true
  sample := fun _ => 65
  isEog := fun t => decide (t = 2)
  tokenToPiece := fun t => [t.toNat % 256]

/-- An engine like `okEngine` whose first sampled token is `1` with the piece `E2 82` and
whose later tokens are `2` with the piece `AC`: the character U+20AC split over two
tokens.  No token ends the generation. -/
def euroEngine : Engine where
  tokenize := codePoints
  decodeOk := fun _ _ => true
  sample := fun tr => if sampleCount tr = 0 then 1 else 2
  isEog := fun _ => false
  tokenToPiece := fun t => if t = 1 then [0xE2, 0x82] else [0xAC]

/-- An engine like `okEngine` whose sampled token `7` has a piece with an embedded zero
byte. -/
def nulEngine : Engine where
  tokenize := codePoints
  decodeOk := fun _ _ => true
  sample := fun _ => 7
  isEog := fun t => decide (t = 2)
  tokenToPiece := fun _ => [0x41, 0x00, 0x42]

/-- An engine like `okEngine` that always samples its end-of-generation token `2`. -/
def eogEngine : Engine where
  tokenize := codePoints
  decodeOk := fun _ _ => true
  sample := fun _ => 2
  isEog := fun t => decide (t = 2)
  tokenToPiece := fun t => [t.toNat % 256]

/-- An engine like `okEngine` whose first sampled token is `1` with the one-byte piece
`E2` (a byte-fallback token) and whose later tokens are `65` with the piece `"A"`. -/
def leadByteEngine : Engine where
  tokenize := codePoints
  decodeOk := fun _ _ => true
  sample := fun tr => if sampleCount tr = 0 then 1 else 65
  isEog := fun t => decide (t = 2)
  tokenToPiece := fun t => if t = 1 then [0xE2] else [t.toNat % 256]

/-- An engine like `okEngine` that always samples token `100` and rejects every batch
that carries token `100` (the letter `d`). -/
def pickyEngine : Engine where
  tokenize := codePoints
  decodeOk := fun _ b => b.all fun x => decide (x.token ≠ 100)
  sample := fun _ => 100
  isEog := fun t => decide (t = 2)
  tokenToPiece := fun t => [t.toNat % 256]

/-- A prompt of `n` characters that starts with `pre` and continues with the letter `c`. -/
def paddedPrompt (pre : List Char) (n : Nat) : String :=
  ⟨pre ++ List.replicate (n - pre.length) 'c'⟩

/-- The session after the empty session has processed the prompt `"ab"`. -/
def abSession : Session := (processPrompt okEngine "ab" 0 emptySession).2

/-- A prompt of `n` letters `c` followed by the letter `d`. -/
def rejectedPrompt (n : Nat) : String := ⟨List.replicate n 'c' ++ ['d']⟩

/-- Calls that lead `pickyEngine` from the empty session to a position above the stop
position: a prompt of 8188 tokens; a step, which shifts and whose decode is rejected; the
same prompt again, which succeeds without new tokens; and a prompt that shares 8000 tokens
with the cache and whose last token is rejected. -/
def staleStopOps : List Op :=
  [Op.processPrompt (paddedPrompt [] 8188) 0, Op.generateNextToken,
   Op.processPrompt (paddedPrompt [] 8188) 0, Op.processPrompt (rejectedPrompt 8000) 0]

/-- The session after the empty session has processed a prompt with the tokens `1 2 3 4`. -/
def fourSession : Session := (processPrompt okEngine "\x01\x02\x03\x04" 0 emptySession).2

/-- The session after the empty session has processed the prompt `"a"` with a budget of
five tokens. -/
def promptedSession (e : Engine) : Session := (processPrompt e "a" 5 emptySession).2

/-- The text returned by a run of calls, concatenated in call order (`nullptr` counts as
no text). -/
def emitted (results : List (Option (List Nat))) : List Nat :=
  (results.map fun r => r.getD []).flatten

/-- The tokens that a run from `s` to `s1` appended to the token cache. -/
def generated (s s1 : Session) : List Token :=
  s1.cached_prompt_tokens.drop s.cached_prompt_tokens.length

/-- The session after `leadByteEngine` has processed the prompt `"a"` and generated one
token: the byte `E2` is pending. -/
def leadSession : Session :=
  runOps leadByteEngine [Op.processPrompt "a" 5, Op.generateNextToken] emptySession

/-! ## The prefix matcher -/

theorem prefixLoop_spec (cached user : List Token) :
    ∀ fuel k, k ≤ cached.length → k ≤ user.length →
      (∀ i, i < k → cached[i]? = user[i]?) → cached.length ≤ k + fuel →
      prefixLoop cached user fuel k ≤ cached.length ∧
      prefixLoop cached user fuel k ≤ user.length ∧
      (∀ i, i < prefixLoop cached user fuel k → cached[i]? = user[i]?) ∧
      (prefixLoop cached user fuel k = cached.length ∨
        prefixLoop cached user fuel k = user.length ∨
        cached[prefixLoop cached user fuel k]? ≠ user[prefixLoop cached user fuel k]?) := by
  intro fuel
  induction fuel with
  | zero =>
      intro k hc hu hag hfuel
      simp only [prefixLoop]
      exact ⟨hc, hu, hag, Or.inl (by omega)⟩
  | succ fuel ih =>
      intro k hc hu hag hfuel
      simp only [prefixLoop]
      split
      · next h =>
          obtain ⟨h1, h2, h3⟩ := h
          apply ih (k + 1) (by omega) (by omega) _ (by omega)
          intro i hi
          rcases Nat.lt_succ_iff_lt_or_eq.mp hi with h | h
          · exact hag i h
          · subst h; exact h3
      · next h =>
          refine ⟨hc, hu, hag, ?_⟩
          by_cases h1 : k < cached.length
          · by_cases h2 : k < user.length
            · right; right
              intro h3
              exact h ⟨h1, h2, h3⟩
            · right; left; omega
          · left; omega

theorem common_prefix_len_le_cached (cached user : List Token) :
    common_prefix_len cached user ≤ cached.length :=
  (prefixLoop_spec cached user cached.length 0 (Nat.zero_le _) (Nat.zero_le _)
    (fun _ h => absurd h (Nat.not_lt_zero _)) (by omega)).1

theorem common_prefix_len_le_user (cached user : List Token) :
    common_prefix_len cached user ≤ user.length :=
  (prefixLoop_spec cached user cached.length 0 (Nat.zero_le _) (Nat.zero_le _)
    (fun _ h => absurd h (Nat.not_lt_zero _)) (by omega)).2.1

theorem common_prefix_len_agree (cached user : List Token) (i : Nat)
    (h : i < common_prefix_len cached user) : cached[i]? = user[i]? :=
  (prefixLoop_spec cached user cached.length 0 (Nat.zero_le _) (Nat.zero_le _)
    (fun _ h => absurd h (Nat.not_lt_zero _)) (by omega)).2.2.1 i h

theorem common_prefix_len_stop (cached user : List Token) :
    common_prefix_len cached user = cached.length ∨
    common_prefix_len cached user = user.length ∨
    cached[common_prefix_len cached user]? ≠ user[common_prefix_len cached user]? :=
  (prefixLoop_spec cached user cached.length 0 (Nat.zero_le _) (Nat.zero_le _)
    (fun _ h => absurd h (Nat.not_lt_zero _)) (by omega)).2.2.2

theorem common_prefix_len_take (cached user : List Token) :
    cached.take (common_prefix_len cached user) = user.take (common_prefix_len cached user) := by
  apply List.ext_getElem?
  intro i
  by_cases h : i < common_prefix_len cached user
  · rw [List.getElem?_take_of_lt h, List.getElem?_take_of_lt h]
    exact common_prefix_len_agree cached user i h
  · rw [List.getElem?_eq_none (by simp; omega), List.getElem?_eq_none (by simp; omega)]

/-- Claim C2 (PrefixMatcher).  For every pair of token sequences the computed
`common_prefix_len` is at most the length of either sequence, the two sequences agree at
every index below it, it either equals the shorter length or the sequences differ at that
index, and no longer agreeing length exists: it is the largest length on which both
sequences agree element-wise.  The computation is a pure function of the two sequences,
so it changes neither of them. -/
theorem common_prefix_len_spec (cached incoming : List Token) :
    common_prefix_len cached incoming ≤ min cached.length incoming.length ∧
    (∀ i, i < common_prefix_len cached incoming → cached[i]? = incoming[i]?) ∧
    (common_prefix_len cached incoming = min cached.length incoming.length ∨
      cached[common_prefix_len cached incoming]? ≠
        incoming[common_prefix_len cached incoming]?) ∧
    (∀ k, k ≤ min cached.length incoming.length →
      (∀ i, i < k → cached[i]? = incoming[i]?) → k ≤ common_prefix_len cached incoming) := by
  have h1 := common_prefix_len_le_cached cached incoming
  have h2 := common_prefix_len_le_user cached incoming
  have h3 := common_prefix_len_stop cached incoming
  refine ⟨by omega, common_prefix_len_agree cached incoming, ?_, ?_⟩
  · rcases h3 with h | h | h
    · left; omega
    · left; omega
    · right; exact h
  · intro k hk hag
    by_contra hlt
    have hlt : common_prefix_len cached incoming < k := by omega
    rcases h3 with h | h | h
    · omega
    · omega
    · exact h (hag _ hlt)

/-! ## Context shift -/

theorem n_discard_eq (s : Session) (h : 0 ≤ s.current_position) :
    n_discard s = s.current_position / 2 :=
  Int.tdiv_eq_ediv h (by decide)

theorem mem_memRm (kv : List Cell) (p0 p1 : Int) (c : Cell) :
    c ∈ memRm kv p0 p1 ↔ c ∈ kv ∧ inRange p0 p1 c.pos = false := by
  simp [memRm, List.mem_filter]

theorem mem_memAdd (kv : List Cell) (p0 p1 delta : Int) (c : Cell) :
    c ∈ memAdd kv p0 p1 delta ↔
      ∃ c0, c0 ∈ kv ∧ (if inRange p0 p1 c0.pos then { c0 with pos := c0.pos + delta } else c0) = c := by
  simp [memAdd, List.mem_map]

theorem inRange_iff (p0 p1 p : Int) :
    inRange p0 p1 p = true ↔ p0 ≤ p ∧ (p1 < 0 ∨ p < p1) := by
  simp [inRange]

theorem inRange_empty (p : Int) : inRange 0 0 p = false := by
  cases h : inRange 0 0 p
  · rfl
  · rw [inRange_iff] at h; omega

theorem memRm_empty (kv : List Cell) : memRm kv 0 0 = kv := by
  simp [memRm, inRange_empty]

theorem memAdd_empty (kv : List Cell) (delta : Int) : memAdd kv 0 0 delta = kv := by
  simp [memAdd, inRange_empty]

theorem shift_context_position (s : Session) :
    (shift_context s).current_position = s.current_position - n_discard s := rfl

theorem shift_context_zero (s : Session) (h : s.current_position = 0) :
    shift_context s =
      { s with trace := s.trace ++ [EngineCall.seqRm 0 0, EngineCall.seqAdd 0 0 0] } := by
  have hd : n_discard s = 0 := by simp [n_discard, h]
  cases s
  simp only [shift_context, hd] at *
  subst h
  simp [memRm_empty, memAdd_empty]

theorem shift_context_nonneg (s : Session) (h : 0 ≤ s.current_position) :
    0 ≤ (shift_context s).current_position := by
  rw [shift_context_position, n_discard_eq s h]
  omega

theorem shift_context_le (s : Session) (h : 0 ≤ s.current_position) :
    (shift_context s).current_position ≤ s.current_position := by
  rw [shift_context_position, n_discard_eq s h]
  omega

theorem iterate_shift_nonneg (n : Nat) :
    ∀ s : Session, 0 ≤ s.current_position → 0 ≤ (shift_context^[n] s).current_position := by
  induction n with
  | zero => intro s h; exact h
  | succ n ih =>
      intro s h
      rw [Function.iterate_succ_apply]
      exact ih _ (shift_context_nonneg s h)

theorem iterate_shift_zero (n : Nat) :
    ∀ s : Session, s.current_position = 0 →
      { shift_context^[n] s with trace := s.trace } = s := by
  induction n with
  | zero => intro s _; rfl
  | succ n ih =>
      intro s h
      rw [Function.iterate_succ_apply]
      have h1 := shift_context_zero s h
      have h2 := ih (shift_context s) (by rw [h1]; exact h)
      rw [h1] at h2 ⊢
      cases s
      simp only [Session.mk.injEq] at h2 ⊢
      simp_all

/-- Claim C8 (shift halves the window).  For a position `c >= 0`, `shift_context`
computes `n_discard = floor(c / 2)`, asks the engine to remove the positions
`[0, n_discard)` and then to move the positions `[n_discard, c)` by `-n_discard`, and sets
the position to `c - n_discard`.  If the resident positions were exactly `[0, c)` before,
they are exactly `[0, c - n_discard)` after, and the cell now at `p` is the cell that was
at `p + n_discard`. -/
theorem shift_context_halves (s : Session) (h : 0 ≤ s.current_position) :
    n_discard s = s.current_position / 2 ∧
    (shift_context s).current_position = s.current_position - s.current_position / 2 ∧
    (shift_context s).trace = s.trace ++
      [EngineCall.seqRm 0 (s.current_position / 2),
       EngineCall.seqAdd (s.current_position / 2) s.current_position
         (-(s.current_position / 2))] ∧
    (shift_context s).kv =
      memAdd (memRm s.kv 0 (s.current_position / 2)) (s.current_position / 2)
        s.current_position (-(s.current_position / 2)) ∧
    ((∀ p, p ∈ positions s.kv ↔ 0 ≤ p ∧ p < s.current_position) →
      (∀ p, p ∈ positions (shift_context s).kv ↔
        0 ≤ p ∧ p < s.current_position - s.current_position / 2) ∧
      (∀ p t, (⟨p, t⟩ : Cell) ∈ (shift_context s).kv ↔
        0 ≤ p ∧ (⟨p + s.current_position / 2, t⟩ : Cell) ∈ s.kv)) := by
  have hd := n_discard_eq s h
  refine ⟨hd, by rw [shift_context_position, hd], by simp [shift_context, hd],
    by simp [shift_context, hd], ?_⟩
  intro hres
  have hcell : ∀ p t, (⟨p, t⟩ : Cell) ∈ (shift_context s).kv ↔
      0 ≤ p ∧ (⟨p + s.current_position / 2, t⟩ : Cell) ∈ s.kv := by
    intro p t
    simp only [shift_context, hd, mem_memAdd, mem_memRm]
    constructor
    · rintro ⟨c0, ⟨hc0, hrm⟩, heq⟩
      have hpos : 0 ≤ c0.pos ∧ c0.pos < s.current_position :=
        (hres c0.pos).mp (List.mem_map_of_mem _ hc0)
      have hnot : ¬ (0 ≤ c0.pos ∧ (s.current_position / 2 < 0 ∨ c0.pos < s.current_position / 2)) := by
        rw [← inRange_iff, hrm]; simp
      have hin : inRange (s.current_position / 2) s.current_position c0.pos = true := by
        rw [inRange_iff]; omega
      rw [if_pos hin] at heq
      cases c0 with
      | mk q u =>
        simp only [Cell.mk.injEq] at heq
        obtain ⟨h1, h2⟩ := heq
        subst h1 h2
        simp only at hnot hpos
        refine ⟨by omega, ?_⟩
        have : q + -(s.current_position / 2) + s.current_position / 2 = q := by omega
        rw [this]; exact hc0
    · rintro ⟨hp, hmem⟩
      have hpos : 0 ≤ p + s.current_position / 2 ∧ p + s.current_position / 2 < s.current_position :=
        (hres _).mp (List.mem_map_of_mem Cell.pos hmem)
      refine ⟨⟨p + s.current_position / 2, t⟩, ⟨hmem, ?_⟩, ?_⟩
      · cases hr : inRange 0 (s.current_position / 2) (p + s.current_position / 2)
        · rfl
        · rw [inRange_iff] at hr; omega
      · have hin : inRange (s.current_position / 2) s.current_position
            (p + s.current_position / 2) = true := by
          rw [inRange_iff]; omega
        simp only [hin, if_true, Cell.mk.injEq, and_true]
        omega
  refine ⟨?_, hcell⟩
  intro p
  constructor
  · intro hp
    obtain ⟨c, hc, rfl⟩ := List.mem_map.mp hp
    have hc2 := (hcell c.pos c.token).mp hc
    have := (hres _).mp (List.mem_map_of_mem Cell.pos hc2.2)
    simp only at this
    omega
  · rintro ⟨hp0, hp1⟩
    have hq : p + s.current_position / 2 ∈ positions s.kv := (hres _).mpr (by omega)
    obtain ⟨c, hc, hcp⟩ := List.mem_map.mp hq
    have : (⟨p, c.token⟩ : Cell) ∈ (shift_context s).kv := by
      rw [hcell]
      refine ⟨hp0, ?_⟩
      rw [← hcp]
      exact hc
    exact List.mem_map_of_mem Cell.pos this

/-- Witness for claim C8: position 8188 gives `n_discard = 4094` and the new position
4094; and a session with the resident positions `0 1 2 3` at position 4 keeps exactly the
positions `0 1`, holding the tokens that were at `2 3`. -/
theorem shift_context_halves_witness :
    n_discard { emptySession with current_position := 8188 } = 4094 ∧
    (shift_context { emptySession with current_position := 8188 }).current_position = 4094 ∧
    positions fourSession.kv = [0, 1, 2, 3] ∧
    fourSession.current_position = 4 ∧
    (1 ∈ positions (shift_context fourSession).kv ↔ (0 : Int) ≤ 1 ∧ (1 : Int) < 4 - 4 / 2) ∧
    (2 ∈ positions (shift_context fourSession).kv ↔ (0 : Int) ≤ 2 ∧ (2 : Int) < 4 - 4 / 2) ∧
    ((⟨0, 3⟩ : Cell) ∈ (shift_context fourSession).kv ↔
      (0 : Int) ≤ 0 ∧ (⟨0 + 4 / 2, 3⟩ : Cell) ∈ fourSession.kv) := by
  have h := shift_context_halves { emptySession with current_position := 8188 } (by decide)
  have hpos : positions fourSession.kv = [0, 1, 2, 3] := by decide
  have hcur : fourSession.current_position = 4 := by decide
  have hres : ∀ p, p ∈ positions fourSession.kv ↔ 0 ≤ p ∧ p < fourSession.current_position := by
    intro p
    rw [hpos, hcur]
    simp only [List.mem_cons, List.mem_singleton, List.not_mem_nil, or_false]
    omega
  have h4 := (shift_context_halves fourSession (by decide)).2.2.2.2 hres
  rw [hcur] at h4
  exact ⟨h.1.trans (by decide), h.2.1.trans (by decide), hpos, hcur, h4.1 1, h4.1 2, h4.2 0 3⟩

/-- Claim C9 (shift under repeated pressure).  At position 0 `shift_context` discards
nothing: `n_discard = 0`, and after any number of repeated calls every field of the
session other than the call trace (position, token cache, stop position, pending bytes,
engine memory) is what it was; each call only issues a remove and a move over the empty
range.  From a position `>= 0` the position stays `>= 0` after any number of calls. -/
theorem shift_context_idle (s : Session) :
    (s.current_position = 0 →
      n_discard s = 0 ∧
      (∀ n, { shift_context^[n] s with trace := s.trace } = s) ∧
      (shift_context s).trace = s.trace ++ [EngineCall.seqRm 0 0, EngineCall.seqAdd 0 0 0]) ∧
    (0 ≤ s.current_position → ∀ n, 0 ≤ (shift_context^[n] s).current_position) := by
  refine ⟨fun h => ⟨by simp [n_discard, h], fun n => iterate_shift_zero n s h, ?_⟩,
    fun h n => iterate_shift_nonneg n s h⟩
  rw [shift_context_zero s h]

/-- Witness for claim C9: the empty session is unchanged by three shifts, and three shifts
from position 8188 leave a non-negative position. -/
theorem shift_context_idle_witness :
    n_discard emptySession = 0 ∧
    { shift_context^[3] emptySession with trace := emptySession.trace } = emptySession ∧
    (shift_context emptySession).trace = [EngineCall.seqRm 0 0, EngineCall.seqAdd 0 0 0] ∧
    0 ≤ (shift_context^[3] { emptySession with current_position := 8188 }).current_position :=
  ⟨((shift_context_idle emptySession).1 rfl).1,
   ((shift_context_idle emptySession).1 rfl).2.1 3,
   ((shift_context_idle emptySession).1 rfl).2.2,
   (shift_context_idle { emptySession with current_position := 8188 }).2 (by decide) 3⟩

/-! ## Batched decode -/

theorem shift_context_frame (s : Session) :
    (shift_context s).cached_prompt_tokens = s.cached_prompt_tokens ∧
    (shift_context s).stop_generation_position = s.stop_generation_position ∧
    (shift_context s).cached_token_chars = s.cached_token_chars :=
  ⟨rfl, rfl, rfl⟩

theorem submit_frame (e : Engine) (b : List BatchEntry) (s : Session) :
    (submit e b s).2.cached_prompt_tokens = s.cached_prompt_tokens ∧
    (submit e b s).2.current_position = s.current_position ∧
    (submit e b s).2.stop_generation_position = s.stop_generation_position ∧
    (submit e b s).2.cached_token_chars = s.cached_token_chars :=
  ⟨rfl, rfl, rfl, rfl⟩

theorem decodeChunks_frame (e : Engine) (tokens : List Token) (sp : Int) :
    ∀ (offs : List Nat) (s : Session),
      (decodeChunks e tokens sp offs s).2.cached_prompt_tokens = s.cached_prompt_tokens ∧
      (decodeChunks e tokens sp offs s).2.stop_generation_position =
        s.stop_generation_position ∧
      (decodeChunks e tokens sp offs s).2.cached_token_chars = s.cached_token_chars := by
  intro offs
  induction offs with
  | nil => intro s; exact ⟨rfl, rfl, rfl⟩
  | cons i rest ih =>
      intro s
      simp only [decodeChunks]
      split
      · split
        · next h =>
            have := ih (submit e (chunkBatch tokens sp i) (shift_context s)).2
            exact this
        · exact ⟨rfl, rfl, rfl⟩
      · split
        · exact ih (submit e (chunkBatch tokens sp i) s).2
        · exact ⟨rfl, rfl, rfl⟩

theorem decodeChunks_position_le (e : Engine) (tokens : List Token) (sp : Int) :
    ∀ (offs : List Nat) (s : Session), 0 ≤ s.current_position →
      0 ≤ (decodeChunks e tokens sp offs s).2.current_position ∧
      (decodeChunks e tokens sp offs s).2.current_position ≤ s.current_position := by
  intro offs
  induction offs with
  | nil => intro s h; exact ⟨h, le_refl _⟩
  | cons i rest ih =>
      intro s h
      have h1 := shift_context_nonneg s h
      have h2 := shift_context_le s h
      simp only [decodeChunks]
      split
      · split
        · have := ih (submit e (chunkBatch tokens sp i) (shift_context s)).2 h1
          exact ⟨this.1, le_trans this.2 h2⟩
        · exact ⟨h1, h2⟩
      · split
        · exact ih (submit e (chunkBatch tokens sp i) s).2 h
        · exact ⟨h, le_refl _⟩

theorem decodeChunks_position_zero (e : Engine) (tokens : List Token) (sp : Int)
    (offs : List Nat) (s : Session) (h : s.current_position = 0) :
    (decodeChunks e tokens sp offs s).2.current_position = 0 := by
  have := decodeChunks_position_le e tokens sp offs s (by omega)
  omega

theorem decodeChunks_accepting (e : Engine) (hok : ∀ tr b, e.decodeOk tr b = true)
    (tokens : List Token) (sp : Int) :
    ∀ (offs : List Nat) (s : Session), (decodeChunks e tokens sp offs s).1 = 0 := by
  intro offs
  induction offs with
  | nil => intro s; rfl
  | cons i rest ih =>
      intro s
      simp only [decodeChunks, submit, hok, if_true]
      exact ih _

theorem decodeChunks_status (e : Engine) (tokens : List Token) (sp : Int) :
    ∀ (offs : List Nat) (s : Session),
      (decodeChunks e tokens sp offs s).1 = 0 ∨ (decodeChunks e tokens sp offs s).1 = 1 := by
  intro offs
  induction offs with
  | nil => intro s; exact Or.inl rfl
  | cons i rest ih =>
      intro s
      simp only [decodeChunks]
      split <;> split
      · exact ih _
      · exact Or.inr rfl
      · exact ih _
      · exact Or.inr rfl

/-- The session after a decode loop in which no chunk reaches the window limit: the
position is untouched. -/
theorem decodeChunks_noShift_position (e : Engine) (tokens : List Token) (sp : Int) :
    ∀ (offs : List Nat) (s : Session),
      (∀ i, i ∈ offs → sp + i + cur_batch_size tokens i <
        DEFAULT_CONTEXT_SIZE - OVERFLOW_HEADROOM) →
      (decodeChunks e tokens sp offs s).2.current_position = s.current_position := by
  intro offs
  induction offs with
  | nil => intro s _; rfl
  | cons i rest ih =>
      intro s hb
      have hi := hb i (List.mem_cons_self _ _)
      simp only [decodeChunks, ge_iff_le, not_le.mpr hi, if_false]
      split
      · rw [ih _ (fun j hj => hb j (List.mem_cons_of_mem _ hj))]
        rfl
      · rfl

/-- The session after a successful decode loop in which no chunk reaches the window
limit: every chunk was submitted and accepted, and became resident. -/
theorem decodeChunks_noShift (e : Engine) (tokens : List Token) (sp : Int) :
    ∀ (offs : List Nat) (s : Session),
      (∀ i, i ∈ offs → sp + i + cur_batch_size tokens i <
        DEFAULT_CONTEXT_SIZE - OVERFLOW_HEADROOM) →
      (decodeChunks e tokens sp offs s).1 = 0 →
      (decodeChunks e tokens sp offs s).2 =
        { s with
          trace := s.trace ++ offs.map fun i => EngineCall.decode (chunkBatch tokens sp i) true
          kv := s.kv ++ (offs.map fun i =>
            (chunkBatch tokens sp i).map fun b => (⟨b.pos, b.token⟩ : Cell)).flatten } := by
  intro offs
  induction offs with
  | nil => intro s _ _; simp [decodeChunks]
  | cons i rest ih =>
      intro s hb hst
      have hi := hb i (List.mem_cons_self _ _)
      simp only [decodeChunks, ge_iff_le, not_le.mpr hi, if_false] at hst ⊢
      cases hok : (submit e (chunkBatch tokens sp i) s).1
      · rw [hok] at hst; simp at hst
      · rw [hok] at hst
        simp only [if_true] at hst ⊢
        rw [ih _ (fun j hj => hb j (List.mem_cons_of_mem _ hj)) hst]
        simp only [submit] at hok
        simp [submit, hok, memStore, List.append_assoc]

/-! ## Chunking -/

theorem fillBatch_append (sp : Int) (n : Nat) :
    ∀ (a b : List Token) (i : Nat),
      fillBatch sp n i (a ++ b) = fillBatch sp n i a ++ fillBatch sp n (i + a.length) b := by
  intro a
  induction a with
  | nil => intro b i; simp [fillBatch]
  | cons t ts ih =>
      intro b i
      have h : i + 1 + ts.length = i + (ts.length + 1) := by omega
      rw [List.cons_append, fillBatch, fillBatch, ih, List.length_cons, h, List.cons_append]

theorem fillBatch_length (sp : Int) (n : Nat) :
    ∀ (l : List Token) (i : Nat), (fillBatch sp n i l).length = l.length := by
  intro l
  induction l with
  | nil => intro i; rfl
  | cons t ts ih => intro i; simp [fillBatch, ih]

theorem fillBatch_getElem? (sp : Int) (n : Nat) :
    ∀ (l : List Token) (i j : Nat),
      (fillBatch sp n i l)[j]? =
        l[j]?.map fun t => (⟨t, sp + ((i + j : Nat) : Int), decide (i + j = n - 1)⟩ : BatchEntry) := by
  intro l
  induction l with
  | nil => intro i j; simp [fillBatch]
  | cons t ts ih =>
      intro i j
      cases j with
      | zero => simp [fillBatch]
      | succ j =>
          simp only [fillBatch, List.getElem?_cons_succ, ih]
          have : i + 1 + j = i + (j + 1) := by omega
          rw [this]

theorem fillBatch_tokens (sp : Int) (n : Nat) :
    ∀ (l : List Token) (i : Nat), (fillBatch sp n i l).map BatchEntry.token = l := by
  intro l
  induction l with
  | nil => intro i; rfl
  | cons t ts ih => intro i; simp [fillBatch, ih]

theorem chunk_take (tokens : List Token) (i : Nat) :
    (tokens.drop i).take (cur_batch_size tokens i) = (tokens.drop i).take BATCH_SIZE := by
  unfold cur_batch_size
  by_cases h : tokens.length - i ≤ BATCH_SIZE
  · rw [Nat.min_eq_left h, List.take_of_length_le (by simp),
      List.take_of_length_le (by simpa using h)]
  · rw [Nat.min_eq_right (by omega)]

theorem chunks_flatten (tokens : List Token) (sp : Int) :
    ∀ (m i : Nat),
      ((List.range' i m BATCH_SIZE).map (chunkBatch tokens sp)).flatten =
        fillBatch sp tokens.length i ((tokens.drop i).take (m * BATCH_SIZE)) := by
  intro m
  induction m with
  | zero => intro i; simp [fillBatch]
  | succ m ih =>
      intro i
      rw [List.range'_succ, List.map_cons, List.flatten_cons, ih (i + BATCH_SIZE)]
      have hsplit : (tokens.drop i).take ((m + 1) * BATCH_SIZE) =
          (tokens.drop i).take BATCH_SIZE ++
            (tokens.drop (i + BATCH_SIZE)).take (m * BATCH_SIZE) := by
        have : (m + 1) * BATCH_SIZE = BATCH_SIZE + m * BATCH_SIZE := by ring
        rw [this, List.take_add, List.drop_drop]
      rw [hsplit, fillBatch_append, chunkBatch, chunk_take]
      congr 1
      by_cases h : BATCH_SIZE ≤ tokens.length - i
      · have : ((tokens.drop i).take BATCH_SIZE).length = BATCH_SIZE := by
          simp [List.length_take]; omega
        rw [this]
      · have : tokens.drop (i + BATCH_SIZE) = [] := by
          apply List.drop_eq_nil_of_le; omega
        simp [this, fillBatch]

/-- The chunks of `decode_tokens_in_batches`, concatenated in submission order, are the
entries of the whole token sequence. -/
theorem chunkOffsets_flatten (tokens : List Token) (sp : Int) :
    ((chunkOffsets tokens.length).map (chunkBatch tokens sp)).flatten =
      fillBatch sp tokens.length 0 tokens := by
  rw [chunkOffsets, chunks_flatten, List.drop_zero, List.take_of_length_le]
  have := Nat.lt_div_mul_add (a := tokens.length + (BATCH_SIZE - 1)) (b := BATCH_SIZE) (by decide)
  simp only [BATCH_SIZE] at this ⊢
  omega

theorem mem_chunkOffsets (n i : Nat) (h : i ∈ chunkOffsets n) : i < n := by
  simp only [chunkOffsets, List.mem_range', BATCH_SIZE] at h
  obtain ⟨j, hj, rfl⟩ := h
  omega

theorem chunk_end_le (tokens : List Token) (i : Nat) (h : i ∈ chunkOffsets tokens.length) :
    i + cur_batch_size tokens i ≤ tokens.length := by
  have := mem_chunkOffsets _ _ h
  unfold cur_batch_size
  omega

theorem submitted_append (a b : List EngineCall) :
    submitted (a ++ b) = submitted a ++ submitted b := by
  induction a with
  | nil => rfl
  | cons c cs ih => cases c <;> simp [submitted, ih]

theorem submitted_decodes (f : Nat → List BatchEntry) (offs : List Nat) :
    submitted (offs.map fun i => EngineCall.decode (f i) true) = (offs.map f).flatten := by
  induction offs with
  | nil => rfl
  | cons i rest ih => simp [submitted, ih]

theorem memOps_decodes (f : Nat → List BatchEntry) (offs : List Nat) :
    memOps (offs.map fun i => EngineCall.decode (f i) true) = [] := by
  induction offs with
  | nil => rfl
  | cons i rest ih => simp [memOps]

/-! ## Prompt processing -/

theorem truncateCache_position (k : Nat) (s : Session)
    (hk : k ≤ s.cached_prompt_tokens.length)
    (hcur : s.current_position = s.cached_prompt_tokens.length) :
    (truncateCache k s).current_position = k := by
  unfold truncateCache
  split
  · rfl
  · rw [hcur]; congr 1; omega

theorem truncateCache_cached (k : Nat) (s : Session)
    (hk : k ≤ s.cached_prompt_tokens.length) :
    (truncateCache k s).cached_prompt_tokens = s.cached_prompt_tokens.take k := by
  unfold truncateCache
  split
  · rfl
  · rw [List.take_of_length_le (by omega)]

theorem truncateCache_frame (k : Nat) (s : Session) :
    (truncateCache k s).stop_generation_position = s.stop_generation_position ∧
    (truncateCache k s).cached_token_chars = s.cached_token_chars := by
  unfold truncateCache
  split <;> exact ⟨rfl, rfl⟩

theorem truncateCache_kv_below (k : Nat) (s : Session) :
    (truncateCache k s).kv.filter (fun c => decide (c.pos < (k : Int))) =
      s.kv.filter (fun c => decide (c.pos < (k : Int))) := by
  unfold truncateCache
  split
  · simp only [memRm, List.filter_filter]
    apply List.filter_congr
    intro c _
    cases h : inRange (↑k) (-1) c.pos
    · simp
    · rw [inRange_iff] at h
      simp
      omega
  · rfl

theorem fillBatch_positions (k n : Nat) :
    ∀ (l : List Token) (i : Nat),
      (fillBatch (k : Int) n i l).map BatchEntry.pos =
        (List.range' (k + i) l.length).map Int.ofNat := by
  intro l
  induction l with
  | nil => intro i; rfl
  | cons t ts ih =>
      intro i
      simp only [fillBatch, List.map_cons, List.length_cons, List.range'_succ, ih (i + 1)]
      congr 1

theorem processPrompt_status (e : Engine) (prompt : String) (n : Int) (s : Session) :
    (processPrompt e prompt n s).1 =
      (decode_tokens_in_batches e (newTokens e prompt s)
        (beforeDecode e prompt s).current_position (beforeDecode e prompt s)).1 := by
  simp only [processPrompt]
  split
  · next h => exact h.symm
  · next h =>
      rcases decodeChunks_status e (newTokens e prompt s)
        (beforeDecode e prompt s).current_position
        (chunkOffsets (newTokens e prompt s).length) (beforeDecode e prompt s) with h1 | h1
      · exact absurd h1 h
      · exact h1.symm

theorem processPrompt_success (e : Engine) (prompt : String) (n : Int) (s : Session)
    (h : (processPrompt e prompt n s).1 = 0) :
    (processPrompt e prompt n s).2 =
      { (decode_tokens_in_batches e (newTokens e prompt s)
          (beforeDecode e prompt s).current_position (beforeDecode e prompt s)).2 with
        cached_prompt_tokens :=
          (decode_tokens_in_batches e (newTokens e prompt s)
            (beforeDecode e prompt s).current_position
            (beforeDecode e prompt s)).2.cached_prompt_tokens ++ newTokens e prompt s
        current_position :=
          (decode_tokens_in_batches e (newTokens e prompt s)
            (beforeDecode e prompt s).current_position
            (beforeDecode e prompt s)).2.current_position + (newTokens e prompt s).length
        stop_generation_position :=
          wrap32 ((decode_tokens_in_batches e (newTokens e prompt s)
            (beforeDecode e prompt s).current_position
            (beforeDecode e prompt s)).2.current_position + (newTokens e prompt s).length + n) } := by
  rw [processPrompt_status] at h
  simp only [processPrompt, h, if_true]

theorem processPrompt_failure (e : Engine) (prompt : String) (n : Int) (s : Session)
    (h : (processPrompt e prompt n s).1 ≠ 0) :
    (processPrompt e prompt n s).2 =
      (decode_tokens_in_batches e (newTokens e prompt s)
        (beforeDecode e prompt s).current_position (beforeDecode e prompt s)).2 := by
  rw [processPrompt_status] at h
  simp only [processPrompt, h, if_false]

/-- Claim C1 (prefix reuse), amended to prompts of fewer than 8188 tokens.  Let the
session hold the cache `C` at position `len(C)`, let `T` be the tokens of the prompt with
`len(T) < DEFAULT_CONTEXT_SIZE - OVERFLOW_HEADROOM`, and let `processPrompt` succeed.  With
`k` the common prefix length of `C` and `T`: the resident cells below position `k` are
untouched; the only memory operation is the removal from position `k` to the end, issued
when `k < len(C)`; the decoded entries are exactly the tokens `T[k:]` in order at the
positions `k, k+1, ..., len(T)-1`; and the call ends with the cache equal to `T` and the
position equal to `len(T)`. -/
theorem processPrompt_prefix_reuse (e : Engine) (s : Session) (P : String) (n : Int)
    (hcur : s.current_position = s.cached_prompt_tokens.length)
    (hlen : ((e.tokenize P).length : Int) < DEFAULT_CONTEXT_SIZE - OVERFLOW_HEADROOM)
    (hok : (processPrompt e P n s).1 = 0) :
    (processPrompt e P n s).2.cached_prompt_tokens = e.tokenize P ∧
    (processPrompt e P n s).2.current_position = (e.tokenize P).length ∧
    (processPrompt e P n s).2.kv.filter
        (fun c => decide (c.pos < (common_prefix_len s.cached_prompt_tokens (e.tokenize P) : Int))) =
      s.kv.filter
        (fun c => decide (c.pos < (common_prefix_len s.cached_prompt_tokens (e.tokenize P) : Int))) ∧
    ∃ calls, (processPrompt e P n s).2.trace = s.trace ++ calls ∧
      memOps calls =
        (if common_prefix_len s.cached_prompt_tokens (e.tokenize P) < s.cached_prompt_tokens.length
          then [EngineCall.seqRm (common_prefix_len s.cached_prompt_tokens (e.tokenize P)) (-1)]
          else []) ∧
      (submitted calls).map BatchEntry.token =
        (e.tokenize P).drop (common_prefix_len s.cached_prompt_tokens (e.tokenize P)) ∧
      (submitted calls).map BatchEntry.pos =
        (List.range' (common_prefix_len s.cached_prompt_tokens (e.tokenize P))
          ((e.tokenize P).length -
            common_prefix_len s.cached_prompt_tokens (e.tokenize P))).map Int.ofNat := by
  have hkc := common_prefix_len_le_cached s.cached_prompt_tokens (e.tokenize P)
  have hku := common_prefix_len_le_user s.cached_prompt_tokens (e.tokenize P)
  have htake := common_prefix_len_take s.cached_prompt_tokens (e.tokenize P)
  generalize hk : common_prefix_len s.cached_prompt_tokens (e.tokenize P) = k at *
  generalize hT : e.tokenize P = T at *
  have hnew : newTokens e P s = T.drop k := by simp [newTokens, hT, hk]
  have hnewlen : (newTokens e P s).length = T.length - k := by simp [hnew]
  have htp := truncateCache_position k s hkc hcur
  have hbd : beforeDecode e P s = truncateCache k s := by
    simp only [beforeDecode, hT, hk, htp, hnewlen]
    rw [if_neg]
    simp only [DEFAULT_CONTEXT_SIZE, OVERFLOW_HEADROOM] at hlen ⊢
    omega
  have hbound : ∀ i, i ∈ chunkOffsets (T.drop k).length →
      (k : Int) + i + cur_batch_size (T.drop k) i < DEFAULT_CONTEXT_SIZE - OVERFLOW_HEADROOM := by
    intro i hi
    have h1 := chunk_end_le (T.drop k) i hi
    simp only [List.length_drop] at h1
    simp only [DEFAULT_CONTEXT_SIZE, OVERFLOW_HEADROOM] at hlen ⊢
    omega
  have hst := hok
  rw [processPrompt_status, hbd, hnew, htp] at hst
  have hdec := decodeChunks_noShift e (T.drop k) k (chunkOffsets (T.drop k).length)
    (truncateCache k s) hbound hst
  rw [processPrompt_success e P n s hok, hbd, hnew, htp]
  simp only [decode_tokens_in_batches, hdec, htp, truncateCache_cached k s hkc]
  refine ⟨?_, ?_, ?_, ?_⟩
  · rw [htake, List.take_append_drop]
  · simp only [List.length_drop]; omega
  · rw [List.filter_append, truncateCache_kv_below]
    have : ((List.map (fun i => List.map (fun b => ({ pos := b.pos, token := b.token } : Cell))
        (chunkBatch (T.drop k) (↑k) i)) (chunkOffsets (T.drop k).length)).flatten).filter
        (fun c => decide (c.pos < (k : Int))) = [] := by
      rw [List.filter_eq_nil_iff]
      intro c hc
      simp only [List.mem_flatten, List.mem_map] at hc
      obtain ⟨l, ⟨i, _, rfl⟩, hc⟩ := hc
      simp only [List.mem_map] at hc
      obtain ⟨b, hb, rfl⟩ := hc
      have hpos : b.pos ∈ (chunkBatch (T.drop k) (↑k) i).map BatchEntry.pos :=
        List.mem_map_of_mem _ hb
      rw [chunkBatch, fillBatch_positions] at hpos
      simp only [List.mem_map, List.mem_range'_1] at hpos
      obtain ⟨q, hq, hqe⟩ := hpos
      simp only [decide_eq_true_eq, not_lt]
      rw [← hqe]
      simp only [Int.ofNat_eq_coe]
      omega
    rw [this, List.append_nil]
  · refine ⟨(if k < s.cached_prompt_tokens.length then [EngineCall.seqRm k (-1)] else []) ++
      (chunkOffsets (T.drop k).length).map
        (fun i => EngineCall.decode (chunkBatch (T.drop k) k i) true), ?_, ?_, ?_, ?_⟩
    · unfold truncateCache
      split <;> simp
    · rw [memOps, List.filter_append]
      have := memOps_decodes (chunkBatch (T.drop k) k) (chunkOffsets (T.drop k).length)
      rw [memOps] at this
      rw [this]
      split <;> simp
    · rw [submitted_append, submitted_decodes, chunkOffsets_flatten, List.map_append,
        fillBatch_tokens]
      split <;> simp [submitted]
    · rw [submitted_append, submitted_decodes, chunkOffsets_flatten, List.map_append,
        fillBatch_positions]
      split <;> simp [submitted]

theorem shift_context_small (s : Session) (h0 : 0 ≤ s.current_position)
    (h1 : s.current_position ≤ 1) :
    (shift_context s).current_position = s.current_position := by
  rw [shift_context_position, n_discard_eq s h0]
  omega

theorem decodeChunks_position_small (e : Engine) (tokens : List Token) (sp : Int) :
    ∀ (offs : List Nat) (s : Session), 0 ≤ s.current_position → s.current_position ≤ 1 →
      (decodeChunks e tokens sp offs s).2.current_position = s.current_position := by
  intro offs
  induction offs with
  | nil => intro s _ _; rfl
  | cons i rest ih =>
      intro s h0 h1
      have hs := shift_context_small s h0 h1
      simp only [decodeChunks]
      split <;> split
      · rw [ih _ (by rw [(submit_frame _ _ _).2.1, hs]; exact h0)
          (by rw [(submit_frame _ _ _).2.1, hs]; exact h1)]
        exact hs
      · exact hs
      · rw [ih _ (by rw [(submit_frame _ _ _).2.1]; exact h0)
          (by rw [(submit_frame _ _ _).2.1]; exact h1)]
        rfl
      · rfl

theorem decodeChunks_trace (e : Engine) (tokens : List Token) (sp : Int) :
    ∀ (offs : List Nat) (s : Session),
      ∃ calls, (decodeChunks e tokens sp offs s).2.trace = s.trace ++ calls := by
  intro offs
  induction offs with
  | nil => intro s; exact ⟨[], by simp [decodeChunks]⟩
  | cons i rest ih =>
      intro s
      simp only [decodeChunks]
      split <;> split
      · obtain ⟨calls, hc⟩ := ih (submit e (chunkBatch tokens sp i) (shift_context s)).2
        rw [hc]
        simp only [submit, shift_context, List.append_assoc]
        exact ⟨_, rfl⟩
      · simp only [submit, shift_context, List.append_assoc]
        exact ⟨_, rfl⟩
      · obtain ⟨calls, hc⟩ := ih (submit e (chunkBatch tokens sp i) s).2
        rw [hc]
        simp only [submit, List.append_assoc]
        exact ⟨_, rfl⟩
      · simp only [submit]
        exact ⟨_, rfl⟩

theorem processPrompt_accepting (e : Engine) (hok : ∀ tr b, e.decodeOk tr b = true)
    (prompt : String) (n : Int) (s : Session) : (processPrompt e prompt n s).1 = 0 := by
  rw [processPrompt_status]
  exact decodeChunks_accepting e hok _ _ _ _

theorem tokenize_paddedPrompt_ab (n : Nat) :
    okEngine.tokenize (paddedPrompt ['a', 'b'] n) = 97 :: 98 :: List.replicate (n - 2) 99 := by
  simp [okEngine, codePoints, paddedPrompt]

theorem common_prefix_len_ab (tail : List Token) :
    common_prefix_len [97, 98] (97 :: 98 :: tail) = 2 := by
  simp [common_prefix_len, prefixLoop]

/-- Witness for claim C1: cache `1 2 3 4`, prompt tokens `1 2 3 5 6`; the common prefix is
3, memory from position 3 on is removed, `5 6` are decoded at positions 3 and 4, and the
position ends at 5. -/
theorem processPrompt_prefix_reuse_witness :
    fourSession.cached_prompt_tokens = [1, 2, 3, 4] ∧
    okEngine.tokenize "\x01\x02\x03\x05\x06" = [1, 2, 3, 5, 6] ∧
    common_prefix_len [1, 2, 3, 4] [1, 2, 3, 5, 6] = 3 ∧
    (processPrompt okEngine "\x01\x02\x03\x05\x06" 0 fourSession).2.cached_prompt_tokens =
      [1, 2, 3, 5, 6] ∧
    (processPrompt okEngine "\x01\x02\x03\x05\x06" 0 fourSession).2.current_position = 5 ∧
    memOps ((processPrompt okEngine "\x01\x02\x03\x05\x06" 0 fourSession).2.trace.drop
      fourSession.trace.length) = [EngineCall.seqRm 3 (-1)] ∧
    submitted ((processPrompt okEngine "\x01\x02\x03\x05\x06" 0 fourSession).2.trace.drop
      fourSession.trace.length) = [⟨5, 3, false⟩, ⟨6, 4, true⟩] := by
  have h := processPrompt_prefix_reuse okEngine fourSession "\x01\x02\x03\x05\x06" 0
    (by decide) (by decide) (by decide)
  refine ⟨by decide, by decide, by decide, h.1.trans (by decide), h.2.1.trans (by decide),
    by decide, by decide⟩

/-- Counterexample to claim C1 as stated: with the cache `97 98` at position 2 and a
prompt of 8189 tokens that starts with `97 98`, every decode succeeds and the common prefix
is 2, yet the shift taken before the decode removes position 0 (inside the common prefix)
and the call ends at position 8188, not at `len(T) = 8189`. -/
theorem processPrompt_prefix_reuse_counterexample :
    abSession.current_position = abSession.cached_prompt_tokens.length ∧
    (processPrompt okEngine (paddedPrompt ['a', 'b'] 8189) 0 abSession).1 = 0 ∧
    (okEngine.tokenize (paddedPrompt ['a', 'b'] 8189)).length = 8189 ∧
    common_prefix_len abSession.cached_prompt_tokens
      (okEngine.tokenize (paddedPrompt ['a', 'b'] 8189)) = 2 ∧
    EngineCall.seqRm 0 1 ∈
      (processPrompt okEngine (paddedPrompt ['a', 'b'] 8189) 0 abSession).2.trace ∧
    (processPrompt okEngine (paddedPrompt ['a', 'b'] 8189) 0 abSession).2.current_position =
      8188 ∧
    (processPrompt okEngine (paddedPrompt ['a', 'b'] 8189) 0 abSession).2.current_position ≠
      ((okEngine.tokenize (paddedPrompt ['a', 'b'] 8189)).length : Int) := by
  have hab : abSession = ⟨[97, 98], 2, 2, [], [⟨0, 97⟩, ⟨1, 98⟩],
      [EngineCall.decode [⟨97, 0, false⟩, ⟨98, 1, true⟩] true]⟩ := by decide
  have hT := tokenize_paddedPrompt_ab 8189
  have hlen : (okEngine.tokenize (paddedPrompt ['a', 'b'] 8189)).length = 8189 := by
    rw [hT]; simp only [List.length_cons, List.length_replicate]
  have hk : common_prefix_len abSession.cached_prompt_tokens
      (okEngine.tokenize (paddedPrompt ['a', 'b'] 8189)) = 2 := by
    rw [hT, hab]; exact common_prefix_len_ab _
  have hacc : ∀ tr b, okEngine.decodeOk tr b = true := fun _ _ => rfl
  have hst := processPrompt_accepting okEngine hacc (paddedPrompt ['a', 'b'] 8189) 0 abSession
  have hnew : (newTokens okEngine (paddedPrompt ['a', 'b'] 8189) abSession).length = 8187 := by
    rw [newTokens, hk, List.length_drop, hlen]
  have hbd : beforeDecode okEngine (paddedPrompt ['a', 'b'] 8189) abSession =
      shift_context abSession := by
    have htr : truncateCache 2 abSession = abSession := by decide
    simp only [beforeDecode, hk, htr, hnew]
    rw [if_pos]
    rw [hab]; decide
  have hsh : (shift_context abSession).current_position = 1 := by decide
  have hpos : (processPrompt okEngine (paddedPrompt ['a', 'b'] 8189) 0
      abSession).2.current_position = 8188 := by
    rw [processPrompt_success _ _ _ _ hst, hbd]
    simp only [decode_tokens_in_batches]
    rw [decodeChunks_position_small _ _ _ _ _ (by rw [hsh]; decide) (by rw [hsh]), hsh, hnew]
    decide
  refine ⟨by decide, hst, hlen, hk, ?_, hpos, ?_⟩
  · rw [processPrompt_success _ _ _ _ hst, hbd]
    simp only [decode_tokens_in_batches]
    obtain ⟨calls, hc⟩ := decodeChunks_trace okEngine
      (newTokens okEngine (paddedPrompt ['a', 'b'] 8189) abSession)
      (shift_context abSession).current_position
      (chunkOffsets (newTokens okEngine (paddedPrompt ['a', 'b'] 8189) abSession).length)
      (shift_context abSession)
    rw [hc]
    apply List.mem_append_left
    decide
  · rw [hpos, hlen]; decide

/-! ## Generation step -/

theorem shiftIfFull_frame (s : Session) :
    (shiftIfFull s).cached_prompt_tokens = s.cached_prompt_tokens ∧
    (shiftIfFull s).stop_generation_position = s.stop_generation_position ∧
    (shiftIfFull s).cached_token_chars = s.cached_token_chars := by
  unfold shiftIfFull
  split
  · exact shift_context_frame s
  · exact ⟨rfl, rfl, rfl⟩

theorem shiftIfFull_below (s : Session)
    (h : s.current_position < DEFAULT_CONTEXT_SIZE - OVERFLOW_HEADROOM) : shiftIfFull s = s := by
  unfold shiftIfFull
  rw [if_neg (not_le.mpr h)]

theorem shiftIfFull_full (s : Session)
    (h : s.current_position ≥ DEFAULT_CONTEXT_SIZE - OVERFLOW_HEADROOM) :
    shiftIfFull s = shift_context s := by
  unfold shiftIfFull
  rw [if_pos h]

theorem shiftIfFull_position_le (s : Session) (h : 0 ≤ s.current_position) :
    0 ≤ (shiftIfFull s).current_position ∧
    (shiftIfFull s).current_position ≤ s.current_position := by
  unfold shiftIfFull
  split
  · exact ⟨shift_context_nonneg s h, shift_context_le s h⟩
  · exact ⟨h, le_refl _⟩

theorem stepDecode_frame (e : Engine) (s : Session) :
    (stepDecode e s).2.cached_prompt_tokens = s.cached_prompt_tokens ∧
    (stepDecode e s).2.current_position = (shiftIfFull s).current_position ∧
    (stepDecode e s).2.stop_generation_position = s.stop_generation_position ∧
    (stepDecode e s).2.cached_token_chars = s.cached_token_chars := by
  have h := shiftIfFull_frame s
  exact ⟨h.1, rfl, h.2.1, h.2.2⟩

theorem advanced_frame (e : Engine) (s : Session) :
    (advanced e s).cached_prompt_tokens = s.cached_prompt_tokens ++ [sampledToken e s] ∧
    (advanced e s).current_position = (shiftIfFull s).current_position + 1 ∧
    (advanced e s).stop_generation_position = s.stop_generation_position ∧
    (advanced e s).cached_token_chars = s.cached_token_chars := by
  have h := stepDecode_frame e s
  refine ⟨?_, ?_, h.2.2.1, h.2.2.2⟩
  · show (stepDecode e s).2.cached_prompt_tokens ++ [sampledToken e s] = _
    rw [h.1]
  · show (stepDecode e s).2.current_position + 1 = _
    rw [h.2.1]

/-- The four ways a `generateNextToken` call ends. -/
theorem generateNextToken_cases (e : Engine) (s : Session) :
    ((shiftIfFull s).current_position ≥ (shiftIfFull s).stop_generation_position ∧
      generateNextToken e s = (none, shiftIfFull s)) ∨
    ((shiftIfFull s).current_position < (shiftIfFull s).stop_generation_position ∧
      (stepDecode e s).1 = false ∧ generateNextToken e s = (none, (stepDecode e s).2)) ∨
    ((shiftIfFull s).current_position < (shiftIfFull s).stop_generation_position ∧
      (stepDecode e s).1 = true ∧ e.isEog (sampledToken e s) = true ∧
      generateNextToken e s = (none, advanced e s)) ∨
    ((shiftIfFull s).current_position < (shiftIfFull s).stop_generation_position ∧
      (stepDecode e s).1 = true ∧ e.isEog (sampledToken e s) = false ∧
      generateNextToken e s =
        (some (emit s.cached_token_chars (e.tokenToPiece (sampledToken e s))).1,
         { advanced e s with
           cached_token_chars :=
             (emit s.cached_token_chars (e.tokenToPiece (sampledToken e s))).2 })) := by
  by_cases h1 : (shiftIfFull s).current_position ≥ (shiftIfFull s).stop_generation_position
  · left
    exact ⟨h1, by simp only [generateNextToken, if_pos h1]⟩
  · right
    have h1' := not_le.mp h1
    cases h2 : (stepDecode e s).1
    · left
      refine ⟨h1', rfl, ?_⟩
      simp only [generateNextToken, if_neg h1, h2]
      simp
    · right
      cases h3 : e.isEog (sampledToken e s)
      · right
        refine ⟨h1', rfl, rfl, ?_⟩
        simp only [generateNextToken, if_neg h1, h2, h3, (advanced_frame e s).2.2.2]
        simp
      · left
        refine ⟨h1', rfl, rfl, ?_⟩
        simp only [generateNextToken, if_neg h1, h2, h3]
        simp

/-- A call that returns text generated exactly one token, whose piece went through
`emit` together with the pending bytes. -/
theorem generateNextToken_some (e : Engine) (s : Session) (frag : List Nat)
    (h : (generateNextToken e s).1 = some frag) :
    (generateNextToken e s).2.cached_prompt_tokens =
      s.cached_prompt_tokens ++ [sampledToken e s] ∧
    frag = (emit s.cached_token_chars (e.tokenToPiece (sampledToken e s))).1 ∧
    (generateNextToken e s).2.cached_token_chars =
      (emit s.cached_token_chars (e.tokenToPiece (sampledToken e s))).2 := by
  rcases generateNextToken_cases e s with ⟨_, h1⟩ | ⟨_, _, h1⟩ | ⟨_, _, _, h1⟩ | ⟨_, _, _, h1⟩
  · rw [h1] at h; simp at h
  · rw [h1] at h; simp at h
  · rw [h1] at h; simp at h
  · rw [h1] at h ⊢
    simp only [Option.some.injEq] at h
    exact ⟨(advanced_frame e s).1, h.symm, rfl⟩

/-! ## UTF-8 buffering -/

theorem and_mod_256 (b m : Nat) (hm : 255 &&& m = m) : b &&& m = (b % 256) &&& m := by
  have h : b % 256 = b &&& 255 := (Nat.and_pow_two_sub_one_eq_mod b 8).symm
  rw [h, Nat.and_assoc, hm]

set_option maxRecDepth 100000 in
theorem lead_bits_256 : ∀ c, c < 256 →
    (c &&& 0xC0 = 0x80 → c ≠ 0) ∧
    (c &&& 0xE0 = 0xC0 → c ≠ 0 ∧ c &&& 0x80 ≠ 0) ∧
    (c &&& 0xF0 = 0xE0 → c ≠ 0 ∧ c &&& 0x80 ≠ 0 ∧ c &&& 0xE0 ≠ 0xC0) ∧
    (c &&& 0xF8 = 0xF0 → c ≠ 0 ∧ c &&& 0x80 ≠ 0 ∧ c &&& 0xE0 ≠ 0xC0 ∧ c &&& 0xF0 ≠ 0xE0) := by
  decide

theorem lead_bits (b : Nat) :
    (b &&& 0xC0 = 0x80 → b ≠ 0) ∧
    (b &&& 0xE0 = 0xC0 → b ≠ 0 ∧ b &&& 0x80 ≠ 0) ∧
    (b &&& 0xF0 = 0xE0 → b ≠ 0 ∧ b &&& 0x80 ≠ 0 ∧ b &&& 0xE0 ≠ 0xC0) ∧
    (b &&& 0xF8 = 0xF0 → b ≠ 0 ∧ b &&& 0x80 ≠ 0 ∧ b &&& 0xE0 ≠ 0xC0 ∧ b &&& 0xF0 ≠ 0xE0) := by
  have h := lead_bits_256 (b % 256) (Nat.mod_lt _ (by decide))
  have hz : b = 0 → b % 256 = 0 := fun h0 => by rw [h0]
  rw [← and_mod_256 b 0xC0 (by decide), ← and_mod_256 b 0xE0 (by decide),
    ← and_mod_256 b 0xF0 (by decide), ← and_mod_256 b 0xF8 (by decide),
    ← and_mod_256 b 0x80 (by decide)] at h
  refine ⟨fun hc => fun h0 => h.1 hc (hz h0), fun hc => ⟨fun h0 => (h.2.1 hc).1 (hz h0), (h.2.1 hc).2⟩,
    fun hc => ⟨fun h0 => (h.2.2.1 hc).1 (hz h0), (h.2.2.1 hc).2⟩,
    fun hc => ⟨fun h0 => (h.2.2.2 hc).1 (hz h0), (h.2.2.2 hc).2⟩⟩

theorem utf8Scan_short :
    ∀ (l : List Nat) (need : Nat), (∀ c, c ∈ l → c &&& 0xC0 = 0x80) → l.length < need →
      utf8Scan need l = false := by
  intro l
  induction l with
  | nil =>
      intro need _ h
      cases need with
      | zero => simp at h
      | succ k => rfl
  | cons c cs ih =>
      intro need hc h
      cases need with
      | zero => simp at h
      | succ k =>
          simp only [utf8Scan, hc c (List.mem_cons_self _ _), if_true]
          exact ih k (fun d hd => hc d (List.mem_cons_of_mem _ hd))
            (by simp only [List.length_cons] at h; omega)

theorem utf8Scan_exact :
    ∀ (l : List Nat) (need : Nat), (∀ c, c ∈ l → c &&& 0xC0 = 0x80) → l.length = need →
      utf8Scan need l = true := by
  intro l
  induction l with
  | nil =>
      intro need _ h
      simp only [List.length_nil] at h
      subst h
      rfl
  | cons c cs ih =>
      intro need hc h
      cases need with
      | zero => simp at h
      | succ k =>
          simp only [utf8Scan, hc c (List.mem_cons_self _ _), if_true]
          exact ih k (fun d hd => hc d (List.mem_cons_of_mem _ hd))
            (by simp only [List.length_cons] at h; omega)

/-- The parts of `isMultiByteChar`. -/
theorem isMultiByteChar_iff (b : Nat) (rest : List Nat) :
    isMultiByteChar (b :: rest) = true ↔
      (∀ c, c ∈ rest → c &&& 0xC0 = 0x80) ∧
      ((b &&& 0xE0 = 0xC0 ∧ rest.length = 1) ∨ (b &&& 0xF0 = 0xE0 ∧ rest.length = 2) ∨
        (b &&& 0xF8 = 0xF0 ∧ rest.length = 3)) := by
  simp [isMultiByteChar, List.all_eq_true, or_assoc]

/-- The scan of the leading byte of a multi-byte character followed by some of its
continuation bytes. -/
theorem utf8Scan_lead (b : Nat) (rest more : List Nat) (h : isMultiByteChar (b :: rest) = true) :
    utf8Scan 0 (b :: more) = utf8Scan rest.length more := by
  rw [isMultiByteChar_iff] at h
  have hb := lead_bits b
  rcases h.2 with ⟨h1, h2⟩ | ⟨h1, h2⟩ | ⟨h1, h2⟩
  · have := hb.2.1 h1
    simp only [utf8Scan, this.1, this.2, h1, h2, if_false, if_true]
  · have := hb.2.2.1 h1
    simp only [utf8Scan, this.1, this.2.1, this.2.2, h1, h2, if_false, if_true]
  · have := hb.2.2.2 h1
    simp only [utf8Scan, this.1, this.2.1, this.2.2.1, this.2.2.2, h1, h2, if_false, if_true]

theorem c_str_of_no_nul (l : List Nat) (h : 0 ∉ l) : c_str l = l := by
  unfold c_str
  rw [List.takeWhile_eq_self_iff]
  intro b hb
  simp only [bne_iff_ne, ne_eq]
  intro h0
  subst h0
  exact h hb

theorem emit_concat (pending piece : List Nat) (h : 0 ∉ pending ++ piece) :
    (emit pending piece).1 ++ (emit pending piece).2 = pending ++ piece := by
  unfold emit
  split
  · simp only [List.append_nil]
    exact c_str_of_no_nul _ h
  · rfl

theorem emit_no_nul (pending piece : List Nat) (h : 0 ∉ pending ++ piece) :
    0 ∉ (emit pending piece).2 := by
  unfold emit
  split
  · simp
  · exact h

/-- A multi-byte character that arrives in two non-empty pieces: the first piece is
buffered, the second completes the character, which is returned whole. -/
theorem emit_split (u p1 p2 : List Nat) (hu : isMultiByteChar u = true) (hp : p1 ++ p2 = u)
    (h1 : p1 ≠ []) (h2 : p2 ≠ []) :
    emit [] p1 = ([], p1) ∧ emit p1 p2 = (u, []) := by
  cases p1 with
  | nil => exact absurd rfl h1
  | cons b q =>
      subst hp
      have hparts := (isMultiByteChar_iff b (q ++ p2)).mp hu
      have hq : ∀ c, c ∈ q → c &&& 0xC0 = 0x80 :=
        fun c hc => hparts.1 c (List.mem_append_left _ hc)
      have hlt : q.length < (q ++ p2).length := by
        have : 0 < p2.length := List.length_pos.mpr h2
        simp only [List.length_append]; omega
      have hfirst : is_valid_utf8 (b :: q) = false := by
        unfold is_valid_utf8
        rw [utf8Scan_lead b (q ++ p2) q hu]
        exact utf8Scan_short q _ hq hlt
      have hwhole : is_valid_utf8 (b :: q ++ p2) = true := by
        unfold is_valid_utf8
        rw [List.cons_append, utf8Scan_lead b (q ++ p2) (q ++ p2) hu]
        exact utf8Scan_exact _ _ hparts.1 rfl
      have hnul : 0 ∉ b :: q ++ p2 := by
        intro h0
        rw [List.cons_append, List.mem_cons] at h0
        have hb := lead_bits b
        rcases h0 with h0 | h0
        · rcases hparts.2 with ⟨h, _⟩ | ⟨h, _⟩ | ⟨h, _⟩
          · exact (hb.2.1 h).1 h0.symm
          · exact (hb.2.2.1 h).1 h0.symm
          · exact (hb.2.2.2 h).1 h0.symm
        · exact (lead_bits 0).1 (hparts.1 0 h0) rfl
      constructor
      · simp only [emit, List.nil_append, hfirst]
        simp
      · simp only [emit, hwhole, if_true]
        rw [c_str_of_no_nul _ hnul]

theorem steps_tokens (e : Engine) :
    ∀ (n : Nat) (s : Session), (∀ r, r ∈ (steps e n s).1 → r ≠ none) →
      ∃ toks, (steps e n s).2.cached_prompt_tokens = s.cached_prompt_tokens ++ toks ∧
        toks.length = n := by
  intro n
  induction n with
  | zero => intro s _; exact ⟨[], by simp [steps]⟩
  | succ n ih =>
      intro s hrun
      simp only [steps] at hrun ⊢
      have h1 : (generateNextToken e s).1 ≠ none := hrun _ (List.mem_cons_self _ _)
      obtain ⟨frag, hfrag⟩ := Option.ne_none_iff_exists'.mp h1
      have hs := generateNextToken_some e s frag hfrag
      obtain ⟨toks, ht, hl⟩ := ih (generateNextToken e s).2
        (fun r hr => hrun r (List.mem_cons_of_mem _ hr))
      refine ⟨sampledToken e s :: toks, ?_, by simp [hl]⟩
      rw [ht, hs.1]
      simp

theorem steps_concat (e : Engine) :
    ∀ (n : Nat) (s : Session) (toks : List Token), 0 ∉ s.cached_token_chars →
      (∀ r, r ∈ (steps e n s).1 → r ≠ none) →
      (steps e n s).2.cached_prompt_tokens = s.cached_prompt_tokens ++ toks →
      (∀ t, t ∈ toks → 0 ∉ e.tokenToPiece t) →
      emitted (steps e n s).1 ++ (steps e n s).2.cached_token_chars =
        s.cached_token_chars ++ (toks.map e.tokenToPiece).flatten := by
  intro n
  induction n with
  | zero =>
      intro s toks _ _ hc _
      simp only [steps] at hc ⊢
      have : toks = [] := by
        have := congrArg List.length hc
        simp only [List.length_append] at this
        exact List.length_eq_zero.mp (by omega)
      subst this
      simp [emitted]
  | succ n ih =>
      intro s toks hnul hrun hc hpieces
      simp only [steps] at hrun hc ⊢
      have h1 : (generateNextToken e s).1 ≠ none := hrun _ (List.mem_cons_self _ _)
      obtain ⟨frag, hfrag⟩ := Option.ne_none_iff_exists'.mp h1
      have hs := generateNextToken_some e s frag hfrag
      have hrest : ∀ r, r ∈ (steps e n (generateNextToken e s).2).1 → r ≠ none :=
        fun r hr => hrun r (List.mem_cons_of_mem _ hr)
      obtain ⟨toks1, ht, _⟩ := steps_tokens e n (generateNextToken e s).2 hrest
      have htoks : toks = sampledToken e s :: toks1 := by
        rw [ht, hs.1, List.append_assoc] at hc
        exact (List.append_cancel_left hc).symm
      subst htoks
      have hp0 : 0 ∉ s.cached_token_chars ++ e.tokenToPiece (sampledToken e s) := by
        intro h0
        rcases List.mem_append.mp h0 with h0 | h0
        · exact hnul h0
        · exact hpieces _ (List.mem_cons_self _ _) h0
      have hih := ih (generateNextToken e s).2 toks1
        (by rw [hs.2.2]; exact emit_no_nul _ _ hp0) hrest ht
        (fun t htm => hpieces t (List.mem_cons_of_mem _ htm))
      have hem := emit_concat _ _ hp0
      rw [hs.2.2] at hih
      simp only [emitted, List.map_cons, List.flatten_cons, hfrag, Option.getD_some,
        List.append_assoc] at hih ⊢
      rw [hih, ← List.append_assoc, hs.2.1, hem, List.append_assoc]

/-- Claim C3 (UTF-8 reassembly), amended to token pieces without a zero byte.  Start with
no pending bytes and take any run of consecutive `generateNextToken` calls that all return
text.  If no piece of a generated token contains the byte `0x00`, then the returned
fragments concatenated in call order, followed by the bytes still pending, are exactly the
pieces of the generated tokens concatenated in order.  Moreover, when the pieces of two
consecutive tokens are both non-empty and together form one multi-byte character, the
first call returns the empty string and the second returns exactly the bytes of the
character, leaving nothing pending. -/
theorem utf8_reassembly (e : Engine) (s : Session) (hempty : s.cached_token_chars = []) :
    (∀ n, (∀ r, r ∈ (steps e n s).1 → r ≠ none) →
      (∀ t, t ∈ generated s (steps e n s).2 → 0 ∉ e.tokenToPiece t) →
      emitted (steps e n s).1 ++ (steps e n s).2.cached_token_chars =
        ((generated s (steps e n s).2).map e.tokenToPiece).flatten) ∧
    (∀ u, isMultiByteChar u = true →
      (∀ r, r ∈ (steps e 2 s).1 → r ≠ none) →
      e.tokenToPiece (sampledToken e s) ≠ [] →
      e.tokenToPiece (sampledToken e (generateNextToken e s).2) ≠ [] →
      e.tokenToPiece (sampledToken e s) ++
        e.tokenToPiece (sampledToken e (generateNextToken e s).2) = u →
      (steps e 2 s).1 = [some [], some u] ∧ (steps e 2 s).2.cached_token_chars = []) := by
  constructor
  · intro n hrun hnul
    obtain ⟨toks, ht, _⟩ := steps_tokens e n s hrun
    have hg : generated s (steps e n s).2 = toks := by simp [generated, ht]
    rw [hg] at hnul ⊢
    have := steps_concat e n s toks (by rw [hempty]; simp) hrun ht hnul
    rw [this, hempty, List.nil_append]
  · intro u hu hrun h1 h2 hcat
    simp only [steps] at hrun ⊢
    have hr1 : (generateNextToken e s).1 ≠ none := hrun _ (List.mem_cons_self _ _)
    have hr2 : (generateNextToken e (generateNextToken e s).2).1 ≠ none :=
      hrun _ (List.mem_cons_of_mem _ (List.mem_cons_self _ _))
    obtain ⟨f1, hf1⟩ := Option.ne_none_iff_exists'.mp hr1
    obtain ⟨f2, hf2⟩ := Option.ne_none_iff_exists'.mp hr2
    have hs1 := generateNextToken_some e s f1 hf1
    have hs2 := generateNextToken_some e _ f2 hf2
    have hsplit := emit_split u _ _ hu hcat h1 h2
    rw [hempty, hsplit.1] at hs1
    rw [hs1.2.2, hsplit.2] at hs2
    rw [hf1, hf2, hs1.2.1, hs2.2.1, hs2.2.2]
    exact ⟨rfl, rfl⟩

/-- Witness for claim C3: the pieces `E2 82` and `AC` make the first call return the
empty string and the second the three bytes `E2 82 AC`. -/
theorem utf8_reassembly_witness :
    isMultiByteChar [0xE2, 0x82, 0xAC] = true ∧
    euroEngine.tokenToPiece (sampledToken euroEngine (promptedSession euroEngine)) =
      [0xE2, 0x82] ∧
    euroEngine.tokenToPiece (sampledToken euroEngine
      (generateNextToken euroEngine (promptedSession euroEngine)).2) = [0xAC] ∧
    (steps euroEngine 2 (promptedSession euroEngine)).1 = [some [], some [0xE2, 0x82, 0xAC]] ∧
    (steps euroEngine 2 (promptedSession euroEngine)).2.cached_token_chars = [] ∧
    emitted (steps euroEngine 2 (promptedSession euroEngine)).1 ++
        (steps euroEngine 2 (promptedSession euroEngine)).2.cached_token_chars =
      ((generated (promptedSession euroEngine)
        (steps euroEngine 2 (promptedSession euroEngine)).2).map
          euroEngine.tokenToPiece).flatten := by
  have h := utf8_reassembly euroEngine (promptedSession euroEngine) (by decide)
  have h2 := h.2 [0xE2, 0x82, 0xAC] (by decide) (by decide) (by decide) (by decide) (by decide)
  exact ⟨by decide, by decide, by decide, h2.1, h2.2, h.1 2 (by decide) (by decide)⟩

/-- Counterexample to claim C3 as stated: a token whose piece is `41 00 42` makes the call
return `41` (the C string stops at the zero byte) and clear the buffer, so the bytes
`00 42` are neither returned nor pending. -/
theorem utf8_reassembly_counterexample :
    (promptedSession nulEngine).cached_token_chars = [] ∧
    (steps nulEngine 1 (promptedSession nulEngine)).1 = [some [0x41]] ∧
    (steps nulEngine 1 (promptedSession nulEngine)).2.cached_token_chars = [] ∧
    generated (promptedSession nulEngine) (steps nulEngine 1 (promptedSession nulEngine)).2 =
      [7] ∧
    nulEngine.tokenToPiece 7 = [0x41, 0x00, 0x42] ∧
    emitted (steps nulEngine 1 (promptedSession nulEngine)).1 ++
        (steps nulEngine 1 (promptedSession nulEngine)).2.cached_token_chars ≠
      ((generated (promptedSession nulEngine)
        (steps nulEngine 1 (promptedSession nulEngine)).2).map
          nulEngine.tokenToPiece).flatten := by
  decide

/-! ## Terminal signal -/

theorem generateNextToken_trace (e : Engine) (s : Session) :
    ∃ calls, (generateNextToken e s).2.trace = (shiftIfFull s).trace ++ calls := by
  rcases generateNextToken_cases e s with ⟨_, h1⟩ | ⟨_, _, h1⟩ | ⟨_, _, _, h1⟩ | ⟨_, _, _, h1⟩
  · exact ⟨[], by rw [h1]; simp⟩
  · rw [h1]
    simp only [stepDecode, submit, afterSample, List.append_assoc]
    exact ⟨_, rfl⟩
  · rw [h1]
    simp only [advanced, stepDecode, submit, afterSample, List.append_assoc]
    exact ⟨_, rfl⟩
  · rw [h1]
    simp only [advanced, stepDecode, submit, afterSample, List.append_assoc]
    exact ⟨_, rfl⟩

theorem steps_idle (e : Engine) (s : Session)
    (hwin : s.current_position < DEFAULT_CONTEXT_SIZE - OVERFLOW_HEADROOM)
    (hstop : s.current_position ≥ s.stop_generation_position) :
    ∀ n, steps e n s = (List.replicate n none, s) := by
  have hstep : generateNextToken e s = (none, s) := by
    simp only [generateNextToken, shiftIfFull_below s hwin, if_pos hstop]
  intro n
  induction n with
  | zero => rfl
  | succ n ih => simp only [steps, hstep, ih, List.replicate_succ]

/-- Claim C4 (terminal signal stability), amended to the stop-position case.  When a
`generateNextToken` call finds the position (after its optional shift) at or beyond the
stop position, it returns `nullptr`.  If that call leaves the position below 8188, which
it does whenever the position was between 0 and 8188 before, then every later call again
returns `nullptr` and leaves the whole session, call trace included, unchanged: no engine
interaction.  If it leaves the position at 8188 or more, the next call does interact with
the engine (it shifts). -/
theorem horizon_stop_stable (e : Engine) (s : Session)
    (hstop : (shiftIfFull s).current_position ≥ (shiftIfFull s).stop_generation_position) :
    (generateNextToken e s).1 = none ∧
    (0 ≤ s.current_position → s.current_position ≤ DEFAULT_CONTEXT_SIZE - OVERFLOW_HEADROOM →
      (generateNextToken e s).2.current_position < DEFAULT_CONTEXT_SIZE - OVERFLOW_HEADROOM) ∧
    ((generateNextToken e s).2.current_position < DEFAULT_CONTEXT_SIZE - OVERFLOW_HEADROOM →
      ∀ n, steps e n (generateNextToken e s).2 =
        (List.replicate n none, (generateNextToken e s).2)) ∧
    ((generateNextToken e s).2.current_position ≥ DEFAULT_CONTEXT_SIZE - OVERFLOW_HEADROOM →
      (generateNextToken e (generateNextToken e s).2).2.trace ≠
        (generateNextToken e s).2.trace) := by
  have hstep : generateNextToken e s = (none, shiftIfFull s) := by
    simp only [generateNextToken, if_pos hstop]
  rw [hstep]
  refine ⟨rfl, ?_, ?_, ?_⟩
  · intro h0 h1
    show (shiftIfFull s).current_position < _
    by_cases hfull : s.current_position ≥ DEFAULT_CONTEXT_SIZE - OVERFLOW_HEADROOM
    · rw [shiftIfFull_full s hfull, shift_context_position, n_discard_eq s h0]
      simp only [DEFAULT_CONTEXT_SIZE, OVERFLOW_HEADROOM] at *
      omega
    · rw [shiftIfFull_below s (not_le.mp hfull)]
      exact not_le.mp hfull
  · intro hwin
    exact steps_idle e (shiftIfFull s) hwin hstop
  · intro hfull heq
    obtain ⟨calls, hc⟩ := generateNextToken_trace e (shiftIfFull s)
    simp only at hfull heq
    rw [hc, shiftIfFull_full (shiftIfFull s) hfull] at heq
    have := congrArg List.length heq
    simp [shift_context] at this

/-- Witness for claim C4: after the prompt `"ab"` with budget 0 the first call and the
three calls after it return `nullptr` and change nothing; from position 20000 with stop
position 0 the first call returns `nullptr` at position 10000 and the second call shifts
again. -/
theorem horizon_stop_stable_witness :
    (generateNextToken okEngine abSession).1 = none ∧
    (generateNextToken okEngine abSession).2.current_position <
      DEFAULT_CONTEXT_SIZE - OVERFLOW_HEADROOM ∧
    steps okEngine 3 (generateNextToken okEngine abSession).2 =
      (List.replicate 3 none, (generateNextToken okEngine abSession).2) ∧
    (generateNextToken okEngine
      (generateNextToken okEngine { emptySession with current_position := 20000 }).2).2.trace ≠
      (generateNextToken okEngine { emptySession with current_position := 20000 }).2.trace := by
  have h := horizon_stop_stable okEngine abSession (by decide)
  have h2 := horizon_stop_stable okEngine { emptySession with current_position := 20000 }
    (by decide)
  exact ⟨h.1, h.2.1 (by decide) (by decide), h.2.2.1 (by decide) 3, h2.2.2.2 (by decide)⟩

/-- Counterexample to claim C4 as stated: the first call samples the end-of-generation
token and returns `nullptr`; the position is still below the stop position, so the next
call samples again and the call trace grows. -/
theorem terminal_stability_counterexample :
    (generateNextToken eogEngine (promptedSession eogEngine)).1 = none ∧
    eogEngine.isEog (sampledToken eogEngine (promptedSession eogEngine)) = true ∧
    (generateNextToken eogEngine
      (generateNextToken eogEngine (promptedSession eogEngine)).2).2.trace ≠
      (generateNextToken eogEngine (promptedSession eogEngine)).2.trace ∧
    sampleCount (generateNextToken eogEngine
      (generateNextToken eogEngine (promptedSession eogEngine)).2).2.trace =
      sampleCount (generateNextToken eogEngine (promptedSession eogEngine)).2.trace + 1 := by
  decide

/-! ## Window and cache invariants -/

theorem common_prefix_len_nil (user : List Token) : common_prefix_len [] user = 0 := by
  simp [common_prefix_len, prefixLoop]

theorem beforeDecode_frame (e : Engine) (prompt : String) (s : Session) :
    (beforeDecode e prompt s).stop_generation_position = s.stop_generation_position ∧
    (beforeDecode e prompt s).cached_token_chars = s.cached_token_chars ∧
    (beforeDecode e prompt s).cached_prompt_tokens =
      (truncateCache (common_prefix_len s.cached_prompt_tokens (e.tokenize prompt))
        s).cached_prompt_tokens := by
  have h := truncateCache_frame (common_prefix_len s.cached_prompt_tokens (e.tokenize prompt)) s
  simp only [beforeDecode]
  split
  · exact ⟨h.1, h.2, rfl⟩
  · exact ⟨h.1, h.2, rfl⟩

theorem processPrompt_chars (e : Engine) (prompt : String) (n : Int) (s : Session) :
    (processPrompt e prompt n s).2.cached_token_chars = s.cached_token_chars := by
  have hf := decodeChunks_frame e (newTokens e prompt s)
    (beforeDecode e prompt s).current_position
    (chunkOffsets (newTokens e prompt s).length) (beforeDecode e prompt s)
  by_cases h : (processPrompt e prompt n s).1 = 0
  · rw [processPrompt_success e prompt n s h]
    exact hf.2.2.trans (beforeDecode_frame e prompt s).2.1
  · rw [processPrompt_failure e prompt n s h]
    exact hf.2.2.trans (beforeDecode_frame e prompt s).2.1

/-- A prompt processed by a session with an empty cache at position 0, all decodes
accepted: the whole prompt is appended, whatever its length. -/
theorem processPrompt_fresh (e : Engine) (hacc : ∀ tr b, e.decodeOk tr b = true)
    (prompt : String) (n : Int) (s : Session) (hc : s.cached_prompt_tokens = [])
    (hp : s.current_position = 0) :
    (processPrompt e prompt n s).1 = 0 ∧
    (processPrompt e prompt n s).2.cached_prompt_tokens = e.tokenize prompt ∧
    (processPrompt e prompt n s).2.current_position = (e.tokenize prompt).length ∧
    (processPrompt e prompt n s).2.stop_generation_position =
      wrap32 ((e.tokenize prompt).length + n) := by
  have hst := processPrompt_accepting e hacc prompt n s
  have hk : common_prefix_len s.cached_prompt_tokens (e.tokenize prompt) = 0 := by
    rw [hc]; exact common_prefix_len_nil _
  have hnew : newTokens e prompt s = e.tokenize prompt := by
    simp [newTokens, hk]
  have htr : truncateCache 0 s = s := by
    simp [truncateCache, hc]
  have hbp : (beforeDecode e prompt s).current_position = 0 := by
    simp only [beforeDecode, hk, htr]
    split
    · rw [shift_context_small s (by omega) (by omega)]; exact hp
    · exact hp
  have hbc : (beforeDecode e prompt s).cached_prompt_tokens = [] := by
    rw [(beforeDecode_frame e prompt s).2.2, hk, htr, hc]
  have hf := decodeChunks_frame e (newTokens e prompt s)
    (beforeDecode e prompt s).current_position
    (chunkOffsets (newTokens e prompt s).length) (beforeDecode e prompt s)
  have hpos := decodeChunks_position_small e (newTokens e prompt s)
    (beforeDecode e prompt s).current_position
    (chunkOffsets (newTokens e prompt s).length) (beforeDecode e prompt s)
    (by omega) (by omega)
  rw [hbp, hbc] at hf
  rw [hbp] at hpos
  rw [processPrompt_success e prompt n s hst]
  simp only [decode_tokens_in_batches, hbp, hf.1, hpos]
  rw [hnew]
  simp [hst]

theorem tokenize_paddedPrompt_nil (n : Nat) :
    okEngine.tokenize (paddedPrompt [] n) = List.replicate n 99 := by
  simp [okEngine, codePoints, paddedPrompt]

/-- A step of an engine that accepts the decode, taken below the stop position: position
and cache both grow by the sampled token. -/
theorem generateNextToken_advances (e : Engine) (s : Session)
    (hlt : (shiftIfFull s).current_position < (shiftIfFull s).stop_generation_position)
    (hok : (stepDecode e s).1 = true) :
    (generateNextToken e s).2.current_position = (shiftIfFull s).current_position + 1 ∧
    (generateNextToken e s).2.cached_prompt_tokens =
      s.cached_prompt_tokens ++ [sampledToken e s] ∧
    (e.isEog (sampledToken e s) = false →
      (generateNextToken e s).1 =
        some (emit s.cached_token_chars (e.tokenToPiece (sampledToken e s))).1) := by
  have ha := advanced_frame e s
  rcases generateNextToken_cases e s with ⟨h0, _⟩ | ⟨_, h0, _⟩ | ⟨_, _, h0, h1⟩ | ⟨_, _, h0, h1⟩
  · omega
  · rw [hok] at h0; simp at h0
  · rw [h1]
    exact ⟨ha.2.1, ha.1, fun h => by rw [h0] at h; simp at h⟩
  · rw [h1]
    exact ⟨ha.2.1, ha.1, fun _ => rfl⟩

/-- Claim C5 (window capacity), evaluated at its failing input: from the empty session a
prompt of 8189 tokens whose decodes all succeed is processed with status 0 and leaves the
position at 8189, above `DEFAULT_CONTEXT_SIZE - OVERFLOW_HEADROOM = 8188`. -/
theorem window_overflow_long_prompt :
    Reachable okEngine (processPrompt okEngine (paddedPrompt [] 8189) 0 emptySession).2 ∧
    (processPrompt okEngine (paddedPrompt [] 8189) 0 emptySession).1 = 0 ∧
    (okEngine.tokenize (paddedPrompt [] 8189)).length = 8189 ∧
    (processPrompt okEngine (paddedPrompt [] 8189) 0 emptySession).2.current_position = 8189 ∧
    ¬ (processPrompt okEngine (paddedPrompt [] 8189) 0 emptySession).2.current_position ≤
      DEFAULT_CONTEXT_SIZE - OVERFLOW_HEADROOM := by
  have h := processPrompt_fresh okEngine (fun _ _ => rfl) (paddedPrompt [] 8189) 0
    emptySession rfl rfl
  have hlen : (okEngine.tokenize (paddedPrompt [] 8189)).length = 8189 := by
    rw [tokenize_paddedPrompt_nil, List.length_replicate]
  have hpos : (processPrompt okEngine (paddedPrompt [] 8189) 0
      emptySession).2.current_position = 8189 := by
    rw [h.2.2.1, hlen]; rfl
  refine ⟨⟨[Op.processPrompt (paddedPrompt [] 8189) 0], rfl⟩, h.1, hlen, hpos, ?_⟩
  rw [hpos]; decide

/-- Claim C6 (generation budget), evaluated at its failing input: a prompt of 8188 tokens
processed with `n_predict = 0` leaves position and stop position at 8188; the first
`generateNextToken` call shifts the position to 4094, which is below the stop position, so
it samples and decodes a token and returns its text instead of `nullptr`. -/
theorem budget_exceeded_after_shift :
    (processPrompt okEngine (paddedPrompt [] 8188) 0 emptySession).1 = 0 ∧
    (processPrompt okEngine (paddedPrompt [] 8188) 0 emptySession).2.current_position = 8188 ∧
    (processPrompt okEngine (paddedPrompt [] 8188) 0
      emptySession).2.stop_generation_position = 8188 ∧
    (generateNextToken okEngine
      (processPrompt okEngine (paddedPrompt [] 8188) 0 emptySession).2).1 = some [65] ∧
    generated (processPrompt okEngine (paddedPrompt [] 8188) 0 emptySession).2
      (generateNextToken okEngine
        (processPrompt okEngine (paddedPrompt [] 8188) 0 emptySession).2).2 = [65] ∧
    (generateNextToken okEngine
      (processPrompt okEngine (paddedPrompt [] 8188) 0
        emptySession).2).2.current_position = 4095 := by
  have h := processPrompt_fresh okEngine (fun _ _ => rfl) (paddedPrompt [] 8188) 0
    emptySession rfl rfl
  have hlen : (okEngine.tokenize (paddedPrompt [] 8188)).length = 8188 := by
    rw [tokenize_paddedPrompt_nil, List.length_replicate]
  have hch := processPrompt_chars okEngine (paddedPrompt [] 8188) 0 emptySession
  generalize processPrompt okEngine (paddedPrompt [] 8188) 0 emptySession = r at *
  have hpos : r.2.current_position = 8188 := by rw [h.2.2.1, hlen]; rfl
  have hstop : r.2.stop_generation_position = 8188 := by rw [h.2.2.2, hlen]; rfl
  have hsh : (shiftIfFull r.2).current_position = 4094 := by
    rw [shiftIfFull_full r.2 (by rw [hpos]; decide), shift_context_position,
      n_discard_eq r.2 (by rw [hpos]; decide), hpos]
    decide
  have hadv := generateNextToken_advances okEngine r.2
    (by rw [hsh, (shiftIfFull_frame r.2).2.1, hstop]; decide) rfl
  refine ⟨h.1, hpos, hstop, ?_, ?_, ?_⟩
  · rw [hadv.2.2 rfl, hch]
    show some (emit [] [65]).1 = some [65]
    decide
  · rw [generated, hadv.2.1]
    simp only [List.drop_left]
    rfl
  · rw [hadv.1, hsh]; rfl

/-- The relation between position and token cache that every call preserves. -/
theorem truncateCache_within (k : Nat) (s : Session)
    (h : 0 ≤ s.current_position ∧ s.current_position ≤ s.cached_prompt_tokens.length) :
    0 ≤ (truncateCache k s).current_position ∧
    (truncateCache k s).current_position ≤ (truncateCache k s).cached_prompt_tokens.length := by
  unfold truncateCache
  split
  · simp only [List.length_take]
    omega
  · exact h

theorem beforeDecode_within (e : Engine) (prompt : String) (s : Session)
    (h : 0 ≤ s.current_position ∧ s.current_position ≤ s.cached_prompt_tokens.length) :
    0 ≤ (beforeDecode e prompt s).current_position ∧
    (beforeDecode e prompt s).current_position ≤
      (beforeDecode e prompt s).cached_prompt_tokens.length := by
  have ht := truncateCache_within
    (common_prefix_len s.cached_prompt_tokens (e.tokenize prompt)) s h
  simp only [beforeDecode]
  split
  · exact ⟨shift_context_nonneg _ ht.1, le_trans (shift_context_le _ ht.1) ht.2⟩
  · exact ht

theorem processPrompt_within (e : Engine) (prompt : String) (n : Int) (s : Session)
    (h : 0 ≤ s.current_position ∧ s.current_position ≤ s.cached_prompt_tokens.length) :
    0 ≤ (processPrompt e prompt n s).2.current_position ∧
    (processPrompt e prompt n s).2.current_position ≤
      (processPrompt e prompt n s).2.cached_prompt_tokens.length := by
  have hb := beforeDecode_within e prompt s h
  have hf := decodeChunks_frame e (newTokens e prompt s)
    (beforeDecode e prompt s).current_position
    (chunkOffsets (newTokens e prompt s).length) (beforeDecode e prompt s)
  have hp := decodeChunks_position_le e (newTokens e prompt s)
    (beforeDecode e prompt s).current_position
    (chunkOffsets (newTokens e prompt s).length) (beforeDecode e prompt s) hb.1
  by_cases hst : (processPrompt e prompt n s).1 = 0
  · rw [processPrompt_success e prompt n s hst]
    simp only [decode_tokens_in_batches, List.length_append, hf.1]
    omega
  · rw [processPrompt_failure e prompt n s hst]
    simp only [decode_tokens_in_batches, hf.1]
    omega

theorem generateNextToken_within (e : Engine) (s : Session)
    (h : 0 ≤ s.current_position ∧ s.current_position ≤ s.cached_prompt_tokens.length) :
    0 ≤ (generateNextToken e s).2.current_position ∧
    (generateNextToken e s).2.current_position ≤
      (generateNextToken e s).2.cached_prompt_tokens.length := by
  have hs := shiftIfFull_position_le s h.1
  have hf := shiftIfFull_frame s
  have hd := stepDecode_frame e s
  have ha := advanced_frame e s
  rcases generateNextToken_cases e s with ⟨_, h1⟩ | ⟨_, _, h1⟩ | ⟨_, _, _, h1⟩ | ⟨_, _, _, h1⟩
  · rw [h1]; simp only [hf.1]; omega
  · rw [h1]; simp only [hd.1, hd.2.1]; omega
  · rw [h1]; simp only [ha.1, ha.2.1, List.length_append, List.length_singleton]; omega
  · rw [h1]; simp only [ha.1, ha.2.1, List.length_append, List.length_singleton]; omega

theorem runOps_within (e : Engine) :
    ∀ (ops : List Op) (s : Session),
      (0 ≤ s.current_position ∧ s.current_position ≤ s.cached_prompt_tokens.length) →
      0 ≤ (runOps e ops s).current_position ∧
      (runOps e ops s).current_position ≤ (runOps e ops s).cached_prompt_tokens.length := by
  intro ops
  induction ops with
  | nil => intro s h; exact h
  | cons op ops ih =>
      intro s h
      simp only [runOps]
      apply ih
      cases op with
      | processPrompt prompt n => exact processPrompt_within e prompt n s h
      | generateNextToken => exact generateNextToken_within e s h
      | unload => simp [applyOp, unload]

/-- A prompt of fewer than 8188 tokens processed at position `len(cache)`: no shift fires
and position and cache stay aligned, whether or not the decode succeeds. -/
theorem processPrompt_aligned (e : Engine) (prompt : String) (n : Int) (s : Session)
    (hcur : s.current_position = s.cached_prompt_tokens.length)
    (hlen : ((e.tokenize prompt).length : Int) < DEFAULT_CONTEXT_SIZE - OVERFLOW_HEADROOM) :
    (processPrompt e prompt n s).2.current_position =
      (processPrompt e prompt n s).2.cached_prompt_tokens.length := by
  have hkc := common_prefix_len_le_cached s.cached_prompt_tokens (e.tokenize prompt)
  have hku := common_prefix_len_le_user s.cached_prompt_tokens (e.tokenize prompt)
  have hnewlen : (newTokens e prompt s).length =
      (e.tokenize prompt).length -
        common_prefix_len s.cached_prompt_tokens (e.tokenize prompt) := by
    simp [newTokens]
  have htp := truncateCache_position _ s hkc hcur
  have htc := truncateCache_cached _ s hkc
  have hbd : beforeDecode e prompt s =
      truncateCache (common_prefix_len s.cached_prompt_tokens (e.tokenize prompt)) s := by
    simp only [beforeDecode, htp, hnewlen]
    rw [if_neg]
    simp only [DEFAULT_CONTEXT_SIZE, OVERFLOW_HEADROOM] at hlen ⊢
    omega
  have hbound : ∀ i, i ∈ chunkOffsets (newTokens e prompt s).length →
      (beforeDecode e prompt s).current_position + i + cur_batch_size (newTokens e prompt s) i <
        DEFAULT_CONTEXT_SIZE - OVERFLOW_HEADROOM := by
    intro i hi
    have h1 := chunk_end_le (newTokens e prompt s) i hi
    rw [hbd, htp]
    simp only [DEFAULT_CONTEXT_SIZE, OVERFLOW_HEADROOM] at hlen ⊢
    omega
  have hf := decodeChunks_frame e (newTokens e prompt s)
    (beforeDecode e prompt s).current_position
    (chunkOffsets (newTokens e prompt s).length) (beforeDecode e prompt s)
  have hp := decodeChunks_noShift_position e (newTokens e prompt s)
    (beforeDecode e prompt s).current_position
    (chunkOffsets (newTokens e prompt s).length) (beforeDecode e prompt s) hbound
  have hbl : (beforeDecode e prompt s).cached_prompt_tokens.length =
      common_prefix_len s.cached_prompt_tokens (e.tokenize prompt) := by
    rw [hbd, htc, List.length_take]; omega
  by_cases hst : (processPrompt e prompt n s).1 = 0
  · rw [processPrompt_success e prompt n s hst]
    simp only [decode_tokens_in_batches, List.length_append, hf.1, hp, hbl]
    rw [hbd, htp]
    push_cast
    rfl
  · rw [processPrompt_failure e prompt n s hst]
    simp only [decode_tokens_in_batches, hf.1, hp, hbl]
    rw [hbd, htp]

theorem generateNextToken_aligned (e : Engine) (s : Session)
    (hcur : s.current_position = s.cached_prompt_tokens.length)
    (hwin : s.current_position < DEFAULT_CONTEXT_SIZE - OVERFLOW_HEADROOM) :
    (generateNextToken e s).2.current_position =
      (generateNextToken e s).2.cached_prompt_tokens.length := by
  have hs := shiftIfFull_below s hwin
  have hd := stepDecode_frame e s
  have ha := advanced_frame e s
  rw [hs] at hd ha
  rcases generateNextToken_cases e s with ⟨_, h1⟩ | ⟨_, _, h1⟩ | ⟨_, _, _, h1⟩ | ⟨_, _, _, h1⟩
  · rw [h1, hs]; exact hcur
  · rw [h1]; simp only [hd.1, hd.2.1]; exact hcur
  · rw [h1]; simp only [ha.1, ha.2.1, List.length_append, List.length_singleton, hcur]
    push_cast; rfl
  · rw [h1]; simp only [ha.1, ha.2.1, List.length_append, List.length_singleton, hcur]
    push_cast; rfl

/-- Claim C10 (position and cache), amended.  In every session reachable from the empty
session by `processPrompt`, `generateNextToken` and `unload` calls, with any engine,
`0 <= current_position <= len(cached_prompt_tokens)`.  Equality holds after `unload`, and
is preserved by every `generateNextToken` call made below position 8188 and by every
`processPrompt` call whose prompt has fewer than 8188 tokens (the calls in which no shift
fires).  `shift_context` itself keeps the token cache and, from a position of 2 or more,
lowers the position. -/
theorem position_within_cache (e : Engine) :
    (∀ s, Reachable e s →
      0 ≤ s.current_position ∧ s.current_position ≤ s.cached_prompt_tokens.length) ∧
    (∀ s, (unload s).current_position = (unload s).cached_prompt_tokens.length) ∧
    (∀ s, s.current_position = s.cached_prompt_tokens.length →
      s.current_position < DEFAULT_CONTEXT_SIZE - OVERFLOW_HEADROOM →
      (generateNextToken e s).2.current_position =
        (generateNextToken e s).2.cached_prompt_tokens.length) ∧
    (∀ s prompt n, s.current_position = s.cached_prompt_tokens.length →
      ((e.tokenize prompt).length : Int) < DEFAULT_CONTEXT_SIZE - OVERFLOW_HEADROOM →
      (processPrompt e prompt n s).2.current_position =
        (processPrompt e prompt n s).2.cached_prompt_tokens.length) ∧
    (∀ s, (shift_context s).cached_prompt_tokens = s.cached_prompt_tokens ∧
      (2 ≤ s.current_position → (shift_context s).current_position < s.current_position)) := by
  refine ⟨?_, fun s => rfl, fun s h1 h2 => generateNextToken_aligned e s h1 h2,
    fun s prompt n h1 h2 => processPrompt_aligned e prompt n s h1 h2, fun s => ⟨rfl, ?_⟩⟩
  · rintro s ⟨ops, rfl⟩
    exact runOps_within e ops emptySession ⟨le_refl _, le_refl _⟩
  · intro h
    rw [shift_context_position, n_discard_eq s (by omega)]
    omega

/-- Witness for claim C10: the session after the prompt `"ab"`, one more generated token,
one more prompt, and a shift at position 2. -/
theorem position_within_cache_witness :
    (0 ≤ abSession.current_position ∧
      abSession.current_position ≤ abSession.cached_prompt_tokens.length) ∧
    (generateNextToken okEngine (promptedSession okEngine)).2.current_position =
      (generateNextToken okEngine (promptedSession okEngine)).2.cached_prompt_tokens.length ∧
    (processPrompt okEngine "abc" 1 abSession).2.current_position =
      (processPrompt okEngine "abc" 1 abSession).2.cached_prompt_tokens.length ∧
    (shift_context abSession).current_position < abSession.current_position := by
  have h := position_within_cache okEngine
  exact ⟨h.1 abSession ⟨[Op.processPrompt "ab" 0], rfl⟩,
    h.2.2.1 (promptedSession okEngine) (by decide) (by decide),
    h.2.2.2.1 abSession "abc" 1 (by decide) (by decide),
    (h.2.2.2.2 abSession).2 (by decide)⟩

/-- Counterexample to claim C10 as stated: after a prompt of 8188 tokens and one
`generateNextToken` call (which shifts) the position is 4095 while the cache holds 8189
tokens. -/
theorem position_cache_counterexample :
    Reachable okEngine
      (runOps okEngine [Op.processPrompt (paddedPrompt [] 8188) 1, Op.generateNextToken]
        emptySession) ∧
    (runOps okEngine [Op.processPrompt (paddedPrompt [] 8188) 1, Op.generateNextToken]
      emptySession).current_position = 4095 ∧
    (runOps okEngine [Op.processPrompt (paddedPrompt [] 8188) 1, Op.generateNextToken]
      emptySession).cached_prompt_tokens.length = 8189 ∧
    (runOps okEngine [Op.processPrompt (paddedPrompt [] 8188) 1, Op.generateNextToken]
      emptySession).current_position ≠
      ((runOps okEngine [Op.processPrompt (paddedPrompt [] 8188) 1, Op.generateNextToken]
        emptySession).cached_prompt_tokens.length : Int) := by
  have h := processPrompt_fresh okEngine (fun _ _ => rfl) (paddedPrompt [] 8188) 1
    emptySession rfl rfl
  have hlen : (okEngine.tokenize (paddedPrompt [] 8188)).length = 8188 := by
    rw [tokenize_paddedPrompt_nil, List.length_replicate]
  refine ⟨⟨[Op.processPrompt (paddedPrompt [] 8188) 1, Op.generateNextToken], rfl⟩, ?_⟩
  simp only [runOps, applyOp]
  generalize processPrompt okEngine (paddedPrompt [] 8188) 1 emptySession = r at *
  have hpos : r.2.current_position = 8188 := by rw [h.2.2.1, hlen]; rfl
  have hstop : r.2.stop_generation_position = 8189 := by rw [h.2.2.2, hlen]; rfl
  have hsh : (shiftIfFull r.2).current_position = 4094 := by
    rw [shiftIfFull_full r.2 (by rw [hpos]; decide), shift_context_position,
      n_discard_eq r.2 (by rw [hpos]; decide), hpos]
    decide
  have hadv := generateNextToken_advances okEngine r.2
    (by rw [hsh, (shiftIfFull_frame r.2).2.1, hstop]; decide) rfl
  have hp2 : (generateNextToken okEngine r.2).2.current_position = 4095 := by
    rw [hadv.1, hsh]; rfl
  have hl2 : (generateNextToken okEngine r.2).2.cached_prompt_tokens.length = 8189 := by
    rw [hadv.2.1, List.length_append, h.2.1, hlen]; rfl
  refine ⟨hp2, hl2, ?_⟩
  rw [hp2, hl2]; decide

/-! ## Unload -/

/-- Claim C7 (reset completeness), evaluated at its failing input: a session with the
byte `E2` pending is unloaded; cache and position are reset, but the pending byte and the
stop position survive (as they do for every session).  After `load` and a new prompt the
first generated token `"A"` is then held back (the call returns the empty string), while
from a session without the leftover byte the same call returns `"A"`. -/
theorem unload_keeps_pending_bytes :
    Reachable leadByteEngine leadSession ∧
    leadSession.cached_token_chars = [0xE2] ∧
    (unload leadSession).cached_prompt_tokens = [] ∧
    (unload leadSession).current_position = 0 ∧
    (unload leadSession).cached_token_chars = [0xE2] ∧
    (unload leadSession).stop_generation_position = 6 ∧
    (generateNextToken leadByteEngine
      (processPrompt leadByteEngine "a" 5 (load (unload leadSession)).2).2).1 = some [] ∧
    (generateNextToken leadByteEngine
      (processPrompt leadByteEngine "a" 5
        { (load (unload leadSession)).2 with cached_token_chars := [] }).2).1 = some [65] ∧
    (∀ s, (unload s).cached_token_chars = s.cached_token_chars ∧
      (unload s).stop_generation_position = s.stop_generation_position) := by
  refine ⟨⟨[Op.processPrompt "a" 5, Op.generateNextToken], rfl⟩, by decide, by decide,
    by decide, by decide, by decide, by decide, by decide, fun s => ⟨rfl, rfl⟩⟩

/-! ## Frame of the shift and single-step decode -/

/-- Claim C16 (shift frame).  `shift_context` changes only the position, the engine
memory and the call trace: the token cache is neither truncated nor otherwise modified, and
stop position and pending bytes are unchanged. -/
theorem shift_context_changes_only_position (s : Session) :
    (shift_context s).cached_prompt_tokens = s.cached_prompt_tokens ∧
    (shift_context s).stop_generation_position = s.stop_generation_position ∧
    (shift_context s).cached_token_chars = s.cached_token_chars ∧
    shift_context s =
      { s with
        current_position := (shift_context s).current_position
        kv := (shift_context s).kv
        trace := (shift_context s).trace } :=
  ⟨rfl, rfl, rfl, rfl⟩

theorem shiftIfFull_trace (s : Session) :
    ∃ calls, (shiftIfFull s).trace = s.trace ++ calls ∧ submitted calls = [] := by
  unfold shiftIfFull
  split
  · exact ⟨_, rfl, rfl⟩
  · exact ⟨[], by simp, rfl⟩

/-- The engine calls of one `generateNextToken` call after the optional shift: none at the
stop position, otherwise sample, accept and the single-token decode. -/
theorem generateNextToken_calls (e : Engine) (s : Session) :
    ((shiftIfFull s).current_position ≥ (shiftIfFull s).stop_generation_position ∧
      (generateNextToken e s).2.trace = (shiftIfFull s).trace) ∨
    ((shiftIfFull s).current_position < (shiftIfFull s).stop_generation_position ∧
      (generateNextToken e s).2.trace = (shiftIfFull s).trace ++
        [EngineCall.sample (sampledToken e s), EngineCall.accept (sampledToken e s),
         EngineCall.decode [⟨sampledToken e s, (shiftIfFull s).current_position, true⟩]
           (stepDecode e s).1]) := by
  rcases generateNextToken_cases e s with ⟨h0, h1⟩ | ⟨h0, _, h1⟩ | ⟨h0, _, _, h1⟩ | ⟨h0, _, _, h1⟩
  · left; rw [h1]; exact ⟨h0, rfl⟩
  · right; rw [h1]
    refine ⟨h0, ?_⟩
    simp [stepDecode, submit, afterSample]
  · right; rw [h1]
    refine ⟨h0, ?_⟩
    simp [advanced, stepDecode, submit, afterSample]
  · right; rw [h1]
    refine ⟨h0, ?_⟩
    simp [advanced, stepDecode, submit, afterSample]

/-- Claim C17 (step decode failure).  When `generateNextToken` gets past the stop check
and the engine rejects the single-token decode, the call returns `nullptr`; after the
optional shift it made exactly three engine calls (sample, accept, and the decode of the
sampled token at the current position with logits requested); and the session is the one
left by the optional shift with nothing but the call trace changed: position, token cache,
pending bytes, stop position and engine memory are untouched. -/
theorem step_decode_failure (e : Engine) (s : Session)
    (hreach : (shiftIfFull s).current_position < (shiftIfFull s).stop_generation_position)
    (hrej : e.decodeOk
      ((shiftIfFull s).trace ++
        [EngineCall.sample (sampledToken e s), EngineCall.accept (sampledToken e s)])
      [⟨sampledToken e s, (shiftIfFull s).current_position, true⟩] = false) :
    (generateNextToken e s).1 = none ∧
    (generateNextToken e s).2 =
      { shiftIfFull s with
        trace := (shiftIfFull s).trace ++
          [EngineCall.sample (sampledToken e s), EngineCall.accept (sampledToken e s),
           EngineCall.decode [⟨sampledToken e s, (shiftIfFull s).current_position, true⟩]
             false] } ∧
    (generateNextToken e s).2.current_position = (shiftIfFull s).current_position ∧
    (generateNextToken e s).2.cached_prompt_tokens = (shiftIfFull s).cached_prompt_tokens ∧
    (generateNextToken e s).2.cached_token_chars = (shiftIfFull s).cached_token_chars ∧
    (generateNextToken e s).2.stop_generation_position =
      (shiftIfFull s).stop_generation_position := by
  have hd : (stepDecode e s).1 = false := hrej
  have hstep : generateNextToken e s = (none, (stepDecode e s).2) := by
    simp only [generateNextToken, if_neg (not_le.mpr hreach), hd]
    simp
  have hstate : (stepDecode e s).2 =
      { shiftIfFull s with
        trace := (shiftIfFull s).trace ++
          [EngineCall.sample (sampledToken e s), EngineCall.accept (sampledToken e s),
           EngineCall.decode [⟨sampledToken e s, (shiftIfFull s).current_position, true⟩]
             false] } := by
    have hd2 : e.decodeOk (afterSample e s).trace
        [⟨sampledToken e s, (afterSample e s).current_position, true⟩] = false := hrej
    simp only [stepDecode, submit, hd2]
    simp [afterSample]
  rw [hstep]
  refine ⟨rfl, hstate, ?_, ?_, ?_, ?_⟩ <;> simp only [hstate]

/-- Witness for claim C17: after the prompt `"a"` the engine samples token `100` and rejects
its decode; the call returns `nullptr` and leaves position 1 and the cache `97`. -/
theorem step_decode_failure_witness :
    (generateNextToken pickyEngine (promptedSession pickyEngine)).1 = none ∧
    (generateNextToken pickyEngine (promptedSession pickyEngine)).2.trace =
      (promptedSession pickyEngine).trace ++
        [EngineCall.sample 100, EngineCall.accept 100,
         EngineCall.decode [⟨100, 1, true⟩] false] ∧
    (generateNextToken pickyEngine (promptedSession pickyEngine)).2.current_position = 1 ∧
    (generateNextToken pickyEngine (promptedSession pickyEngine)).2.cached_prompt_tokens =
      [97] := by
  have h := step_decode_failure pickyEngine (promptedSession pickyEngine) (by decide)
    (by decide)
  exact ⟨h.1, (congrArg Session.trace h.2.1).trans (by decide), h.2.2.1.trans (by decide),
    h.2.2.2.1.trans (by decide)⟩

/-- Claim C18 (a single step keeps the window bound).  From a position between 0 and
`DEFAULT_CONTEXT_SIZE - OVERFLOW_HEADROOM = 8188`, with any stop position and any engine,
one `generateNextToken` call leaves the position between 0 and 8188, and every batch entry
it submits to the engine has a position at least 0 and strictly below 8188. -/
theorem step_keeps_window (e : Engine) (s : Session) (h0 : 0 ≤ s.current_position)
    (h1 : s.current_position ≤ DEFAULT_CONTEXT_SIZE - OVERFLOW_HEADROOM) :
    0 ≤ (generateNextToken e s).2.current_position ∧
    (generateNextToken e s).2.current_position ≤ DEFAULT_CONTEXT_SIZE - OVERFLOW_HEADROOM ∧
    ∃ calls, (generateNextToken e s).2.trace = s.trace ++ calls ∧
      ∀ x, x ∈ submitted calls →
        0 ≤ x.pos ∧ x.pos < DEFAULT_CONTEXT_SIZE - OVERFLOW_HEADROOM := by
  have hsh : 0 ≤ (shiftIfFull s).current_position ∧
      (shiftIfFull s).current_position < DEFAULT_CONTEXT_SIZE - OVERFLOW_HEADROOM := by
    by_cases hfull : s.current_position ≥ DEFAULT_CONTEXT_SIZE - OVERFLOW_HEADROOM
    · rw [shiftIfFull_full s hfull, shift_context_position, n_discard_eq s h0]
      simp only [DEFAULT_CONTEXT_SIZE, OVERFLOW_HEADROOM] at *
      omega
    · rw [shiftIfFull_below s (not_le.mp hfull)]
      exact ⟨h0, not_le.mp hfull⟩
  have hd := stepDecode_frame e s
  have ha := advanced_frame e s
  obtain ⟨pre, hpre, hsub⟩ := shiftIfFull_trace s
  refine ⟨?_, ?_, ?_⟩
  · rcases generateNextToken_cases e s with ⟨_, h⟩ | ⟨_, _, h⟩ | ⟨_, _, _, h⟩ | ⟨_, _, _, h⟩
    · rw [h]; exact hsh.1
    · rw [h]; simp only [hd.2.1]; exact hsh.1
    · rw [h]; simp only [ha.2.1]; omega
    · rw [h]; simp only [ha.2.1]; omega
  · rcases generateNextToken_cases e s with ⟨_, h⟩ | ⟨_, _, h⟩ | ⟨_, _, _, h⟩ | ⟨_, _, _, h⟩
    · rw [h]; exact le_of_lt hsh.2
    · rw [h]; simp only [hd.2.1]; exact le_of_lt hsh.2
    · rw [h]; simp only [ha.2.1]; omega
    · rw [h]; simp only [ha.2.1]; omega
  · rcases generateNextToken_calls e s with ⟨_, h⟩ | ⟨_, h⟩
    · refine ⟨pre, by rw [h, hpre], ?_⟩
      rw [hsub]
      intro x hx
      simp at hx
    · refine ⟨pre ++ [EngineCall.sample (sampledToken e s), EngineCall.accept (sampledToken e s),
         EngineCall.decode [⟨sampledToken e s, (shiftIfFull s).current_position, true⟩]
           (stepDecode e s).1], by rw [h, hpre, List.append_assoc], ?_⟩
      rw [submitted_append, hsub]
      intro x hx
      simp only [submitted, List.nil_append, List.append_nil, List.mem_singleton] at hx
      subst hx
      exact hsh

/-- Witness for claim C18: at position 8188 with stop position 8190 the call shifts to
4094, decodes there and ends at 4095. -/
theorem step_keeps_window_witness :
    0 ≤ (generateNextToken okEngine
      { emptySession with current_position := 8188, stop_generation_position := 8190 }
      ).2.current_position ∧
    (generateNextToken okEngine
      { emptySession with current_position := 8188, stop_generation_position := 8190 }
      ).2.current_position ≤ DEFAULT_CONTEXT_SIZE - OVERFLOW_HEADROOM ∧
    (generateNextToken okEngine
      { emptySession with current_position := 8188, stop_generation_position := 8190 }
      ).2.current_position = 4095 ∧
    submitted (generateNextToken okEngine
      { emptySession with current_position := 8188, stop_generation_position := 8190 }
      ).2.trace = [⟨65, 4094, true⟩] := by
  have h := step_keeps_window okEngine
    { emptySession with current_position := 8188, stop_generation_position := 8190 }
    (by decide) (by decide)
  exact ⟨h.1, h.2.1, by decide, by decide⟩

/-! ## Batch failure and chunking -/

theorem decodes_append (a b : List EngineCall) : decodes (a ++ b) = decodes a ++ decodes b := by
  induction a with
  | nil => rfl
  | cons c cs ih => cases c <;> simp [decodes, ih]

theorem decodeChunks_step_trace (e : Engine) (tokens : List Token) (sp : Int) (i : Nat)
    (s : Session) :
    ∃ pre, decodes pre = [] ∧
      (submit e (chunkBatch tokens sp i)
        (if sp + i + cur_batch_size tokens i ≥ DEFAULT_CONTEXT_SIZE - OVERFLOW_HEADROOM then
          shift_context s else s)).2.trace =
      s.trace ++ pre ++
        [EngineCall.decode (chunkBatch tokens sp i)
          (submit e (chunkBatch tokens sp i)
            (if sp + i + cur_batch_size tokens i ≥ DEFAULT_CONTEXT_SIZE - OVERFLOW_HEADROOM then
              shift_context s else s)).1] := by
  split
  · exact ⟨[EngineCall.seqRm 0 (n_discard s),
      EngineCall.seqAdd (n_discard s) s.current_position (-(n_discard s))], rfl, rfl⟩
  · exact ⟨[], rfl, by simp [submit]⟩

/-- The `llama_decode` calls of the decode loop: all chunks accepted and status 0, or the
chunks up to the first rejected one and status 1. -/
theorem decodeChunks_decodes (e : Engine) (tokens : List Token) (sp : Int) :
    ∀ (offs : List Nat) (s : Session),
      ∃ calls, (decodeChunks e tokens sp offs s).2.trace = s.trace ++ calls ∧
        (((decodeChunks e tokens sp offs s).1 = 0 ∧
            decodes calls = offs.map fun i => (chunkBatch tokens sp i, true)) ∨
          ((decodeChunks e tokens sp offs s).1 = 1 ∧
            ∃ done i rest, offs = done ++ i :: rest ∧
              decodes calls =
                (done.map fun i => (chunkBatch tokens sp i, true)) ++
                  [(chunkBatch tokens sp i, false)])) := by
  intro offs
  induction offs with
  | nil => intro s; exact ⟨[], by simp [decodeChunks], Or.inl ⟨rfl, rfl⟩⟩
  | cons i rest ih =>
      intro s
      obtain ⟨pre, hpre, htr⟩ := decodeChunks_step_trace e tokens sp i s
      simp only [decodeChunks]
      generalize hr : submit e (chunkBatch tokens sp i)
        (if sp + i + cur_batch_size tokens i ≥ DEFAULT_CONTEXT_SIZE - OVERFLOW_HEADROOM then
          shift_context s else s) = r at htr
      cases hok : r.1
      · refine ⟨pre ++ [EngineCall.decode (chunkBatch tokens sp i) false], ?_, Or.inr ⟨?_, ?_⟩⟩
        · simp only [Bool.false_eq_true, if_false]
          rw [htr, hok, List.append_assoc]
        · simp
        · refine ⟨[], i, rest, rfl, ?_⟩
          rw [decodes_append, hpre]
          rfl
      · obtain ⟨calls, hc, hcases⟩ := ih r.2
        simp only [if_true]
        refine ⟨pre ++ [EngineCall.decode (chunkBatch tokens sp i) true] ++ calls, ?_, ?_⟩
        · rw [hc, htr, hok]
          simp only [List.append_assoc]
        · have hd : decodes (pre ++ [EngineCall.decode (chunkBatch tokens sp i) true] ++ calls) =
              (chunkBatch tokens sp i, true) :: decodes calls := by
            rw [decodes_append, decodes_append, hpre]
            rfl
          rw [hd]
          rcases hcases with ⟨h0, hall⟩ | ⟨h1, done, j, rest2, hsplit, hdec⟩
          · exact Or.inl ⟨h0, by rw [hall]; rfl⟩
          · refine Or.inr ⟨h1, i :: done, j, rest2, by rw [hsplit]; rfl, ?_⟩
            rw [hdec]
            rfl

/-- Claim C12 (batch decode failure).  For every token sequence, start position, session
and engine, the `llama_decode` calls that `decode_tokens_in_batches` makes are, in order:
every chunk, each accepted, when it returns 0; otherwise the chunks before the first
rejected one, each accepted, followed by the rejected chunk, and nothing more (no later
chunk, no retry), and it returns 1.  It returns 0 exactly when no submitted chunk was
rejected.  `processPrompt` returns the same status, so 1 for a rejected chunk, and then
leaves the session as the aborted loop left it. -/
theorem decode_aborts_on_first_rejection (e : Engine) :
    (∀ (tokens : List Token) (sp : Int) (s : Session),
      ∃ calls, (decode_tokens_in_batches e tokens sp s).2.trace = s.trace ++ calls ∧
        ((decode_tokens_in_batches e tokens sp s).1 = 0 ↔
          ∀ d, d ∈ decodes calls → d.2 = true) ∧
        ((decode_tokens_in_batches e tokens sp s).1 = 0 →
          decodes calls =
            (chunkOffsets tokens.length).map fun i => (chunkBatch tokens sp i, true)) ∧
        ((decode_tokens_in_batches e tokens sp s).1 ≠ 0 →
          (decode_tokens_in_batches e tokens sp s).1 = 1 ∧
          ∃ done i rest, chunkOffsets tokens.length = done ++ i :: rest ∧
            decodes calls =
              (done.map fun i => (chunkBatch tokens sp i, true)) ++
                [(chunkBatch tokens sp i, false)])) ∧
    (∀ (prompt : String) (n : Int) (s : Session),
      (processPrompt e prompt n s).1 =
        (decode_tokens_in_batches e (newTokens e prompt s)
          (beforeDecode e prompt s).current_position (beforeDecode e prompt s)).1 ∧
      ((processPrompt e prompt n s).1 ≠ 0 →
        (processPrompt e prompt n s).1 = 1 ∧
        (processPrompt e prompt n s).2 =
          (decode_tokens_in_batches e (newTokens e prompt s)
            (beforeDecode e prompt s).current_position (beforeDecode e prompt s)).2)) := by
  constructor
  · intro tokens sp s
    obtain ⟨calls, hc, hcases⟩ :=
      decodeChunks_decodes e tokens sp (chunkOffsets tokens.length) s
    refine ⟨calls, hc, ?_, ?_, ?_⟩
    · rcases hcases with ⟨h0, hall⟩ | ⟨h1, done, i, rest, _, hdec⟩
      · simp only [decode_tokens_in_batches, h0, true_iff]
        intro d hd
        rw [hall] at hd
        obtain ⟨_, _, rfl⟩ := List.mem_map.mp hd
        rfl
      · simp only [decode_tokens_in_batches, h1]
        constructor
        · intro h; exact absurd h (by decide)
        · intro h
          have := h (chunkBatch tokens sp i, false) (by rw [hdec]; simp)
          simp at this
    · intro h0
      rcases hcases with ⟨_, hall⟩ | ⟨h1, _⟩
      · exact hall
      · simp only [decode_tokens_in_batches] at h0
        rw [h0] at h1
        exact absurd h1 (by decide)
    · intro hne
      rcases hcases with ⟨h0, _⟩ | ⟨h1, hrest⟩
      · exact absurd h0 hne
      · exact ⟨h1, hrest⟩
  · intro prompt n s
    refine ⟨processPrompt_status e prompt n s, fun hne => ⟨?_, processPrompt_failure e prompt n s hne⟩⟩
    rw [processPrompt_status] at hne ⊢
    rcases decodeChunks_status e (newTokens e prompt s) (beforeDecode e prompt s).current_position
      (chunkOffsets (newTokens e prompt s).length) (beforeDecode e prompt s) with h | h
    · exact absurd h hne
    · exact h

/-- Witness for claim C12: the prompt `"ad"` is one chunk, which `pickyEngine` rejects;
`processPrompt` returns 1, the chunk was submitted once, and the cache stays empty. -/
theorem decode_aborts_on_first_rejection_witness :
    (processPrompt pickyEngine "ad" 0 emptySession).1 = 1 ∧
    (processPrompt pickyEngine "ad" 0 emptySession).2 =
      (decode_tokens_in_batches pickyEngine [97, 100] 0 emptySession).2 ∧
    decodes (processPrompt pickyEngine "ad" 0 emptySession).2.trace =
      [([⟨97, 0, false⟩, ⟨100, 1, true⟩], false)] ∧
    (processPrompt pickyEngine "ad" 0 emptySession).2.cached_prompt_tokens = [] ∧
    (processPrompt pickyEngine "ab" 0 emptySession).1 = 0 ∧
    decodes (processPrompt pickyEngine "ab" 0 emptySession).2.trace =
      [([⟨97, 0, false⟩, ⟨98, 1, true⟩], true)] := by
  have h := ((decode_aborts_on_first_rejection pickyEngine).2 "ad" 0 emptySession).2
    (by decide)
  exact ⟨h.1, h.2.trans (by decide), by decide, by decide, by decide, by decide⟩

theorem chunkBatch_length (tokens : List Token) (sp : Int) (i : Nat) :
    (chunkBatch tokens sp i).length = min (tokens.length - i) BATCH_SIZE := by
  rw [chunkBatch, fillBatch_length, List.length_take, List.length_drop, cur_batch_size]
  omega

/-- Claim C14 (chunking and logits flag).  When `decode_tokens_in_batches` returns 0 for a
sequence of `n` tokens (every decode succeeded), it submitted exactly
`ceil(n / BATCH_SIZE)` chunks; each chunk is non-empty and has at most `BATCH_SIZE = 512`
entries, every chunk but the last exactly 512; the tokens of the chunks concatenated in
submission order are the token sequence; and an entry carries the logits flag exactly when
it is the entry of the last token `tokens[n-1]` (so no entry does when `n = 0`). -/
theorem chunking_and_logits (e : Engine) (tokens : List Token) (sp : Int) (s : Session)
    (hok : (decode_tokens_in_batches e tokens sp s).1 = 0) :
    ∃ calls, (decode_tokens_in_batches e tokens sp s).2.trace = s.trace ++ calls ∧
      (∀ d, d ∈ decodes calls → d.2 = true) ∧
      ((decodes calls).map Prod.fst).length = (tokens.length + (BATCH_SIZE - 1)) / BATCH_SIZE ∧
      (∀ c, c ∈ (decodes calls).map Prod.fst → 0 < c.length ∧ c.length ≤ BATCH_SIZE) ∧
      (∀ j c, j + 1 < ((decodes calls).map Prod.fst).length →
        ((decodes calls).map Prod.fst)[j]? = some c → c.length = BATCH_SIZE) ∧
      ((decodes calls).map Prod.fst).flatten.map BatchEntry.token = tokens ∧
      ((decodes calls).map Prod.fst).flatten.length = tokens.length ∧
      (∀ j x, ((decodes calls).map Prod.fst).flatten[j]? = some x →
        (x.logits = true ↔ j + 1 = tokens.length)) := by
  obtain ⟨calls, hc, hcases⟩ := decodeChunks_decodes e tokens sp (chunkOffsets tokens.length) s
  have hall : decodes calls =
      (chunkOffsets tokens.length).map fun i => (chunkBatch tokens sp i, true) := by
    rcases hcases with ⟨_, hall⟩ | ⟨h1, _⟩
    · exact hall
    · simp only [decode_tokens_in_batches] at hok
      rw [hok] at h1
      exact absurd h1 (by decide)
  have hchunks : (decodes calls).map Prod.fst =
      (chunkOffsets tokens.length).map (chunkBatch tokens sp) := by
    rw [hall, List.map_map]
    rfl
  have hflat := chunkOffsets_flatten tokens sp
  refine ⟨calls, hc, ?_, ?_, ?_, ?_, ?_, ?_, ?_⟩
  · intro d hd
    rw [hall] at hd
    obtain ⟨_, _, rfl⟩ := List.mem_map.mp hd
    rfl
  · rw [hchunks, List.length_map, chunkOffsets, List.length_range']
  · intro c hcm
    rw [hchunks] at hcm
    obtain ⟨i, hi, rfl⟩ := List.mem_map.mp hcm
    have := mem_chunkOffsets _ _ hi
    rw [chunkBatch_length]
    simp only [BATCH_SIZE]
    omega
  · intro j c hj hget
    rw [hchunks, List.length_map, chunkOffsets, List.length_range'] at hj
    rw [hchunks, List.getElem?_map, chunkOffsets, List.getElem?_range' _ _ (by omega)] at hget
    simp only [Option.map_some', Option.some.injEq] at hget
    subst hget
    rw [chunkBatch_length]
    simp only [BATCH_SIZE] at hj ⊢
    omega
  · rw [hchunks, hflat, fillBatch_tokens]
  · rw [hchunks, hflat, fillBatch_length]
  · intro j x hget
    rw [hchunks, hflat, fillBatch_getElem?] at hget
    cases ht : tokens[j]? with
    | none => rw [ht] at hget; simp at hget
    | some t =>
        rw [ht] at hget
        simp only [Option.map_some', Option.some.injEq] at hget
        have hlt : j < tokens.length := by
          by_contra hge
          rw [List.getElem?_eq_none (by omega)] at ht
          exact absurd ht (by simp)
        subst hget
        simp only [decide_eq_true_eq]
        omega

/-- Witness for claim C14: three tokens from position 0 go out as one chunk of three
entries, the last of which carries the logits flag. -/
theorem chunking_and_logits_witness :
    (decode_tokens_in_batches okEngine [97, 98, 99] 0 emptySession).1 = 0 ∧
    decodes (decode_tokens_in_batches okEngine [97, 98, 99] 0 emptySession).2.trace =
      [([⟨97, 0, false⟩, ⟨98, 1, false⟩, ⟨99, 2, true⟩], true)] ∧
    ((decodes (decode_tokens_in_batches okEngine [97, 98, 99] 0
      emptySession).2.trace).map Prod.fst).length = (3 + (BATCH_SIZE - 1)) / BATCH_SIZE ∧
    ((decodes (decode_tokens_in_batches okEngine [97, 98, 99] 0
      emptySession).2.trace).map Prod.fst).flatten.map BatchEntry.token = [97, 98, 99] := by
  obtain ⟨calls, h⟩ := chunking_and_logits okEngine [97, 98, 99] 0 emptySession (by decide)
  have hcalls : (decode_tokens_in_batches okEngine [97, 98, 99] 0 emptySession).2.trace =
      calls := by
    rw [h.1]; rfl
  rw [hcalls]
  exact ⟨by decide, by rw [← hcalls]; decide, h.2.2.1, h.2.2.2.2.2.1⟩

/-! ## Positions after a shift inside the decode loop -/

theorem decodeChunks_append (e : Engine) (tokens : List Token) (sp : Int) :
    ∀ (a b : List Nat) (s : Session), (decodeChunks e tokens sp a s).1 = 0 →
      decodeChunks e tokens sp (a ++ b) s =
        decodeChunks e tokens sp b (decodeChunks e tokens sp a s).2 := by
  intro a
  induction a with
  | nil => intro b s _; rfl
  | cons i rest ih =>
      intro b s h
      simp only [decodeChunks, List.cons_append] at h ⊢
      generalize (if sp + ↑i + ↑(cur_batch_size tokens i) ≥
        DEFAULT_CONTEXT_SIZE - OVERFLOW_HEADROOM then shift_context s else s) = s1 at h ⊢
      cases hok : (submit e (chunkBatch tokens sp i) s1).1
      · rw [hok] at h
        simp at h
      · rw [hok] at h
        simp only [if_true] at h ⊢
        exact ih b _ h

theorem chunkBatch_positions (tokens : List Token) (k i : Nat) :
    (chunkBatch tokens (k : Int) i).map BatchEntry.pos =
      (List.range' (k + i) (min (tokens.length - i) BATCH_SIZE)).map Int.ofNat := by
  have h := chunkBatch_length tokens (k : Int) i
  rw [chunkBatch, fillBatch_length] at h
  rw [chunkBatch, fillBatch_positions, h]

/-- The decode loop for 8186 tokens from start position 2 with an accepting engine: the
first fifteen chunks go out unshifted, then the sixteenth chunk reaches the window limit,
the shift discards one position, and the chunk is submitted as built from `start_pos`. -/
theorem decode_shifted_trace (e : Engine) (hacc : ∀ tr b, e.decodeOk tr b = true)
    (tokens : List Token) (hlen : tokens.length = 8186) (s : Session)
    (hpos : s.current_position = 2) :
    (decode_tokens_in_batches e tokens 2 s).1 = 0 ∧
    (decode_tokens_in_batches e tokens 2 s).2.trace =
      s.trace ++ ((List.range' 0 15 BATCH_SIZE).map fun i =>
        EngineCall.decode (chunkBatch tokens 2 i) true) ++
      [EngineCall.seqRm 0 1, EngineCall.seqAdd 1 2 (-1),
       EngineCall.decode (chunkBatch tokens 2 7680) true] ∧
    (decode_tokens_in_batches e tokens 2 s).2.current_position = 1 := by
  have hoffs : chunkOffsets tokens.length = List.range' 0 15 BATCH_SIZE ++ [7680] := by
    rw [hlen]; decide
  have hbound : ∀ i, i ∈ List.range' 0 15 BATCH_SIZE →
      (2 : Int) + i + cur_batch_size tokens i < DEFAULT_CONTEXT_SIZE - OVERFLOW_HEADROOM := by
    intro i hi
    simp only [List.mem_range', BATCH_SIZE] at hi
    obtain ⟨j, hj, rfl⟩ := hi
    simp only [cur_batch_size, hlen, BATCH_SIZE, DEFAULT_CONTEXT_SIZE, OVERFLOW_HEADROOM]
    omega
  have h15 := decodeChunks_noShift e tokens 2 (List.range' 0 15 BATCH_SIZE) s hbound
    (decodeChunks_accepting e hacc tokens 2 _ s)
  have hlast : (2 : Int) + (7680 : Nat) + cur_batch_size tokens 7680 ≥
      DEFAULT_CONTEXT_SIZE - OVERFLOW_HEADROOM := by
    simp only [cur_batch_size, hlen, BATCH_SIZE, DEFAULT_CONTEXT_SIZE, OVERFLOW_HEADROOM]
    decide
  have hst := decodeChunks_accepting e hacc tokens 2 (chunkOffsets tokens.length) s
  refine ⟨hst, ?_, ?_⟩
  · simp only [decode_tokens_in_batches]
    rw [hoffs, decodeChunks_append e tokens 2 _ _ s (decodeChunks_accepting e hacc tokens 2 _ s),
      h15]
    simp only [decodeChunks, if_pos hlast, submit, hacc, if_true, shift_context, n_discard, hpos]
    simp
  · simp only [decode_tokens_in_batches]
    rw [hoffs, decodeChunks_append e tokens 2 _ _ s (decodeChunks_accepting e hacc tokens 2 _ s),
      h15]
    simp only [decodeChunks, if_pos hlast, submit, hacc, if_true, shift_context, n_discard, hpos]
    decide

/-- Claim C15 (cursor-relative positions), evaluated at its failing input: with the cache
`97 98` at position 2, `processPrompt` of a prompt of 8188 tokens that starts with `97 98`
calls the decode loop with 8186 new tokens and start position 2.  All decodes succeed.
Before the last chunk (offset 7680, 506 tokens) the loop shifts and discards one position,
so the position drops to 1; the chunk is nevertheless submitted with the positions
`start_pos + i + j = 7682, 7683, ...` computed from the start position of loop entry, not
with `7681, 7682, ...`. -/
theorem frozen_positions_after_shift :
    newTokens okEngine (paddedPrompt ['a', 'b'] 8188) abSession = List.replicate 8186 99 ∧
    beforeDecode okEngine (paddedPrompt ['a', 'b'] 8188) abSession = abSession ∧
    abSession.current_position = 2 ∧
    (decode_tokens_in_batches okEngine (List.replicate 8186 99) 2 abSession).1 = 0 ∧
    (decode_tokens_in_batches okEngine (List.replicate 8186 99) 2 abSession).2.trace =
      abSession.trace ++ ((List.range' 0 15 BATCH_SIZE).map fun i =>
        EngineCall.decode (chunkBatch (List.replicate 8186 99) 2 i) true) ++
      [EngineCall.seqRm 0 1, EngineCall.seqAdd 1 2 (-1),
       EngineCall.decode (chunkBatch (List.replicate 8186 99) 2 7680) true] ∧
    (decode_tokens_in_batches okEngine (List.replicate 8186 99) 2
      abSession).2.current_position = 1 ∧
    (chunkBatch (List.replicate 8186 99) 2 7680).map BatchEntry.pos =
      (List.range' 7682 506).map Int.ofNat ∧
    ((chunkBatch (List.replicate 8186 99) 2 7680).map BatchEntry.pos)[0]? = some 7682 := by
  have hT := tokenize_paddedPrompt_ab 8188
  have hab : abSession.cached_prompt_tokens = [97, 98] := by decide
  have hk : common_prefix_len abSession.cached_prompt_tokens
      (okEngine.tokenize (paddedPrompt ['a', 'b'] 8188)) = 2 := by
    rw [hT, hab]; exact common_prefix_len_ab _
  have hnew : newTokens okEngine (paddedPrompt ['a', 'b'] 8188) abSession =
      List.replicate 8186 99 := by
    rw [newTokens, hk, hT]
    rfl
  have hbd : beforeDecode okEngine (paddedPrompt ['a', 'b'] 8188) abSession = abSession := by
    have htr : truncateCache 2 abSession = abSession := by decide
    simp only [beforeDecode, hk, htr, hnew, List.length_replicate]
    rw [if_neg]
    decide
  have htrace := decode_shifted_trace okEngine (fun _ _ => rfl) (List.replicate 8186 99)
    (List.length_replicate _ _) abSession (by decide)
  have hposs : (chunkBatch (List.replicate 8186 99) 2 7680).map BatchEntry.pos =
      (List.range' 7682 506).map Int.ofNat := by
    have h := chunkBatch_positions (List.replicate 8186 99) 2 7680
    rw [List.length_replicate] at h
    exact h
  refine ⟨hnew, hbd, by decide, htrace.1, htrace.2.1, htrace.2.2, hposs, ?_⟩
  rw [hposs, List.getElem?_map, List.getElem?_range' _ _ (by decide)]
  rfl

/-! ## Stop position -/

theorem truncateCache_nonneg (k : Nat) (s : Session) (h : 0 ≤ s.current_position) :
    0 ≤ (truncateCache k s).current_position := by
  unfold truncateCache
  split
  · simp
  · exact h

theorem beforeDecode_nonneg (e : Engine) (prompt : String) (s : Session)
    (h : 0 ≤ s.current_position) : 0 ≤ (beforeDecode e prompt s).current_position := by
  have ht := truncateCache_nonneg
    (common_prefix_len s.cached_prompt_tokens (e.tokenize prompt)) s h
  simp only [beforeDecode]
  split
  · exact shift_context_nonneg _ ht
  · exact ht

theorem processPrompt_nonneg (e : Engine) (prompt : String) (n : Int) (s : Session)
    (h : 0 ≤ s.current_position) : 0 ≤ (processPrompt e prompt n s).2.current_position := by
  have hb := beforeDecode_nonneg e prompt s h
  have hp := decodeChunks_position_le e (newTokens e prompt s)
    (beforeDecode e prompt s).current_position
    (chunkOffsets (newTokens e prompt s).length) (beforeDecode e prompt s) hb
  by_cases hst : (processPrompt e prompt n s).1 = 0
  · rw [processPrompt_success e prompt n s hst]
    simp only [decode_tokens_in_batches]
    omega
  · rw [processPrompt_failure e prompt n s hst]
    exact hp.1

theorem wrap32_of_range (x : Int) (h0 : -2147483648 ≤ x) (h1 : x ≤ 2147483647) :
    wrap32 x = x := by
  unfold wrap32
  omega

theorem processPrompt_stop (e : Engine) (prompt : String) (n : Int) (s : Session)
    (hst : (processPrompt e prompt n s).1 = 0) :
    (processPrompt e prompt n s).2.stop_generation_position =
      wrap32 ((processPrompt e prompt n s).2.current_position + n) := by
  rw [processPrompt_success e prompt n s hst]

/-- A failed `processPrompt` entered with the position at the end of the cache lowers
the position or keeps it, and keeps the stop position. -/
theorem processPrompt_failure_position (e : Engine) (prompt : String) (n : Int) (s : Session)
    (h0 : 0 ≤ s.current_position)
    (hcur : s.current_position = s.cached_prompt_tokens.length)
    (hst : (processPrompt e prompt n s).1 ≠ 0) :
    (processPrompt e prompt n s).2.current_position ≤ s.current_position ∧
    (processPrompt e prompt n s).2.stop_generation_position = s.stop_generation_position := by
  have hkc := common_prefix_len_le_cached s.cached_prompt_tokens (e.tokenize prompt)
  have htp := truncateCache_position _ s hkc hcur
  have htn := truncateCache_nonneg
    (common_prefix_len s.cached_prompt_tokens (e.tokenize prompt)) s h0
  have hbp : (beforeDecode e prompt s).current_position ≤ s.current_position ∧
      0 ≤ (beforeDecode e prompt s).current_position := by
    simp only [beforeDecode]
    split
    · exact ⟨le_trans (shift_context_le _ htn) (by rw [htp, hcur]; exact_mod_cast hkc),
        shift_context_nonneg _ htn⟩
    · exact ⟨by rw [htp, hcur]; exact_mod_cast hkc, htn⟩
  have hp := decodeChunks_position_le e (newTokens e prompt s)
    (beforeDecode e prompt s).current_position
    (chunkOffsets (newTokens e prompt s).length) (beforeDecode e prompt s) hbp.2
  have hf := decodeChunks_frame e (newTokens e prompt s)
    (beforeDecode e prompt s).current_position
    (chunkOffsets (newTokens e prompt s).length) (beforeDecode e prompt s)
  rw [processPrompt_failure e prompt n s hst]
  simp only [decode_tokens_in_batches]
  exact ⟨le_trans hp.2 hbp.1, hf.2.1.trans (beforeDecode_frame e prompt s).1⟩

theorem generateNextToken_nonneg (e : Engine) (s : Session) (h : 0 ≤ s.current_position) :
    0 ≤ (generateNextToken e s).2.current_position := by
  have hs := shiftIfFull_position_le s h
  have hd := stepDecode_frame e s
  have ha := advanced_frame e s
  rcases generateNextToken_cases e s with ⟨_, h1⟩ | ⟨_, _, h1⟩ | ⟨_, _, _, h1⟩ | ⟨_, _, _, h1⟩
  · rw [h1]; exact hs.1
  · rw [h1]; simp only [hd.2.1]; exact hs.1
  · rw [h1]; simp only [ha.2.1]; omega
  · rw [h1]; simp only [ha.2.1]; omega

/-- A step never moves the position past the stop position. -/
theorem generateNextToken_below_stop (e : Engine) (s : Session) (h0 : 0 ≤ s.current_position)
    (h : s.current_position ≤ s.stop_generation_position) :
    (generateNextToken e s).2.current_position ≤
      (generateNextToken e s).2.stop_generation_position := by
  have hs := shiftIfFull_position_le s h0
  have hf := shiftIfFull_frame s
  have hd := stepDecode_frame e s
  have ha := advanced_frame e s
  rcases generateNextToken_cases e s with ⟨_, h1⟩ | ⟨_, _, h1⟩ | ⟨h2, _, _, h1⟩ | ⟨h2, _, _, h1⟩
  · rw [h1]
    show (shiftIfFull s).current_position ≤ (shiftIfFull s).stop_generation_position
    rw [hf.2.1]; omega
  · rw [h1]; simp only [hd.2.1, hd.2.2.1]; omega
  · rw [h1]; simp only [ha.2.1, ha.2.2.1]; rw [hf.2.1] at h2; omega
  · rw [h1]; simp only [ha.2.1, ha.2.2.1]; rw [hf.2.1] at h2; omega

theorem calmRun_below_stop (e : Engine) :
    ∀ (ops : List Op) (s : Session), 0 ≤ s.current_position →
      s.current_position ≤ s.stop_generation_position → calmRun e ops s = true →
      0 ≤ (runOps e ops s).current_position ∧
      (runOps e ops s).current_position ≤ (runOps e ops s).stop_generation_position := by
  intro ops
  induction ops with
  | nil => intro s h0 h _; exact ⟨h0, h⟩
  | cons op ops ih =>
      intro s h0 h hcalm
      cases op with
      | processPrompt prompt n =>
          simp only [calmRun, Bool.and_eq_true, decide_eq_true_eq] at hcalm
          obtain ⟨⟨hn, hor⟩, hrest⟩ := hcalm
          have hnn := processPrompt_nonneg e prompt n s h0
          simp only [runOps, applyOp]
          apply ih _ hnn _ hrest
          by_cases hst : (processPrompt e prompt n s).1 = 0
          · rw [if_pos hst, decide_eq_true_eq] at hor
            rw [processPrompt_stop e prompt n s hst, wrap32_of_range _ (by omega) hor]
            omega
          · rw [if_neg hst, decide_eq_true_eq] at hor
            have := processPrompt_failure_position e prompt n s h0 hor hst
            omega
      | generateNextToken =>
          simp only [calmRun] at hcalm
          simp only [runOps, applyOp]
          exact ih _ (generateNextToken_nonneg e s h0)
            (generateNextToken_below_stop e s h0 h) hcalm
      | unload => simp [calmRun] at hcalm

/-- Claim C11 (stop-position invariant), amended.  After a successful
`processPrompt(P, n_predict)` the stop position is the `int32` sum of the position and
`n_predict`, which wraps around.  If the call was entered at a position `>= 0`, with
`n_predict >= 0` and with position plus `n_predict` at most `2^31 - 1` (no overflow), the
stop position is the position plus `n_predict`, and in every session reached afterwards
by `generateNextToken` and `processPrompt` calls the stop position is at least the
position, provided every later budget is non-negative, every later successful prompt
stays free of overflow in the same way, and every `processPrompt` that fails is entered
with the position at the end of the token cache (which is the case until a shift
fires). -/
theorem stop_position_ahead (e : Engine) (s : Session) (prompt : String) (n : Int)
    (hst : (processPrompt e prompt n s).1 = 0) :
    (processPrompt e prompt n s).2.stop_generation_position =
      wrap32 ((processPrompt e prompt n s).2.current_position + n) ∧
    (0 ≤ s.current_position → 0 ≤ n →
      (processPrompt e prompt n s).2.current_position + n ≤ 2147483647 →
      (processPrompt e prompt n s).2.stop_generation_position =
        (processPrompt e prompt n s).2.current_position + n ∧
      ∀ ops, calmRun e ops (processPrompt e prompt n s).2 = true →
        (runOps e ops (processPrompt e prompt n s).2).current_position ≤
          (runOps e ops (processPrompt e prompt n s).2).stop_generation_position) := by
  have hstop := processPrompt_stop e prompt n s hst
  refine ⟨hstop, fun h0 hn hmax => ?_⟩
  have hnn := processPrompt_nonneg e prompt n s h0
  have heq : (processPrompt e prompt n s).2.stop_generation_position =
      (processPrompt e prompt n s).2.current_position + n := by
    rw [hstop, wrap32_of_range _ (by omega) hmax]
  refine ⟨heq, fun ops hcalm => ?_⟩
  exact (calmRun_below_stop e ops _ hnn (by rw [heq]; omega) hcalm).2

/-- Witness for claim C11: after the prompt `"ab"` with budget 3 the stop position is 5;
a step, a rejected prompt and another step later the position is 1 and the stop position
still 5. -/
theorem stop_position_ahead_witness :
    (processPrompt pickyEngine "ab" 3 emptySession).2.stop_generation_position =
      (processPrompt pickyEngine "ab" 3 emptySession).2.current_position + 3 ∧
    (runOps pickyEngine [Op.generateNextToken, Op.processPrompt "ad" 1, Op.generateNextToken]
      (processPrompt pickyEngine "ab" 3 emptySession).2).current_position ≤
    (runOps pickyEngine [Op.generateNextToken, Op.processPrompt "ad" 1, Op.generateNextToken]
      (processPrompt pickyEngine "ab" 3 emptySession).2).stop_generation_position ∧
    (processPrompt pickyEngine "ad" 1
      (generateNextToken pickyEngine
        (processPrompt pickyEngine "ab" 3 emptySession).2).2).1 = 1 := by
  have h := (stop_position_ahead pickyEngine emptySession "ab" 3 (by decide)).2
    (by decide) (by decide) (by decide)
  exact ⟨h.1, h.2
    [Op.generateNextToken, Op.processPrompt "ad" 1, Op.generateNextToken] (by decide),
    by decide⟩

theorem common_prefix_len_eq (cached user : List Token) (k : Nat)
    (hk1 : k ≤ cached.length) (hk2 : k ≤ user.length)
    (hag : ∀ i, i < k → cached[i]? = user[i]?)
    (hstop : k = cached.length ∨ k = user.length ∨ cached[k]? ≠ user[k]?) :
    common_prefix_len cached user = k := by
  have h1 := common_prefix_len_le_cached cached user
  have h2 := common_prefix_len_le_user cached user
  have h3 := common_prefix_len_stop cached user
  have h4 := common_prefix_len_agree cached user
  rcases Nat.lt_trichotomy (common_prefix_len cached user) k with hlt | heq | hgt
  · rcases h3 with h | h | h
    · omega
    · omega
    · exact absurd (hag _ hlt) h
  · exact heq
  · rcases hstop with h | h | h
    · omega
    · omega
    · exact absurd (h4 k hgt) h

theorem common_prefix_len_self (l : List Token) : common_prefix_len l l = l.length :=
  common_prefix_len_eq l l l.length (le_refl _) (le_refl _) (fun _ _ => rfl) (Or.inl rfl)

theorem common_prefix_len_replicate (n m : Nat) (a b : Token) (hab : a ≠ b) (h : m < n) :
    common_prefix_len (List.replicate n a) (List.replicate m a ++ [b]) = m := by
  apply common_prefix_len_eq
  · simp; omega
  · simp
  · intro i hi
    rw [List.getElem?_append_left (by simpa using hi), List.getElem?_replicate,
      List.getElem?_replicate, if_pos hi, if_pos (by omega)]
  · right; right
    rw [List.getElem?_append_right (by simp), List.getElem?_replicate, if_pos h]
    simp [hab]

theorem chunkBatch_tokens_mem (tokens : List Token) (sp : Int) (i : Nat) (x : BatchEntry)
    (hx : x ∈ chunkBatch tokens sp i) : x.token ∈ tokens := by
  have h : x.token ∈ (chunkBatch tokens sp i).map BatchEntry.token := List.mem_map_of_mem _ hx
  rw [chunkBatch, fillBatch_tokens] at h
  exact List.mem_of_mem_drop (List.mem_of_mem_take h)

theorem decodeChunks_accepting_chunks (e : Engine) (tokens : List Token) (sp : Int)
    (hacc : ∀ tr i, e.decodeOk tr (chunkBatch tokens sp i) = true) :
    ∀ (offs : List Nat) (s : Session), (decodeChunks e tokens sp offs s).1 = 0 := by
  intro offs
  induction offs with
  | nil => intro s; rfl
  | cons i rest ih =>
      intro s
      simp only [decodeChunks, submit, hacc, if_true]
      exact ih _

theorem pickyEngine_accepts (tokens : List Token) (sp : Int) (h : (100 : Token) ∉ tokens)
    (tr : List EngineCall) (i : Nat) :
    pickyEngine.decodeOk tr (chunkBatch tokens sp i) = true := by
  simp only [pickyEngine, List.all_eq_true, decide_eq_true_eq]
  intro x hx heq
  exact h (heq ▸ chunkBatch_tokens_mem tokens sp i x hx)

/-- The variant of `processPrompt_fresh` for a call that is known to succeed. -/
theorem processPrompt_fresh_of_status (e : Engine) (prompt : String) (n : Int) (s : Session)
    (hc : s.cached_prompt_tokens = []) (hp : s.current_position = 0)
    (hst : (processPrompt e prompt n s).1 = 0) :
    (processPrompt e prompt n s).2.cached_prompt_tokens = e.tokenize prompt ∧
    (processPrompt e prompt n s).2.current_position = (e.tokenize prompt).length ∧
    (processPrompt e prompt n s).2.stop_generation_position =
      wrap32 ((e.tokenize prompt).length + n) := by
  have hk : common_prefix_len s.cached_prompt_tokens (e.tokenize prompt) = 0 := by
    rw [hc]; exact common_prefix_len_nil _
  have hnew : newTokens e prompt s = e.tokenize prompt := by
    simp [newTokens, hk]
  have htr : truncateCache 0 s = s := by
    simp [truncateCache, hc]
  have hbp : (beforeDecode e prompt s).current_position = 0 := by
    simp only [beforeDecode, hk, htr]
    split
    · rw [shift_context_small s (by omega) (by omega)]; exact hp
    · exact hp
  have hbc : (beforeDecode e prompt s).cached_prompt_tokens = [] := by
    rw [(beforeDecode_frame e prompt s).2.2, hk, htr, hc]
  have hf := decodeChunks_frame e (newTokens e prompt s)
    (beforeDecode e prompt s).current_position
    (chunkOffsets (newTokens e prompt s).length) (beforeDecode e prompt s)
  have hpos := decodeChunks_position_small e (newTokens e prompt s)
    (beforeDecode e prompt s).current_position
    (chunkOffsets (newTokens e prompt s).length) (beforeDecode e prompt s)
    (by omega) (by omega)
  rw [hbp, hbc] at hf
  rw [hbp] at hpos
  rw [processPrompt_success e prompt n s hst]
  simp only [decode_tokens_in_batches, hbp, hf.1, hpos]
  rw [hnew]
  simp

/-- A prompt whose tokens are exactly the token cache, processed below the window limit:
nothing is decoded, the call succeeds and only the stop position changes. -/
theorem processPrompt_same (e : Engine) (prompt : String) (n : Int) (s : Session)
    (hT : e.tokenize prompt = s.cached_prompt_tokens)
    (hwin : s.current_position ≤ DEFAULT_CONTEXT_SIZE - OVERFLOW_HEADROOM) :
    (processPrompt e prompt n s).1 = 0 ∧
    (processPrompt e prompt n s).2.cached_prompt_tokens = s.cached_prompt_tokens ∧
    (processPrompt e prompt n s).2.current_position = s.current_position ∧
    (processPrompt e prompt n s).2.stop_generation_position =
      wrap32 (s.current_position + n) := by
  have hk : common_prefix_len s.cached_prompt_tokens (e.tokenize prompt) =
      s.cached_prompt_tokens.length := by
    rw [hT]; exact common_prefix_len_self _
  have hnew : newTokens e prompt s = [] := by
    rw [newTokens, hk, hT, List.drop_length]
  have htr : truncateCache s.cached_prompt_tokens.length s = s := by
    simp [truncateCache]
  have hbd : beforeDecode e prompt s = s := by
    simp only [beforeDecode, hk, htr, hnew, List.length_nil]
    rw [if_neg]
    simp only [Nat.cast_zero, add_zero, gt_iff_lt, not_lt]
    exact hwin
  have hdec : decode_tokens_in_batches e [] s.current_position s = (0, s) := rfl
  have hst : (processPrompt e prompt n s).1 = 0 := by
    rw [processPrompt_status, hbd, hnew, hdec]
  rw [processPrompt_success e prompt n s hst, hbd, hnew, hdec]
  simp [hst]

/-- A step taken below the stop position whose decode the engine rejects keeps the
session of the optional shift, apart from the call trace. -/
theorem generateNextToken_rejected (e : Engine) (s : Session)
    (hlt : (shiftIfFull s).current_position < (shiftIfFull s).stop_generation_position)
    (hrej : (stepDecode e s).1 = false) :
    (generateNextToken e s).2.cached_prompt_tokens = s.cached_prompt_tokens ∧
    (generateNextToken e s).2.current_position = (shiftIfFull s).current_position ∧
    (generateNextToken e s).2.stop_generation_position = s.stop_generation_position := by
  have hd := stepDecode_frame e s
  rcases generateNextToken_cases e s with ⟨h0, _⟩ | ⟨_, _, h1⟩ | ⟨_, h0, _⟩ | ⟨_, h0, _⟩
  · omega
  · rw [h1]; exact ⟨hd.1, hd.2.1, hd.2.2.1⟩
  · rw [hrej] at h0; simp at h0
  · rw [hrej] at h0; simp at h0

/-! ## The well-formedness check -/

theorem c_str_cons (b : Nat) (bs : List Nat) :
    c_str (b :: bs) = if b = 0 then [] else b :: c_str bs := by
  unfold c_str
  by_cases h : b = 0
  · simp [h]
  · simp [h]

theorem zero_not_mem_c_str (buf : List Nat) : 0 ∉ c_str buf := by
  induction buf with
  | nil => simp [c_str]
  | cons b bs ih =>
      rw [c_str_cons]
      split
      · simp
      · next h =>
          intro h0
          rcases List.mem_cons.mp h0 with h1 | h1
          · exact h h1.symm
          · exact ih h1

/-- The scan does not depend on what follows the first zero byte. -/
theorem utf8Scan_c_str : ∀ (buf : List Nat) (need : Nat),
    utf8Scan need buf = utf8Scan need (c_str buf) := by
  intro buf
  induction buf with
  | nil => intro need; rfl
  | cons b bs ih =>
      intro need
      rw [c_str_cons]
      by_cases hb : b = 0
      · subst hb
        cases need with
        | zero => simp [utf8Scan]
        | succ k => simp [utf8Scan]
      · rw [if_neg hb]
        cases need with
        | zero =>
            simp only [utf8Scan, hb, if_false]
            rw [ih 0, ih 1, ih 2, ih 3]
        | succ k =>
            simp only [utf8Scan]
            rw [ih k]

theorem utf8Scan_conts : ∀ (conts more : List Nat),
    (∀ c, c ∈ conts → c &&& 0xC0 = 0x80) →
    utf8Scan conts.length (conts ++ more) = utf8Scan 0 more := by
  intro conts
  induction conts with
  | nil => intro more _; rfl
  | cons c cs ih =>
      intro more hc
      simp only [List.length_cons, List.cons_append, utf8Scan,
        hc c (List.mem_cons_self _ _), if_true]
      exact ih more (fun d hd => hc d (List.mem_cons_of_mem _ hd))

theorem isCompleteUnit_iff (b : Nat) (rest : List Nat) :
    isCompleteUnit (b :: rest) = true ↔
      (∀ c, c ∈ rest → c &&& 0xC0 = 0x80) ∧
      ((b &&& 0x80 = 0 ∧ rest.length = 0) ∨ (b &&& 0xE0 = 0xC0 ∧ rest.length = 1) ∨
        (b &&& 0xF0 = 0xE0 ∧ rest.length = 2) ∨ (b &&& 0xF8 = 0xF0 ∧ rest.length = 3)) := by
  simp [isCompleteUnit, List.all_eq_true, or_assoc]

/-- The scan of the leading byte of a complete unit. -/
theorem utf8Scan_unit_lead (b : Nat) (rest more : List Nat) (hb : b ≠ 0)
    (h : isCompleteUnit (b :: rest) = true) :
    utf8Scan 0 (b :: more) = utf8Scan rest.length more := by
  rw [isCompleteUnit_iff] at h
  have hl := lead_bits b
  rcases h.2 with ⟨h1, h2⟩ | ⟨h1, h2⟩ | ⟨h1, h2⟩ | ⟨h1, h2⟩
  · simp only [utf8Scan, hb, h1, h2, if_false, if_true]
  · have := hl.2.1 h1
    simp only [utf8Scan, this.1, this.2, h1, h2, if_false, if_true]
  · have := hl.2.2.1 h1
    simp only [utf8Scan, this.1, this.2.1, this.2.2, h1, h2, if_false, if_true]
  · have := hl.2.2.2 h1
    simp only [utf8Scan, this.1, this.2.1, this.2.2.1, this.2.2.2, h1, h2, if_false, if_true]

/-- The scan passes over complete units without zero bytes. -/
theorem utf8Scan_units : ∀ (units : List (List Nat)) (more : List Nat),
    (∀ u, u ∈ units → isCompleteUnit u = true) → 0 ∉ units.flatten →
    utf8Scan 0 (units.flatten ++ more) = utf8Scan 0 more := by
  intro units
  induction units with
  | nil => intro more _ _; rfl
  | cons u us ih =>
      intro more hu h0
      have hcu := hu u (List.mem_cons_self _ _)
      cases u with
      | nil => simp [isCompleteUnit] at hcu
      | cons b rest =>
          have hb : b ≠ 0 := by
            intro hb0
            apply h0
            simp [hb0]
          have hconts := ((isCompleteUnit_iff b rest).mp hcu).1
          simp only [List.flatten_cons, List.cons_append, List.append_assoc]
          rw [utf8Scan_unit_lead b rest _ hb hcu, utf8Scan_conts rest _ hconts]
          apply ih more (fun v hv => hu v (List.mem_cons_of_mem _ hv))
          intro hmem
          apply h0
          simp only [List.flatten_cons, List.mem_append]
          exact Or.inr hmem

/-- A buffer without zero bytes that the scan accepts splits into the continuation bytes
still expected and complete units. -/
theorem utf8Scan_parse : ∀ (l : List Nat) (need : Nat), 0 ∉ l → utf8Scan need l = true →
    ∃ (conts : List Nat) (units : List (List Nat)), l = conts ++ units.flatten ∧ conts.length = need ∧
      (∀ c, c ∈ conts → c &&& 0xC0 = 0x80) ∧ (∀ u, u ∈ units → isCompleteUnit u = true) := by
  intro l
  induction l with
  | nil =>
      intro need _ h
      cases need with
      | zero => exact ⟨[], [], rfl, rfl, by simp, by simp⟩
      | succ k => simp [utf8Scan] at h
  | cons b bs ih =>
      intro need h0 h
      have hb : b ≠ 0 := fun hb0 => h0 (by simp [hb0])
      have h0bs : 0 ∉ bs := fun hm => h0 (List.mem_cons_of_mem _ hm)
      cases need with
      | zero =>
          have key : ∀ r, utf8Scan r bs = true →
              ((b &&& 0x80 = 0 ∧ r = 0) ∨ (b &&& 0xE0 = 0xC0 ∧ r = 1) ∨
                (b &&& 0xF0 = 0xE0 ∧ r = 2) ∨ (b &&& 0xF8 = 0xF0 ∧ r = 3)) →
              ∃ (conts : List Nat) (units : List (List Nat)), b :: bs = conts ++ units.flatten ∧ conts.length = 0 ∧
                (∀ c, c ∈ conts → c &&& 0xC0 = 0x80) ∧
                (∀ u, u ∈ units → isCompleteUnit u = true) := by
            intro r hr hpat
            obtain ⟨conts, units, hsplit, hlen, hconts, hunits⟩ := ih r h0bs hr
            refine ⟨[], (b :: conts) :: units, by simp [hsplit], rfl, by simp, ?_⟩
            intro u hu
            rcases List.mem_cons.mp hu with h1 | h1
            · rw [h1, isCompleteUnit_iff]
              refine ⟨hconts, ?_⟩
              rw [hlen]
              exact hpat
            · exact hunits u h1
          simp only [utf8Scan, hb, if_false] at h
          split at h
          · next h1 => exact key 0 h (Or.inl ⟨h1, rfl⟩)
          · split at h
            · next h1 => exact key 1 h (Or.inr (Or.inl ⟨h1, rfl⟩))
            · split at h
              · next h1 => exact key 2 h (Or.inr (Or.inr (Or.inl ⟨h1, rfl⟩)))
              · split at h
                · next h1 => exact key 3 h (Or.inr (Or.inr (Or.inr ⟨h1, rfl⟩)))
                · exact absurd h (by simp)
      | succ k =>
          simp only [utf8Scan] at h
          split at h
          · next h1 =>
              obtain ⟨conts, units, hsplit, hlen, hconts, hunits⟩ := ih k h0bs h
              refine ⟨b :: conts, units, by simp [hsplit], by simp [hlen], ?_, hunits⟩
              intro c hc
              rcases List.mem_cons.mp hc with h2 | h2
              · rw [h2]; exact h1
              · exact hconts c h2
          · exact absurd h (by simp)

/-- A buffer of complete units without zero bytes is accepted. -/
theorem is_valid_utf8_of_units (units : List (List Nat))
    (hu : ∀ u, u ∈ units → isCompleteUnit u = true) (h0 : 0 ∉ units.flatten) :
    is_valid_utf8 units.flatten = true := by
  have h := utf8Scan_units units [] hu h0
  rw [List.append_nil] at h
  unfold is_valid_utf8
  rw [h]
  rfl

/-- Claim C13 (UTF-8 well-formedness check).  For every buffer, `is_valid_utf8` returns
true exactly when the bytes before the first zero byte are a concatenation of complete
units (a leading byte `0xxxxxxx`, `110xxxxx`, `1110xxxx` or `11110xxx` followed by exactly
0, 1, 2 or 3 continuation bytes `10xxxxxx`).  In particular it rejects a buffer in which
complete units are followed by a byte that matches none of the four leading patterns, and a
buffer whose bytes before the terminator end in a multi-byte unit cut short. -/
theorem is_valid_utf8_iff_units (buf : List Nat) :
    (is_valid_utf8 buf = true ↔
      ∃ units : List (List Nat),
        (∀ u, u ∈ units → isCompleteUnit u = true) ∧ units.flatten = c_str buf) ∧
    (∀ (units : List (List Nat)) (b : Nat) (rest : List Nat),
      (∀ u, u ∈ units → isCompleteUnit u = true) →
      c_str buf = units.flatten ++ b :: rest →
      b &&& 0x80 ≠ 0 → b &&& 0xE0 ≠ 0xC0 → b &&& 0xF0 ≠ 0xE0 → b &&& 0xF8 ≠ 0xF0 →
      is_valid_utf8 buf = false) ∧
    (∀ (units : List (List Nat)) (u : List Nat) (k : Nat),
      (∀ v, v ∈ units → isCompleteUnit v = true) →
      isMultiByteChar u = true → 0 < k → k < u.length →
      c_str buf = units.flatten ++ u.take k →
      is_valid_utf8 buf = false) := by
  have hz := zero_not_mem_c_str buf
  refine ⟨⟨?_, ?_⟩, ?_, ?_⟩
  · intro h
    unfold is_valid_utf8 at h
    rw [utf8Scan_c_str] at h
    obtain ⟨conts, units, hsplit, hlen, _, hunits⟩ := utf8Scan_parse (c_str buf) 0 hz h
    have : conts = [] := List.length_eq_zero.mp hlen
    subst this
    exact ⟨units, hunits, by rw [hsplit]; rfl⟩
  · rintro ⟨units, hunits, hflat⟩
    unfold is_valid_utf8
    rw [utf8Scan_c_str, ← hflat]
    exact is_valid_utf8_of_units units hunits (by rw [hflat]; exact hz)
  · intro units b rest hunits hsplit h1 h2 h3 h4
    have h0 : 0 ∉ units.flatten := fun hm => hz (by rw [hsplit]; exact List.mem_append_left _ hm)
    have hb : b ≠ 0 := fun hb0 => hz (by rw [hsplit, hb0]; simp)
    unfold is_valid_utf8
    rw [utf8Scan_c_str, hsplit, utf8Scan_units units _ hunits h0]
    simp only [utf8Scan, hb, h1, h2, h3, h4, if_false]
  · intro units u k hunits hu hk0 hk hsplit
    have h0 : 0 ∉ units.flatten := fun hm => hz (by rw [hsplit]; exact List.mem_append_left _ hm)
    unfold is_valid_utf8
    rw [utf8Scan_c_str, hsplit, utf8Scan_units units _ hunits h0]
    cases u with
    | nil => simp at hk
    | cons b rest =>
        obtain ⟨j, rfl⟩ : ∃ j, k = j + 1 := ⟨k - 1, by omega⟩
        rw [List.take_succ_cons, utf8Scan_lead b rest _ hu]
        apply utf8Scan_short
        · intro c hc
          exact ((isMultiByteChar_iff b rest).mp hu).1 c (List.mem_of_mem_take hc)
        · simp only [List.length_cons] at hk
          rw [List.length_take]
          omega

/-- Witness for claim C13: `E2 82 AC 41` is two complete units and is accepted; `41 FF` has
a malformed leading byte and `41 E2 82` ends in a unit cut short, and both are rejected. -/
theorem is_valid_utf8_iff_units_witness :
    is_valid_utf8 [0xE2, 0x82, 0xAC, 0x41] = true ∧
    is_valid_utf8 [0x41, 0xFF] = false ∧
    is_valid_utf8 [0x41, 0xE2, 0x82] = false :=
  ⟨(is_valid_utf8_iff_units [0xE2, 0x82, 0xAC, 0x41]).1.mpr
      ⟨[[0xE2, 0x82, 0xAC], [0x41]], by decide, by decide⟩,
   (is_valid_utf8_iff_units [0x41, 0xFF]).2.1 [[0x41]] 0xFF [] (by decide) (by decide)
      (by decide) (by decide) (by decide) (by decide),
   (is_valid_utf8_iff_units [0x41, 0xE2, 0x82]).2.2 [[0x41]] [0xE2, 0x82, 0xAC] 2 (by decide)
      (by decide) (by decide) (by decide) (by decide)⟩

/-! ## Reads of the well-formedness check -/

/-- The reads of the scan started at index `idx`: the result is that of `utf8Scan`, the
indices read are consecutive from `idx`, and none lies beyond the first zero byte. -/
theorem utf8ScanReads_spec : ∀ (buf : List Nat) (need idx : Nat),
    (utf8ScanReads need idx buf).1 = utf8Scan need buf ∧
    (utf8ScanReads need idx buf).2 =
      List.range' idx (utf8ScanReads need idx buf).2.length ∧
    0 < (utf8ScanReads need idx buf).2.length ∧
    (utf8ScanReads need idx buf).2.length ≤ (c_str buf).length + 1 := by
  intro buf
  induction buf with
  | nil =>
      intro need idx
      cases need with
      | zero => exact ⟨rfl, rfl, Nat.zero_lt_one, Nat.le_add_left _ _⟩
      | succ k => exact ⟨rfl, rfl, Nat.zero_lt_one, Nat.le_add_left _ _⟩
  | cons b bs ih =>
      intro need idx
      have step : ∀ r,
          (utf8ScanReads r (idx + 1) bs).1 = utf8Scan r bs ∧
          idx :: (utf8ScanReads r (idx + 1) bs).2 =
            List.range' idx (idx :: (utf8ScanReads r (idx + 1) bs).2).length ∧
          0 < (idx :: (utf8ScanReads r (idx + 1) bs).2).length ∧
          (b ≠ 0 → (idx :: (utf8ScanReads r (idx + 1) bs).2).length ≤
            (c_str (b :: bs)).length + 1) := by
        intro r
        obtain ⟨h1, h2, h3, h4⟩ := ih r (idx + 1)
        refine ⟨h1, ?_, by simp, ?_⟩
        · rw [List.length_cons, List.range'_succ, ← h2]
        · intro hb
          rw [c_str_cons, if_neg hb]
          simp only [List.length_cons]
          omega
      have stop : ∀ v : Bool, (([idx] : List Nat) = List.range' idx ([idx] : List Nat).length) ∧
          0 < ([idx] : List Nat).length ∧
          ([idx] : List Nat).length ≤ (c_str (b :: bs)).length + 1 := by
        intro _
        exact ⟨rfl, Nat.zero_lt_one, Nat.le_add_left _ _⟩
      cases need with
      | zero =>
          by_cases hb : b = 0
          · subst hb
            exact ⟨rfl, rfl, Nat.zero_lt_one, Nat.le_add_left _ _⟩
          · simp only [utf8ScanReads, utf8Scan, hb, if_false]
            split
            · exact ⟨(step 0).1, (step 0).2.1, (step 0).2.2.1, (step 0).2.2.2 hb⟩
            · split
              · exact ⟨(step 1).1, (step 1).2.1, (step 1).2.2.1, (step 1).2.2.2 hb⟩
              · split
                · exact ⟨(step 2).1, (step 2).2.1, (step 2).2.2.1, (step 2).2.2.2 hb⟩
                · split
                  · exact ⟨(step 3).1, (step 3).2.1, (step 3).2.2.1, (step 3).2.2.2 hb⟩
                  · exact ⟨rfl, (stop true).1, (stop true).2.1, (stop true).2.2⟩
      | succ k =>
          simp only [utf8ScanReads, utf8Scan]
          split
          · next hc =>
              have hb : b ≠ 0 := (lead_bits b).1 hc
              exact ⟨(step k).1, (step k).2.1, (step k).2.2.1, (step k).2.2.2 hb⟩
          · exact ⟨rfl, (stop true).1, (stop true).2.1, (stop true).2.2⟩

/-- The terminator that the scan meets first: in the buffer `buf` followed by the final
zero byte of the `std::string`, the first zero byte is at index `(c_str buf).length`. -/
theorem first_nul_index (buf : List Nat) :
    (buf ++ [0])[(c_str buf).length]? = some 0 ∧
    ∀ i, i < (c_str buf).length → (buf ++ [0])[i]? ≠ some 0 := by
  induction buf with
  | nil => exact ⟨rfl, fun i hi => by simp [c_str] at hi⟩
  | cons b bs ih =>
      rw [c_str_cons]
      by_cases hb : b = 0
      · rw [if_pos hb]
        exact ⟨by simp [hb], fun i hi => by simp at hi⟩
      · rw [if_neg hb]
        refine ⟨by simpa using ih.1, ?_⟩
        intro i hi
        cases i with
        | zero =>
            simp only [List.cons_append, List.getElem?_cons_zero, ne_eq, Option.some.injEq]
            exact hb
        | succ j =>
            simp only [List.cons_append, List.getElem?_cons_succ]
            exact ih.2 j (by simp only [List.length_cons] at hi; omega)

/-- Claim C20 (the scan stays inside the buffer).  For every buffer (a `std::string`
followed by its terminating zero byte, possibly with earlier zero bytes), the scan of
`is_valid_utf8` is a total function that returns the result of `is_valid_utf8`; it reads
the indices `0, 1, 2, ...` in order, at least one and at most
`index of the first zero byte + 1` of them, so every index it reads is at most the index of
the first zero byte.  This includes a buffer that ends in a leading byte announcing more
continuation bytes than are present. -/
theorem is_valid_utf8_reads_within_buffer (buf : List Nat) :
    (utf8ScanReads 0 0 buf).1 = is_valid_utf8 buf ∧
    (utf8ScanReads 0 0 buf).2 = List.range (utf8ScanReads 0 0 buf).2.length ∧
    (utf8ScanReads 0 0 buf).2.length ≤ (c_str buf).length + 1 ∧
    (∀ i, i ∈ (utf8ScanReads 0 0 buf).2 → i ≤ (c_str buf).length) ∧
    (buf ++ [0])[(c_str buf).length]? = some 0 ∧
    (∀ i, i < (c_str buf).length → (buf ++ [0])[i]? ≠ some 0) ∧
    utf8ScanReads 0 0 [0xE2] = (false, [0, 1]) ∧
    utf8ScanReads 0 0 [0x41, 0xF0, 0x9F] = (false, [0, 1, 2, 3]) := by
  obtain ⟨h1, h2, _, h4⟩ := utf8ScanReads_spec buf 0 0
  have hn := first_nul_index buf
  refine ⟨h1, ?_, h4, ?_, hn.1, hn.2, by decide, by decide⟩
  · rw [List.range_eq_range']
    exact h2
  · intro i hi
    rw [h2, List.mem_range'_1] at hi
    omega

/-- Witness for claim C20: for the buffer `E2` (a leading byte announcing two continuation
bytes, then the terminator) the scan reads index 0 and index 1, the terminator, and
nothing beyond it. -/
theorem is_valid_utf8_reads_within_buffer_witness :
    (utf8ScanReads 0 0 [0xE2]).2 = [0, 1] ∧
    (c_str [0xE2]).length = 1 ∧
    1 ≤ (c_str [0xE2]).length ∧
    ([0xE2] ++ [0])[(c_str [0xE2]).length]? = some 0 :=
  ⟨by decide, by decide,
   (is_valid_utf8_reads_within_buffer [0xE2]).2.2.2.1 1 (by decide),
   (is_valid_utf8_reads_within_buffer [0xE2]).2.2.2.2.1⟩

/-! ## Genuine text -/

set_option maxRecDepth 100000 in
theorem encoded_byte_bits : ∀ f : Fin 256,
    ((UInt8.mk (BitVec.ofFin f)) &&& 63 ||| 128).toNat &&& 0xC0 = 0x80 ∧
    ((UInt8.mk (BitVec.ofFin f)) &&& 31 ||| 192).toNat &&& 0xE0 = 0xC0 ∧
    ((UInt8.mk (BitVec.ofFin f)) &&& 15 ||| 224).toNat &&& 0xF0 = 0xE0 ∧
    ((UInt8.mk (BitVec.ofFin f)) &&& 7 ||| 240).toNat &&& 0xF8 = 0xF0 := by
  decide

theorem encoded_bits (x : UInt8) :
    (x &&& 63 ||| 128).toNat &&& 0xC0 = 0x80 ∧
    (x &&& 31 ||| 192).toNat &&& 0xE0 = 0xC0 ∧
    (x &&& 15 ||| 224).toNat &&& 0xF0 = 0xE0 ∧
    (x &&& 7 ||| 240).toNat &&& 0xF8 = 0xF0 := by
  cases x with
  | mk bv =>
    cases bv with
    | ofFin f => exact encoded_byte_bits f

set_option maxRecDepth 100000 in
theorem ascii_bits : ∀ n, n < 128 → n % 256 &&& 0x80 = 0 ∧ (n ≠ 0 → n % 256 ≠ 0) := by
  decide

theorem ascii_byte (v : UInt32) (h : v ≤ 127) :
    v.toUInt8.toNat &&& 0x80 = 0 ∧ (v.toNat ≠ 0 → v.toUInt8.toNat ≠ 0) := by
  have hle : v.toNat ≤ 127 := by
    rw [UInt32.le_def, BitVec.le_def] at h
    exact h
  have hb : v.toUInt8.toNat = v.toNat % 256 := rfl
  rw [hb]
  exact ascii_bits v.toNat (by omega)

/-- The standard encoding of a character other than U+0000 is one complete unit without
zero bytes. -/
theorem utf8EncodeChar_unit (c : Char) (hc : c.toNat ≠ 0) :
    isCompleteUnit ((String.utf8EncodeChar c).map UInt8.toNat) = true ∧
    0 ∉ (String.utf8EncodeChar c).map UInt8.toNat := by
  have hcont : ∀ x : UInt8, (x &&& 63 ||| 128).toNat &&& 0xC0 = 0x80 :=
    fun x => (encoded_bits x).1
  have hnz : ∀ x : UInt8, (x &&& 63 ||| 128).toNat ≠ 0 :=
    fun x => (lead_bits _).1 (hcont x)
  unfold String.utf8EncodeChar
  simp only
  split
  · next h =>
      have ha := ascii_byte c.val h
      refine ⟨?_, ?_⟩
      · rw [List.map_cons, List.map_nil, isCompleteUnit_iff]
        exact ⟨by simp, Or.inl ⟨ha.1, rfl⟩⟩
      · simp only [List.map_cons, List.map_nil, List.mem_singleton]
        exact fun h0 => ha.2 hc h0.symm
  · split
    · have h2 := (encoded_bits (c.val >>> 6).toUInt8).2.1
      refine ⟨?_, ?_⟩
      · simp only [List.map_cons, List.map_nil]
        rw [isCompleteUnit_iff]
        refine ⟨?_, Or.inr (Or.inl ⟨h2, rfl⟩)⟩
        intro x hx
        simp only [List.mem_singleton] at hx
        rw [hx]; exact hcont _
      · simp only [List.map_cons, List.map_nil, List.mem_cons, List.mem_singleton,
          List.not_mem_nil, or_false, not_or]
        exact ⟨fun h0 => ((lead_bits _).2.1 h2).1 h0.symm, fun h0 => hnz _ h0.symm⟩
    · split
      · have h3 := (encoded_bits (c.val >>> 12).toUInt8).2.2.1
        refine ⟨?_, ?_⟩
        · simp only [List.map_cons, List.map_nil]
          rw [isCompleteUnit_iff]
          refine ⟨?_, Or.inr (Or.inr (Or.inl ⟨h3, rfl⟩))⟩
          intro x hx
          simp only [List.mem_cons, List.mem_singleton, List.not_mem_nil, or_false] at hx
          rcases hx with hx | hx <;> (rw [hx]; exact hcont _)
        · simp only [List.map_cons, List.map_nil, List.mem_cons, List.mem_singleton,
            List.not_mem_nil, or_false, not_or]
          exact ⟨fun h0 => ((lead_bits _).2.2.1 h3).1 h0.symm, fun h0 => hnz _ h0.symm,
            fun h0 => hnz _ h0.symm⟩
      · have h4 := (encoded_bits (c.val >>> 18).toUInt8).2.2.2
        refine ⟨?_, ?_⟩
        · simp only [List.map_cons, List.map_nil]
          rw [isCompleteUnit_iff]
          refine ⟨?_, Or.inr (Or.inr (Or.inr ⟨h4, rfl⟩))⟩
          intro x hx
          simp only [List.mem_cons, List.mem_singleton, List.not_mem_nil, or_false] at hx
          rcases hx with hx | hx | hx <;> (rw [hx]; exact hcont _)
        · simp only [List.map_cons, List.map_nil, List.mem_cons, List.mem_singleton,
            List.not_mem_nil, or_false, not_or]
          exact ⟨fun h0 => ((lead_bits _).2.2.2 h4).1 h0.symm, fun h0 => hnz _ h0.symm,
            fun h0 => hnz _ h0.symm, fun h0 => hnz _ h0.symm⟩

theorem encoded_chars_units : ∀ (cs : List Char), (∀ c, c ∈ cs → c.toNat ≠ 0) →
    (∀ u, u ∈ cs.map (fun c => (String.utf8EncodeChar c).map UInt8.toNat) →
      isCompleteUnit u = true) ∧
    (cs.map fun c => (String.utf8EncodeChar c).map UInt8.toNat).flatten =
      (cs.flatMap String.utf8EncodeChar).map UInt8.toNat ∧
    0 ∉ (cs.flatMap String.utf8EncodeChar).map UInt8.toNat := by
  intro cs
  induction cs with
  | nil => intro _; exact ⟨by simp, rfl, by simp⟩
  | cons c cs ih =>
      intro h
      have hc := utf8EncodeChar_unit c (h c (List.mem_cons_self _ _))
      obtain ⟨h1, h2, h3⟩ := ih (fun d hd => h d (List.mem_cons_of_mem _ hd))
      refine ⟨?_, ?_, ?_⟩
      · intro u hu
        rw [List.map_cons] at hu
        rcases List.mem_cons.mp hu with hu | hu
        · rw [hu]; exact hc.1
        · exact h1 u hu
      · rw [List.map_cons, List.flatten_cons, h2, List.flatMap_cons, List.map_append]
      · rw [List.flatMap_cons, List.map_append]
        intro h0
        rcases List.mem_append.mp h0 with h0 | h0
        · exact hc.2 h0
        · exact h3 h0

/-- Claim C19 (genuine text is accepted).  For every string without the character U+0000,
`is_valid_utf8` returns true on the standard UTF-8 encoding of the string (the bytes that
`String.toUTF8` stores).  Hence, when the pending bytes together with the piece of the
newly generated token are whole, correctly encoded characters, the tail of
`generateNextToken` returns exactly these bytes and clears the buffer; so does every
`generateNextToken` call that returns text in such a session. -/
theorem genuine_text_accepted (text : String) (h : ∀ c, c ∈ text.data → c.toNat ≠ 0) :
    utf8Bytes text = text.toUTF8.data.toList.map UInt8.toNat ∧
    is_valid_utf8 (utf8Bytes text) = true ∧
    (∀ pending piece, pending ++ piece = utf8Bytes text →
      emit pending piece = (utf8Bytes text, [])) ∧
    (∀ (e : Engine) (s : Session) (frag : List Nat),
      (generateNextToken e s).1 = some frag →
      s.cached_token_chars ++ e.tokenToPiece (sampledToken e s) = utf8Bytes text →
      frag = utf8Bytes text ∧ (generateNextToken e s).2.cached_token_chars = []) := by
  obtain ⟨h1, h2, h3⟩ := encoded_chars_units text.data h
  have hvalid : is_valid_utf8 (utf8Bytes text) = true := by
    unfold utf8Bytes
    rw [← h2]
    exact is_valid_utf8_of_units _ h1 (by rw [h2]; exact h3)
  have hemit : ∀ pending piece, pending ++ piece = utf8Bytes text →
      emit pending piece = (utf8Bytes text, []) := by
    intro pending piece hcat
    have h0 : 0 ∉ utf8Bytes text := h3
    simp only [emit, hcat, hvalid, if_true]
    rw [c_str_of_no_nul _ h0]
  refine ⟨rfl, hvalid, hemit, ?_⟩
  intro e s frag hfrag hcat
  have hs := generateNextToken_some e s frag hfrag
  rw [hemit _ _ hcat] at hs
  exact ⟨hs.2.1, hs.2.2⟩

/-- Witness for claim C19: the string `"€"` (U+20AC) encodes to `E2 82 AC`; with `E2 82`
pending and the piece `AC`, the call returns the three bytes and clears the buffer. -/
theorem genuine_text_accepted_witness :
    utf8Bytes "€" = [0xE2, 0x82, 0xAC] ∧
    is_valid_utf8 (utf8Bytes "€") = true ∧
    emit [0xE2, 0x82] [0xAC] = (utf8Bytes "€", []) ∧
    (generateNextToken euroEngine (promptedSession euroEngine)).2.cached_token_chars =
      [0xE2, 0x82] ∧
    (generateNextToken euroEngine
      (generateNextToken euroEngine (promptedSession euroEngine)).2).1 =
      some (utf8Bytes "€") := by
  have h := genuine_text_accepted "€" (by decide)
  have hstep := h.2.2.2 euroEngine (generateNextToken euroEngine (promptedSession euroEngine)).2
    [0xE2, 0x82, 0xAC] (by decide) (by decide)
  refine ⟨by decide, h.2.1, h.2.2.1 [0xE2, 0x82] [0xAC] (by decide), by decide, ?_⟩
  rw [← hstep.1]
  decide

theorem tokenize_rejectedPrompt (n : Nat) :
    pickyEngine.tokenize (rejectedPrompt n) = List.replicate n 99 ++ [100] := by
  simp [pickyEngine, codePoints, rejectedPrompt]

theorem tokenize_paddedPrompt_picky (n : Nat) :
    pickyEngine.tokenize (paddedPrompt [] n) = List.replicate n 99 := by
  simp [pickyEngine, codePoints, paddedPrompt]

/-- One rejected token decoded from a given start position: status 1, position and stop
position untouched. -/
theorem decode_rejected_token (sp : Int) (s : Session)
    (hsp : sp + 1 < DEFAULT_CONTEXT_SIZE - OVERFLOW_HEADROOM) :
    (decode_tokens_in_batches pickyEngine [100] sp s).1 = 1 ∧
    (decode_tokens_in_batches pickyEngine [100] sp s).2.current_position =
      s.current_position ∧
    (decode_tokens_in_batches pickyEngine [100] sp s).2.stop_generation_position =
      s.stop_generation_position := by
  have hoffs : chunkOffsets [(100 : Token)].length = [0] := by decide
  have hcur : cur_batch_size [(100 : Token)] 0 = 1 := by decide
  have hcond : ¬ (sp + ((0 : Nat) : Int) + ((1 : Nat) : Int) ≥
      DEFAULT_CONTEXT_SIZE - OVERFLOW_HEADROOM) := by
    simp only [DEFAULT_CONTEXT_SIZE, OVERFLOW_HEADROOM] at hsp ⊢
    omega
  have hrej : pickyEngine.decodeOk s.trace (chunkBatch [100] sp 0) = false := by
    simp [pickyEngine, chunkBatch, fillBatch, hcur]
  simp only [decode_tokens_in_batches, hoffs, decodeChunks, hcur, if_neg hcond, submit, hrej]
  simp

/-! ## A position above the stop position -/

theorem newTokens_empty (e : Engine) (prompt : String) :
    newTokens e prompt emptySession = e.tokenize prompt := by
  show (e.tokenize prompt).drop (common_prefix_len [] (e.tokenize prompt)) = _
  rw [common_prefix_len_nil, List.drop_zero]

theorem runOps_cons_processPrompt (e : Engine) (prompt : String) (n : Int) (ops : List Op)
    (s : Session) :
    runOps e (Op.processPrompt prompt n :: ops) s = runOps e ops (processPrompt e prompt n s).2 :=
  rfl

theorem runOps_cons_generateNextToken (e : Engine) (ops : List Op) (s : Session) :
    runOps e (Op.generateNextToken :: ops) s = runOps e ops (generateNextToken e s).2 :=
  rfl

theorem runOps_nil (e : Engine) (s : Session) : runOps e [] s = s := rfl

/-- Counterexample to claim C11 as stated, on both halves.  First: the prompt `"ab"` with
the budget `2147483647` succeeds at position 2, and the `int32` sum wraps, so the stop
position is `-2147483647`, neither position plus budget nor at least the position.
Second, without any overflow: with `pickyEngine`, a prompt of 8188 tokens succeeds with
budget 0 (position and stop position 8188); the next step shifts to position 4094 and its
decode is rejected; the same prompt again succeeds and sets the stop position to 4094; a
prompt that shares 8000 tokens with the cache then truncates the cache, sets the position
to 8000 and fails on its last token.  All budgets are 0, and the position 8000 is above
the stop position 4094. -/
theorem stop_position_counterexample :
    ((processPrompt pickyEngine "ab" 2147483647 emptySession).1 = 0 ∧
      (processPrompt pickyEngine "ab" 2147483647 emptySession).2.current_position = 2 ∧
      (processPrompt pickyEngine "ab" 2147483647 emptySession).2.stop_generation_position =
        -2147483647 ∧
      (processPrompt pickyEngine "ab" 2147483647 emptySession).2.stop_generation_position ≠
        (processPrompt pickyEngine "ab" 2147483647 emptySession).2.current_position +
          2147483647 ∧
      ¬ (processPrompt pickyEngine "ab" 2147483647 emptySession).2.stop_generation_position ≥
        (processPrompt pickyEngine "ab" 2147483647 emptySession).2.current_position) ∧
    Reachable pickyEngine (runOps pickyEngine staleStopOps emptySession) ∧
    (processPrompt pickyEngine (paddedPrompt [] 8188) 0 emptySession).1 = 0 ∧
    (runOps pickyEngine staleStopOps emptySession).current_position = 8000 ∧
    (runOps pickyEngine staleStopOps emptySession).stop_generation_position = 4094 ∧
    ¬ (runOps pickyEngine staleStopOps emptySession).stop_generation_position ≥
      (runOps pickyEngine staleStopOps emptySession).current_position := by
  refine ⟨by decide, ?_⟩
  have hT := tokenize_paddedPrompt_picky 8188
  have hno : (100 : Token) ∉ List.replicate 8188 (99 : Token) := by
    intro h; exact absurd (List.eq_of_mem_replicate h) (by decide)
  -- first prompt
  have hst1 : (processPrompt pickyEngine (paddedPrompt [] 8188) 0 emptySession).1 = 0 := by
    rw [processPrompt_status]
    apply decodeChunks_accepting_chunks
    intro tr i
    apply pickyEngine_accepts
    rw [newTokens_empty, hT]
    exact hno
  have h1 := processPrompt_fresh_of_status pickyEngine (paddedPrompt [] 8188) 0 emptySession
    rfl rfl hst1
  refine ⟨⟨staleStopOps, rfl⟩, hst1, ?_⟩
  rw [staleStopOps, runOps_cons_processPrompt, runOps_cons_generateNextToken,
    runOps_cons_processPrompt, runOps_cons_processPrompt, runOps_nil]
  rw [hT] at h1
  generalize (processPrompt pickyEngine (paddedPrompt [] 8188) 0 emptySession).2 = s1 at h1 ⊢
  have hc1 : s1.cached_prompt_tokens = List.replicate 8188 99 := h1.1
  have hp1 : s1.current_position = 8188 := by rw [h1.2.1, List.length_replicate]; rfl
  have hs1 : s1.stop_generation_position = 8188 := by
    rw [h1.2.2, List.length_replicate]; rfl
  -- the step
  have hsh : (shiftIfFull s1).current_position = 4094 := by
    rw [shiftIfFull_full s1 (by rw [hp1]; decide), shift_context_position,
      n_discard_eq s1 (by rw [hp1]; decide), hp1]
    decide
  have h2 := generateNextToken_rejected pickyEngine s1
    (by rw [hsh, (shiftIfFull_frame s1).2.1, hs1]; decide) rfl
  rw [hsh, hc1, hs1] at h2
  generalize (generateNextToken pickyEngine s1).2 = s2 at h2 ⊢
  -- the same prompt again
  have h3 := processPrompt_same pickyEngine (paddedPrompt [] 8188) 0 s2
    (by rw [hT, h2.1]) (by rw [h2.2.1]; decide)
  rw [h2.1, h2.2.1] at h3
  generalize (processPrompt pickyEngine (paddedPrompt [] 8188) 0 s2).2 = s3 at h3 ⊢
  -- the rejected prompt
  have hT4 := tokenize_rejectedPrompt 8000
  have hk : common_prefix_len s3.cached_prompt_tokens
      (pickyEngine.tokenize (rejectedPrompt 8000)) = 8000 := by
    rw [h3.2.1, hT4]
    exact common_prefix_len_replicate 8188 8000 99 100 (by decide) (by decide)
  have hnew : newTokens pickyEngine (rejectedPrompt 8000) s3 = [100] := by
    rw [newTokens, hk, hT4]
    exact List.drop_left' (List.length_replicate _ _)
  have htr : (truncateCache 8000 s3).current_position = 8000 ∧
      (truncateCache 8000 s3).stop_generation_position = 4094 := by
    have hlt : 8000 < s3.cached_prompt_tokens.length := by
      rw [h3.2.1, List.length_replicate]; decide
    simp only [truncateCache, if_pos hlt, h3.2.2.2]
    exact ⟨rfl, rfl⟩
  have hbd : beforeDecode pickyEngine (rejectedPrompt 8000) s3 = truncateCache 8000 s3 := by
    simp only [beforeDecode, hk, hnew, htr.1]
    rw [if_neg]
    decide
  have hdec := decode_rejected_token 8000 (truncateCache 8000 s3) (by decide)
  have hst4 : (processPrompt pickyEngine (rejectedPrompt 8000) 0 s3).1 ≠ 0 := by
    rw [processPrompt_status, hbd, hnew, htr.1, hdec.1]
    decide
  rw [processPrompt_failure _ _ _ _ hst4, hbd, hnew, htr.1, hdec.2.1, hdec.2.2, htr.1, htr.2]
  exact ⟨rfl, rfl, by decide⟩

end SessionsAI
